import Mathlib

/-!
Station pipeline of the kitchen simulation (project 6).

A shallow embedding of `KitchenStation` and `StationManager`
(`src/project-6-smubashirova`) together with the properties proved about them.

Modelling conventions.

* `std::vector<T>` and `std::queue<T>` are `List T`; the front of a queue is the head.
* `int` is `Int`; every quantity is assumed to stay inside the range of `int`
  (signed overflow has no defined behaviour in the source language).
* `double price` is only ever copied by the code embedded here, so it is carried as
  the natural number encoding its bit pattern.
* The manager owns its stations through pointers held in a linked list; the list is
  a `List KitchenStation` and a station pointer is the position of the station in
  that list.  Distinct positions are distinct station objects.
* Dishes are never written to by the operations embedded here, so a `Dish*` is the
  dish value; queue entries are non-null (as `addDishToQueue` guarantees).
-/

namespace Kitchen

/-! ## Data model (`Dish.hpp`, `KitchenStation.hpp`, `StationManager.hpp`) -/

/-- The `Ingredient` struct of `Dish.hpp`. -/
structure Ingredient where
  name : String
  quantity : Int
  required_quantity : Int
  price : Nat
deriving DecidableEq, Repr

/-- The data members of the `Dish` base class that the pipeline can observe. -/
structure Dish where
  name_ : String
  ingredients_ : List Ingredient
  prep_time_ : Int
  price_ : Nat
  cuisine_type_ : Nat
deriving DecidableEq, Repr

/-- The data members of `KitchenStation`. -/
structure KitchenStation where
  station_name_ : String
  dishes_ : List Dish
  ingredients_stock_ : List Ingredient
deriving DecidableEq, Repr

/-! ## `KitchenStation` (KitchenStation.cpp) -/

/-- Loop of `KitchenStation::isPresent` (lines 47-54). -/
def isPresentLoop (dish_name : String) : List Dish → Bool
  | [] => false
  | dish :: rest => if dish.name_ = dish_name then true else isPresentLoop dish_name rest

/-- Method `KitchenStation::isPresent`. -/
def KitchenStation.isPresent (s : KitchenStation) (dish_name : String) : Bool :=
  isPresentLoop dish_name s.dishes_

/-- Loop of `KitchenStation::replenishStationIngredients` (lines 58-67): `some` is the
ledger after the first entry with the name was raised (the `return` inside the loop),
`none` means the loop ran to its end without a match. -/
def replenishLoop (ingredient : Ingredient) : List Ingredient → Option (List Ingredient)
  | [] => none
  | stock_ingredient :: rest =>
    if stock_ingredient.name = ingredient.name then
      some ({ stock_ingredient with
                quantity := stock_ingredient.quantity + ingredient.quantity } :: rest)
    else
      match replenishLoop ingredient rest with
      | some rest1 => some (stock_ingredient :: rest1)
      | none => none

/-- Ledger effect of `KitchenStation::replenishStationIngredients` (lines 56-69). -/
def replenishStock (ingredient : Ingredient) (stock : List Ingredient) : List Ingredient :=
  match replenishLoop ingredient stock with
  | some stock1 => stock1
  | none => stock ++ [ingredient]

/-- Method `KitchenStation::replenishStationIngredients` (lines 56-69). -/
def KitchenStation.replenishStationIngredients (s : KitchenStation)
    (ingredient : Ingredient) : KitchenStation :=
  { s with ingredients_stock_ := replenishStock ingredient s.ingredients_stock_ }

/-- Innermost loop of `canCompleteOrder` (lines 79-93) for one required ingredient.
`none` is the `return false` of line 90; `some found` is the value of `found` when the
loop ends. -/
def canScan (ingredient : Ingredient) : List Ingredient → Bool → Option Bool
  | [], found => some found
  | stock_ingredient :: rest, found =>
    if stock_ingredient.name = ingredient.name then
      if stock_ingredient.quantity ≥ ingredient.required_quantity then
        canScan ingredient rest true
      else none
    else canScan ingredient rest found

/-- Loop over the ingredients of the matched dish in `canCompleteOrder` (lines 76-99). -/
def canIngredients (stock : List Ingredient) : List Ingredient → Bool
  | [] => true
  | ingredient :: rest =>
    match canScan ingredient stock false with
    | none => false
    | some false => false
    | some true => canIngredients stock rest

/-- Loop over the assigned dishes in `canCompleteOrder` (lines 72-102). -/
def canDishes (stock : List Ingredient) (dish_name : String) : List Dish → Bool
  | [] => false
  | dish :: rest =>
    if dish.name_ = dish_name then canIngredients stock dish.ingredients_
    else canDishes stock dish_name rest

/-- Method `KitchenStation::canCompleteOrder` (lines 71-103). -/
def KitchenStation.canCompleteOrder (s : KitchenStation) (dish_name : String) : Bool :=
  canDishes s.ingredients_stock_ dish_name s.dishes_

/-- Method `KitchenStation::removeIngredient` (lines 149-157), ledger effect: the first
entry with the name is erased. -/
def removeIngredient (ingredient_name : String) : List Ingredient → List Ingredient
  | [] => []
  | x :: rest =>
    if x.name = ingredient_name then rest else x :: removeIngredient ingredient_name rest

/-- Inner loop of the re-check in `prepareDish` (lines 117-125): it stops with `found`
at the first entry of the name whose quantity reaches `ingredient.quantity`. -/
def prepScan (ingredient : Ingredient) : List Ingredient → Bool
  | [] => false
  | stock_ingredient :: rest =>
    if stock_ingredient.name = ingredient.name then
      if stock_ingredient.quantity ≥ ingredient.quantity then true
      else prepScan ingredient rest
    else prepScan ingredient rest

/-- Re-check loop of `prepareDish` over the ingredients of the dish (lines 115-130). -/
def prepCheck (stock : List Ingredient) : List Ingredient → Bool
  | [] => true
  | ingredient :: rest =>
    if prepScan ingredient stock then prepCheck stock rest else false

/-- Inner deduction loop of `prepareDish` (lines 133-141) for one required ingredient.

The range-based `for` reads its end position once, before the first iteration, and
then advances a position `j` through the vector while `removeIngredient` may erase an
entry of the same vector.  The first argument counts the iterations still to run
(initially the size of the ledger when the loop starts), `j` is the current position.
An erasure shifts the later entries one slot to the left, so the entry that moves
into slot `j` is passed over; a position at or beyond the live end of the vector no
longer holds a ledger entry and matches nothing. -/
def deductScan (ingredient : Ingredient) : Nat → Nat → List Ingredient → List Ingredient
  | 0, _, stock => stock
  | k + 1, j, stock =>
    match stock[j]? with
    | none => deductScan ingredient k (j + 1) stock
    | some stock_ingredient =>
      if stock_ingredient.name = ingredient.name then
        let lowered : Ingredient :=
          { stock_ingredient with
              quantity := stock_ingredient.quantity - ingredient.required_quantity }
        let stock1 := stock.set j lowered
        if lowered.quantity = 0 then
          deductScan ingredient k (j + 1) (removeIngredient lowered.name stock1)
        else deductScan ingredient k (j + 1) stock1
      else deductScan ingredient k (j + 1) stock

/-- Deduction loop of `prepareDish` over the ingredients of the dish (lines 132-142). -/
def deductAll : List Ingredient → List Ingredient → List Ingredient
  | [], stock => stock
  | ingredient :: rest, stock =>
    deductAll rest (deductScan ingredient stock.length 0 stock)

/-- Loop over the assigned dishes in `prepareDish` (lines 112-146). -/
def prepDishes (dish_name : String) (stock : List Ingredient) :
    List Dish → Bool × List Ingredient
  | [] => (false, stock)
  | dish :: rest =>
    if dish.name_ = dish_name then
      if prepCheck stock dish.ingredients_ then (true, deductAll dish.ingredients_ stock)
      else (false, stock)
    else prepDishes dish_name stock rest

/-- Method `KitchenStation::prepareDish` (lines 105-147): the returned flag and the
station afterwards. -/
def KitchenStation.prepareDish (s : KitchenStation) (dish_name : String) :
    Bool × KitchenStation :=
  if s.canCompleteOrder dish_name then
    let r := prepDishes dish_name s.ingredients_stock_ s.dishes_
    (r.1, { s with ingredients_stock_ := r.2 })
  else (false, s)

/-! ## Observations used to state the properties -/

/-- On-hand quantity of an ingredient name in a ledger: the quantity of the first
entry with that name, `0` when there is none (the lookup of
`StationManager::processAllDishes`, lines 464-473). -/
def onHand (ingredient_name : String) : List Ingredient → Int
  | [] => 0
  | x :: rest => if x.name = ingredient_name then x.quantity else onHand ingredient_name rest

/-- First dish with the given name among the assigned dishes, the one every loop
over `dishes_` stops at. -/
def firstDish (dish_name : String) : List Dish → Option Dish
  | [] => none
  | dish :: rest => if dish.name_ = dish_name then some dish else firstDish dish_name rest

/-- A ledger holds at most one entry per ingredient name. -/
def UniqueNames (stock : List Ingredient) : Prop :=
  (stock.map (fun x => x.name)).Nodup

instance (stock : List Ingredient) : Decidable (UniqueNames stock) := by
  unfold UniqueNames; infer_instance

/-! ## `StationManager` (StationManager.cpp) -/

/-- The data members of `StationManager`: the inherited linked list of stations, the
dish queue and the backup store. -/
structure StationManager where
  stations : List KitchenStation
  dish_queue_ : List Dish
  backup_ingredients_ : List Ingredient
deriving DecidableEq, Repr

/-- Method `StationManager::findStation` (lines 52-62): the node walk stops at the
first station with the name; the returned pointer is its position in the list. -/
def findStation (station_name : String) : List KitchenStation → Option Nat
  | [] => none
  | station :: rest =>
    if station.station_name_ = station_name then some 0
    else
      match findStation station_name rest with
      | some i => some (i + 1)
      | none => none

/-- A write through the station pointer at position `i`: the station there is replaced
by `f` of it, every other position is left alone. -/
def modifyAt (f : KitchenStation → KitchenStation) : Nat → List KitchenStation → List KitchenStation
  | _, [] => []
  | 0, station :: rest => f station :: rest
  | i + 1, station :: rest => station :: modifyAt f i rest

/-- Loop over the backup store in `replenishStationIngredientFromBackup`
(lines 344-366).  `none` is a `return false` (no entry of the name, or the first one
is too small); `some (replenished_ingredient, backup)` is the `return true` branch with
the ingredient handed to the station and the backup store afterwards. -/
def backupScan (ingredient_name : String) (quantity : Int) :
    List Ingredient → Option (Ingredient × List Ingredient)
  | [] => none
  | it :: rest =>
    if it.name = ingredient_name then
      if it.quantity ≥ quantity then
        let replenished_ingredient : Ingredient := { it with quantity := quantity }
        let it1 : Ingredient := { it with quantity := it.quantity - quantity }
        if it1.quantity = 0 then some (replenished_ingredient, rest)
        else some (replenished_ingredient, it1 :: rest)
      else none
    else
      match backupScan ingredient_name quantity rest with
      | some (replenished_ingredient, rest1) => some (replenished_ingredient, it :: rest1)
      | none => none

/-- Method `StationManager::replenishStationIngredientFromBackup` (lines 338-368): the
returned flag and the manager afterwards. -/
def StationManager.replenishStationIngredientFromBackup (m : StationManager)
    (station_name ingredient_name : String) (quantity : Int) : Bool × StationManager :=
  match findStation station_name m.stations with
  | none => (false, m)
  | some i =>
    match backupScan ingredient_name quantity m.backup_ingredients_ with
    | none => (false, m)
    | some (replenished_ingredient, backup1) =>
      (true, { m with
        stations :=
          modifyAt (fun st => st.replenishStationIngredients replenished_ingredient) i m.stations,
        backup_ingredients_ := backup1 })

/-- Stock lookup of `processAllDishes` (lines 467-473): `some availableQuantity` when
an entry of the name is found (the first one), `none` otherwise. -/
def stockLookup (ingredient_name : String) : List Ingredient → Option Int
  | [] => none
  | stockIngredient :: rest =>
    if ingredient_name = stockIngredient.name then some stockIngredient.quantity
    else stockLookup ingredient_name rest

/-- Replenishment loop of `processAllDishes` (lines 461-491) for the station at
position `i`, over the ingredients of the queued dish: the value of `replenished` and
the manager when the loop is left. -/
def replenishPass (i : Nat) : List Ingredient → StationManager → Bool × StationManager
  | [], m => (true, m)
  | ingredient :: rest, m =>
    match m.stations[i]? with
    | none => (false, m)
    | some station =>
      match stockLookup ingredient.name station.ingredients_stock_ with
      | some availableQuantity =>
        let diff := ingredient.required_quantity - availableQuantity
        if diff > 0 then
          let r := m.replenishStationIngredientFromBackup station.station_name_
            ingredient.name diff
          if r.1 then replenishPass i rest r.2 else (false, r.2)
        else replenishPass i rest m
      | none =>
        let r := m.replenishStationIngredientFromBackup station.station_name_
          ingredient.name ingredient.required_quantity
        if r.1 then replenishPass i rest r.2 else (false, r.2)

/-- Final attempt of one station in `processAllDishes` (lines 500-507): `prepareDish`
on the station at position `i`. -/
def tryPrepare (i : Nat) (dish_name : String) (m : StationManager) : Bool × StationManager :=
  match m.stations[i]? with
  | none => (false, m)
  | some station =>
    let r := station.prepareDish dish_name
    (r.1, { m with stations := m.stations.set i r.2 })

/-- Station loop of `processAllDishes` (lines 434-508) for one queued dish.  The first
argument counts the stations still to visit, `i` is the loop index; the result is the
value of `prepared` and the manager when the loop is left. -/
def stationScan (dishToPrepare : Dish) : Nat → Nat → StationManager → Bool × StationManager
  | 0, _, m => (false, m)
  | k + 1, i, m =>
    match m.stations[i]? with
    | none => (false, m)
    | some station =>
      if station.station_name_ = "" then stationScan dishToPrepare k (i + 1) m
      else if isPresentLoop dishToPrepare.name_ station.dishes_ = false then
        stationScan dishToPrepare k (i + 1) m
      else if station.canCompleteOrder dishToPrepare.name_ = false then
        let r := replenishPass i dishToPrepare.ingredients_ m
        if r.1 then
          let p := tryPrepare i dishToPrepare.name_ r.2
          if p.1 then (true, p.2) else stationScan dishToPrepare k (i + 1) p.2
        else stationScan dishToPrepare k (i + 1) r.2
      else
        let p := tryPrepare i dishToPrepare.name_ m
        if p.1 then (true, p.2) else stationScan dishToPrepare k (i + 1) p.2

/-- Handling of one valid queued dish by `processAllDishes` (lines 431-508): the
station loop over all stations of the manager. -/
def attemptDish (dishToPrepare : Dish) (m : StationManager) : Bool × StationManager :=
  stationScan dishToPrepare m.stations.length 0 m

/-- Queue loop of `processAllDishes` (lines 422-515): the first argument is the main
queue still to drain, the second is `temp_queue`. -/
def processLoop : List Dish → List Dish → StationManager → StationManager
  | [], temp_queue, m => { m with dish_queue_ := temp_queue }
  | dishToPrepare :: rest, temp_queue, m =>
    if dishToPrepare.name_ = "" then
      processLoop rest temp_queue { m with dish_queue_ := rest }
    else
      let r := attemptDish dishToPrepare m
      if r.1 then processLoop rest temp_queue { r.2 with dish_queue_ := rest }
      else processLoop rest (temp_queue ++ [dishToPrepare]) { r.2 with dish_queue_ := rest }

/-- Method `StationManager::processAllDishes` (lines 418-518). -/
def StationManager.processAllDishes (m : StationManager) : StationManager :=
  processLoop m.dish_queue_ [] m

/-! ## Further operations of `KitchenStation` and `StationManager` -/

/-- Method `KitchenStation::assignDishToStation` (lines 34-45): the returned flag and the
station afterwards; `none` is the null pointer. -/
def KitchenStation.assignDishToStation (s : KitchenStation) (dish : Option Dish) :
    Bool × KitchenStation :=
  match dish with
  | none => (false, s)
  | some d =>
    if s.isPresent d.name_ then (false, s)
    else (true, { s with dishes_ := s.dishes_ ++ [d] })

/-- Modelled from the spec: `LinkedList.hpp`, the base class of `StationManager`, is not
under src/.  The specification treats the station container as a plain ordered
sequence; `remove(position)` deletes the item at a valid position and reports whether
the position was valid. -/
def listRemove {α : Type} (position : Int) (items : List α) : Bool × List α :=
  if 0 ≤ position ∧ position < items.length then (true, items.eraseIdx position.toNat)
  else (false, items)

/-- Modelled from the spec: `LinkedList.hpp` is not under src/.  On the ordered sequence
`insert(position, item)` puts the item before the item currently at a valid position
(`0` to the length) and reports whether the position was valid. -/
def listInsert {α : Type} (position : Int) (item : α) (items : List α) : Bool × List α :=
  if 0 ≤ position ∧ position ≤ items.length then
    (true, items.take position.toNat ++ item :: items.drop position.toNat)
  else (false, items)

/-- Loop of `StationManager::removeStation` (lines 38-43): the first argument counts the
iterations still to run, `i` is the loop index. -/
def removeStationScan (station_name : String) (stations : List KitchenStation) :
    Nat → Nat → Bool × List KitchenStation
  | 0, _ => (false, stations)
  | k + 1, i =>
    match stations[i]? with
    | none => (false, stations)
    | some station =>
      if station.station_name_ = station_name then listRemove (i : Int) stations
      else removeStationScan station_name stations k (i + 1)

/-- Method `StationManager::removeStation` (lines 36-45). -/
def StationManager.removeStation (m : StationManager) (station_name : String) :
    Bool × StationManager :=
  let r := removeStationScan station_name m.stations m.stations.length 0
  (r.1, { m with stations := r.2 })

/-- Node walk of `StationManager::getStationIndex` (lines 104-115), started with
`index`. -/
def getStationIndexFrom (name : String) : List KitchenStation → Int → Int
  | [], _ => -1
  | station :: rest, index =>
    if station.station_name_ = name then index else getStationIndexFrom name rest (index + 1)

/-- Method `StationManager::getStationIndex` (lines 104-115). -/
def getStationIndex (name : String) (stations : List KitchenStation) : Int :=
  getStationIndexFrom name stations 0

/-- Node walk of `StationManager::moveStationToFront` (lines 81-98): the second list is
the part of the list from `searchptr` on. -/
def moveStationWalk (station_name : String) (stations : List KitchenStation) :
    List KitchenStation → Bool × List KitchenStation
  | [] => (false, stations)
  | station :: rest =>
    if station.station_name_ = station_name then
      let pos := getStationIndex station.station_name_ stations
      let removed := listRemove pos stations
      let inserted := listInsert 0 station removed.2
      (true, inserted.2)
    else moveStationWalk station_name stations rest

/-- Method `StationManager::moveStationToFront` (lines 70-101). -/
def StationManager.moveStationToFront (m : StationManager) (station_name : String) :
    Bool × StationManager :=
  match findStation station_name m.stations with
  | none => (false, m)
  | some _ =>
    match m.stations with
    | [] => (false, m)
    | head :: _ =>
      if head.station_name_ = station_name then (true, m)
      else
        let r := moveStationWalk station_name m.stations m.stations
        (r.1, { m with stations := r.2 })

/-- Dish loop of `StationManager::mergeStations` (lines 129-131): every dish of the
second station is offered to the first. -/
def assignAll : List Dish → KitchenStation → KitchenStation
  | [], station1 => station1
  | dish :: rest, station1 => assignAll rest (station1.assignDishToStation (some dish)).2

/-- Ingredient loop of `StationManager::mergeStations` (lines 133-135): every ledger
entry of the second station is replenished into the first. -/
def replenishAll : List Ingredient → KitchenStation → KitchenStation
  | [], station1 => station1
  | ingredient :: rest, station1 =>
    replenishAll rest (station1.replenishStationIngredients ingredient)

/-- Method `StationManager::mergeStations` (lines 124-141).  `getDishes()` and
`getIngredientsStock()` return copies, so both loops run over the second station as it
was when the loop started.  Project 5 (StationManager.cpp lines 105-120) has the same
statements. -/
def StationManager.mergeStations (m : StationManager) (station_name1 station_name2 : String) :
    Bool × StationManager :=
  match findStation station_name1 m.stations, findStation station_name2 m.stations with
  | some i1, some i2 =>
    match m.stations[i2]? with
    | none => (false, m)
    | some station2 =>
      let m1 : StationManager :=
        { m with stations := modifyAt (assignAll station2.dishes_) i1 m.stations }
      let ledger2 :=
        match m1.stations[i2]? with
        | some s2 => s2.ingredients_stock_
        | none => []
      let m2 : StationManager :=
        { m1 with stations := modifyAt (replenishAll ledger2) i1 m1.stations }
      (true, (m2.removeStation station_name2).2)
  | _, _ => (false, m)

/-- Station loop of `StationManager::prepareNextDish` (lines 282-292): the first argument
counts the stations still to visit, `i` is the loop index. -/
def nextDishScan (dish_name : String) : Nat → Nat → StationManager → Bool × StationManager
  | 0, _, m => (false, m)
  | k + 1, i, m =>
    match m.stations[i]? with
    | none => (false, m)
    | some station =>
      if station.canCompleteOrder dish_name then
        let r := station.prepareDish dish_name
        if r.1 then
          (true, { m with stations := m.stations.set i r.2, dish_queue_ := m.dish_queue_.tail })
        else nextDishScan dish_name k (i + 1) { m with stations := m.stations.set i r.2 }
      else nextDishScan dish_name k (i + 1) m

/-- Method `StationManager::prepareNextDish` (lines 274-294). -/
def StationManager.prepareNextDish (m : StationManager) : Bool × StationManager :=
  match m.dish_queue_ with
  | [] => (false, m)
  | next_dish :: _ => nextDishScan next_dish.name_ m.stations.length 0 m

/-- The `Dish::DietaryRequest` struct of `Dish.hpp`. -/
structure DietaryRequest where
  vegetarian : Bool
  vegan : Bool
  gluten_free : Bool
  nut_free : Bool
  low_sodium : Bool
  low_sugar : Bool
deriving DecidableEq, Repr

/-- Project 5, loop of `StationManager::moveStationToFront` (project5 StationManager.cpp
lines 87-95): the first argument counts the iterations still to run, `i` is the loop
index. -/
def moveStationScan5 (station_name : String) (stations : List KitchenStation) :
    Nat → Nat → Bool × List KitchenStation
  | 0, _ => (false, stations)
  | k + 1, i =>
    match stations[i]? with
    | none => (false, stations)
    | some station =>
      if station.station_name_ = station_name then
        let removed := listRemove (i : Int) stations
        let inserted := listInsert 0 station removed.2
        (true, inserted.2)
      else moveStationScan5 station_name stations k (i + 1)

/-- Project 5, method `StationManager::moveStationToFront` (lines 86-96), on the list of
stations. -/
def moveStationToFront5 (station_name : String) (stations : List KitchenStation) :
    Bool × List KitchenStation :=
  moveStationScan5 station_name stations stations.length 0

/-- Method `StationManager::addStation` (lines 26-28): the station is inserted at
position `item_count_`, the end of the list. -/
def StationManager.addStation (m : StationManager) (station : KitchenStation) :
    Bool × StationManager :=
  let r := listInsert (m.stations.length : Int) station m.stations
  (r.1, { m with stations := r.2 })

/-- Method `StationManager::addBackupIngredients` (lines 377-381). -/
def StationManager.addBackupIngredients (m : StationManager) (ingredients : List Ingredient) :
    Bool × StationManager :=
  (true, { m with backup_ingredients_ := ingredients })

/-! ## Sequences of calls -/

/-- One call of a public method of `KitchenStation` that can write to the station. -/
inductive StationCall where
  | replenish (ingredient : Ingredient)
  | prepare (dish_name : String)
  | assign (dish : Option Dish)

/-- The station after one call. -/
def StationCall.run (s : KitchenStation) : StationCall → KitchenStation
  | .replenish ingredient => s.replenishStationIngredients ingredient
  | .prepare dish_name => (s.prepareDish dish_name).2
  | .assign dish => (s.assignDishToStation dish).2

/-- The station after a sequence of calls, first call first. -/
def runCalls (s : KitchenStation) (calls : List StationCall) : KitchenStation :=
  calls.foldl StationCall.run s

/-- One call on a manager: adding a freshly constructed station, a call on the station at
a position of the list (made through the station pointer), a withdrawal from the backup
store, a merge, or the replacement of the backup store. -/
inductive ManagerCall where
  | addStation (station_name : String)
  | onStation (i : Nat) (call : StationCall)
  | replenishFromBackup (station_name ingredient_name : String) (quantity : Int)
  | merge (station_name1 station_name2 : String)
  | addBackupIngredients (ingredients : List Ingredient)

/-- The manager after one call. -/
def ManagerCall.run (m : StationManager) : ManagerCall → StationManager
  | .addStation station_name => (m.addStation ⟨station_name, [], []⟩).2
  | .onStation i call => { m with stations := modifyAt (fun st => call.run st) i m.stations }
  | .replenishFromBackup station_name ingredient_name quantity =>
    (m.replenishStationIngredientFromBackup station_name ingredient_name quantity).2
  | .merge station_name1 station_name2 => (m.mergeStations station_name1 station_name2).2
  | .addBackupIngredients ingredients => (m.addBackupIngredients ingredients).2

/-- The manager after a sequence of calls, first call first. -/
def runManagerCalls (m : StationManager) (calls : List ManagerCall) : StationManager :=
  calls.foldl ManagerCall.run m

/-- The calls that the non-negativity invariant is stated for: replenishments carry a
non-negative quantity, and assigned dishes name each ingredient once and require
non-negative quantities. -/
def StationCall.Admissible : StationCall → Prop
  | .replenish ingredient => 0 ≤ ingredient.quantity
  | .prepare _ => True
  | .assign none => True
  | .assign (some d) =>
    UniqueNames d.ingredients_ ∧ ∀ ingredient ∈ d.ingredients_, 0 ≤ ingredient.required_quantity

/-- Project 5, method `StationManager::addStation` (project5 StationManager.cpp lines
38-44); `none` is the null pointer. -/
def addStation5 (m : StationManager) (station : Option KitchenStation) :
    Bool × StationManager :=
  match station with
  | some s =>
    let r := listInsert (m.stations.length : Int) s m.stations
    (true, { m with stations := r.2 })
  | none => (false, m)

/-- One call of a method that changes the list of stations. -/
inductive RosterCall where
  | addStation (station : KitchenStation)
  | removeStation (station_name : String)
  | moveStationToFront (station_name : String)
  | mergeStations (station_name1 station_name2 : String)

/-- The manager after one such call. -/
def RosterCall.run (m : StationManager) : RosterCall → StationManager
  | .addStation station => (m.addStation station).2
  | .removeStation station_name => (m.removeStation station_name).2
  | .moveStationToFront station_name => (m.moveStationToFront station_name).2
  | .mergeStations station_name1 station_name2 =>
    (m.mergeStations station_name1 station_name2).2

/-- The manager after a sequence of such calls, first call first. -/
def runRoster (m : StationManager) (calls : List RosterCall) : StationManager :=
  calls.foldl RosterCall.run m

/-- Every `addStation` of the sequence hands in a station whose name no station of the
manager has at the time of the call. -/
def FreshAdds : StationManager → List RosterCall → Prop
  | _, [] => True
  | m, call :: rest =>
    (match call with
      | .addStation station => ∀ st ∈ m.stations, st.station_name_ ≠ station.station_name_
      | _ => True) ∧ FreshAdds (call.run m) rest

/-! ## Project 5: `KitchenStation::prepareDish` and `canCompleteOrder` -/

/-- Project 5, inner loop of `prepareDish` (project5 KitchenStation.cpp lines 140-150)
for one required ingredient: `some` is the ledger when the loop is left through `break`
(the first entry of the name holding enough was lowered, and erased at zero), `none`
means the loop ended with `ingredient_found` false. -/
def prepareScan5 (dish_ingredient : Ingredient) : List Ingredient → Option (List Ingredient)
  | [] => none
  | it :: rest =>
    if it.name = dish_ingredient.name ∧ it.quantity ≥ dish_ingredient.required_quantity then
      let lowered : Ingredient :=
        { it with quantity := it.quantity - dish_ingredient.required_quantity }
      if lowered.quantity = 0 then some rest else some (lowered :: rest)
    else
      match prepareScan5 dish_ingredient rest with
      | some rest1 => some (it :: rest1)
      | none => none

/-- Project 5, loop of `prepareDish` over the ingredients of the dish (lines 138-155):
the returned flag and the ledger when the function returns. -/
def prepareIngredients5 : List Ingredient → List Ingredient → Bool × List Ingredient
  | [], stock => (true, stock)
  | dish_ingredient :: rest, stock =>
    match prepareScan5 dish_ingredient stock with
    | none => (false, stock)
    | some stock1 => prepareIngredients5 rest stock1

/-- Project 5, loop of `prepareDish` over the assigned dishes (lines 136-158). -/
def prepareDishes5 (dish_name : String) (stock : List Ingredient) :
    List Dish → Bool × List Ingredient
  | [] => (false, stock)
  | dish :: rest =>
    if dish.name_ = dish_name then prepareIngredients5 dish.ingredients_ stock
    else prepareDishes5 dish_name stock rest

/-- Project 5, method `KitchenStation::prepareDish` (lines 135-159): the returned flag
and the station afterwards. -/
def prepareDish5 (s : KitchenStation) (dish_name : String) : Bool × KitchenStation :=
  let r := prepareDishes5 dish_name s.ingredients_stock_ s.dishes_
  (r.1, { s with ingredients_stock_ := r.2 })

/-! ## Project 3: `Kitchen::calculateAvgPrepTime` -/

/-- The `Dish::CuisineType` enum of the project-4 `Dish.hpp`. -/
inductive CuisineType where
  | ITALIAN | MEXICAN | CHINESE | INDIAN | AMERICAN | FRENCH | OTHER
deriving DecidableEq, Repr

/-- The data members of the project-4 `Dish` (Dish.hpp). -/
structure Dish4 where
  name_ : String
  ingredients_ : List String
  prep_time_ : Int
  price_ : Nat
  cuisine_type_ : CuisineType
deriving DecidableEq, Repr

/-- Project 4, method `Dish::getCuisineType` (Dish.cpp lines 42-52). -/
def Dish4.getCuisineType (d : Dish4) : String :=
  match d.cuisine_type_ with
  | .ITALIAN => "ITALIAN"
  | .MEXICAN => "MEXICAN"
  | .CHINESE => "CHINESE"
  | .INDIAN => "INDIAN"
  | .AMERICAN => "AMERICAN"
  | .FRENCH => "FRENCH"
  | .OTHER => "OTHER"

/-- The data members of the project-4 `Kitchen` (Kitchen.hpp): the items of the inherited
`ArrayBag<Dish*>` and the two counters.  `ArrayBag.hpp` is not under src/: the bag is
the list of its items in slot order and `getCurrentSize()` is its length.  A `Dish*` is
the dish it points to; the dishes of a kitchen are different objects. -/
structure Kitchen4 where
  items_ : List Dish4
  total_prep_time_ : Int
  count_elaborate_ : Int
deriving DecidableEq, Repr

/-- Project 4, method `Kitchen::serveDish` (Kitchen.cpp lines 252-268).  The inherited
`ArrayBag::remove` is the parameter `remove`: the returned flag and the items afterwards. -/
def Kitchen4.serveDish (remove : List Dish4 → Dish4 → Bool × List Dish4) (k : Kitchen4)
    (dish_to_remove : Dish4) : Bool × Kitchen4 :=
  if k.items_.length = 0 then (false, k)
  else
    let r := remove k.items_ dish_to_remove
    if r.1 then
      let total := k.total_prep_time_ - dish_to_remove.prep_time_
      if dish_to_remove.ingredients_.length ≥ 5 ∧ dish_to_remove.prep_time_ ≥ 60 then
        (true, ⟨r.2, total, k.count_elaborate_ - 1⟩)
      else (true, ⟨r.2, total, k.count_elaborate_⟩)
    else (false, { k with items_ := r.2 })

/-- Project 4, loop of `Kitchen::releaseDishesOfCuisineType` (Kitchen.cpp lines 417-424):
the first argument counts the iterations still to run, `i` is the loop index, `count`
the tally; a slot at or beyond `getCurrentSize()` ends the loop. -/
def releaseScan (remove : List Dish4 → Dish4 → Bool × List Dish4) (cuisine_type : String) :
    Nat → Nat → Int → Kitchen4 → Int × Kitchen4
  | 0, _, count, k => (count, k)
  | fuel + 1, i, count, k =>
    match k.items_[i]? with
    | none => (count, k)
    | some item =>
      if item.getCuisineType = cuisine_type then
        releaseScan remove cuisine_type fuel (i + 1) (count + 1) (k.serveDish remove item).2
      else releaseScan remove cuisine_type fuel (i + 1) count k

/-- Project 4, method `Kitchen::releaseDishesOfCuisineType` (Kitchen.cpp lines 414-426):
the returned count and the kitchen afterwards.  The index grows by one in every
iteration and the bag never grows, so as many iterations as the bag has items at the
start are enough. -/
def Kitchen4.releaseDishesOfCuisineType (remove : List Dish4 → Dish4 → Bool × List Dish4)
    (k : Kitchen4) (cuisine_type : String) : Int × Kitchen4 :=
  releaseScan remove cuisine_type k.items_.length 0 0 k

/-- A removal for `ArrayBag::remove`, which is not under src/: the first slot holding the
entry is filled with the last item and the bag shrinks by one. -/
def removeFillWithLast (items : List Dish4) (entry : Dish4) : Bool × List Dish4 :=
  match items.indexOf? entry with
  | none => (false, items)
  | some i =>
    match items.getLast? with
    | none => (false, items)
    | some last => (true, (items.set i last).dropLast)

/-- A second removal for `ArrayBag::remove`: the first slot holding the entry is closed by
shifting the later items one slot down. -/
def removeShiftDown (items : List Dish4) (entry : Dish4) : Bool × List Dish4 :=
  match items.indexOf? entry with
  | none => (false, items)
  | some i => (true, items.eraseIdx i)

/-! ## Project 7: `RecipeBook` -/

/-- The `Recipe` struct of `RecipeBook.hpp`. -/
structure Recipe where
  name_ : String
  difficulty_level_ : Int
  description_ : String
  mastered_ : Bool
deriving DecidableEq, Repr

/-- The nodes of the tree a `RecipeBook` inherits (`BinaryNode<Recipe>`, whose header is
not under src/): an empty subtree, or an item with a left and a right subtree. -/
inductive RecipeTree where
  | nil
  | node (left : RecipeTree) (item : Recipe) (right : RecipeTree)
deriving DecidableEq, Repr

/-- Method `RecipeBook::inorderHelper` (RecipeBook.cpp lines 229-235).  The visitor of the
source writes to variables it captured by reference; here it takes their value and
returns the new one. -/
def inorderHelper {σ : Type} (visit : σ → Recipe → σ) : RecipeTree → σ → σ
  | .nil, acc => acc
  | .node left item right, acc =>
    inorderHelper visit right (visit (inorderHelper visit left acc) item)

/-- Method `RecipeBook::findRecipe` (lines 99-110): the visitor overwrites `foundRecipe`
at every recipe with the name. -/
def findRecipe (root : RecipeTree) (name : String) : Option Recipe :=
  inorderHelper (fun foundRecipe r => if r.name_ = name then some r else foundRecipe) root none

/-- Method `RecipeBook::calculateMasteryPoints` (lines 162-176). -/
def calculateMasteryPoints (root : RecipeTree) (name : String) : Int :=
  match findRecipe root name with
  | none => -1
  | some recipe =>
    if recipe.mastered_ then 0
    else
      inorderHelper
        (fun (masteryPoints : Int) r =>
          if r.difficulty_level_ < recipe.difficulty_level_ ∧ r.mastered_ = false then
            masteryPoints + 1
          else masteryPoints) root 0 + 1

/-- Modelled from the spec: `BinarySearchTree.hpp` is not under src/.  The specification
describes the catalog as a standard binary search tree (insert, remove, traverse); `add`
walks down from the root by the comparison operators of the item, to the left where
the item of the node is greater than the new item (`Recipe::operator>`, which compares
`name_`) and to the right otherwise, and hangs the new item where it meets an empty
subtree. -/
def placeNode : RecipeTree → Recipe → RecipeTree
  | .nil, new_item => .node .nil new_item .nil
  | .node left item right, new_item =>
    if item.name_ > new_item.name_ then .node (placeNode left new_item) item right
    else .node left item (placeNode right new_item)

/-- Method `RecipeBook::addRecipe` (lines 120-126): the returned flag and the tree
afterwards. -/
def addRecipe (root : RecipeTree) (recipe : Recipe) : Bool × RecipeTree :=
  if (findRecipe root recipe.name_).isSome then (false, root)
  else (true, placeNode root recipe)

/-- Modelled from the spec: `RecipeBook::clear` (lines 148-152) removes the item of the
root through `BinarySearchTree::remove`, which is not under src/, until the tree is
empty; as standard removal deletes the item it is given, the loop ends with the empty
tree. -/
def clearBook (_root : RecipeTree) : RecipeTree := .nil

/-- Method `RecipeBook::balanceHelper` (lines 191-197).  The first argument bounds the
depth of the recursion; `start` and `end` are the `int` bounds of the source. -/
def balanceHelper (recipes : List Recipe) : Nat → Int → Int → RecipeTree → RecipeTree
  | 0, _, _, root => root
  | fuel + 1, start, «end», root =>
    if start > «end» then root
    else
      let mid := start + («end» - start).tdiv 2
      match recipes[mid.toNat]? with
      | none => root
      | some recipe =>
        let root1 := (addRecipe root recipe).2
        let root2 := balanceHelper recipes fuel start (mid - 1) root1
        balanceHelper recipes fuel (mid + 1) «end» root2

/-- Method `RecipeBook::balance` (lines 184-189).  A range of `n` recipes needs a
recursion depth of at most `n`, which is the bound handed to `balanceHelper`.  On the
empty vector the unsigned `recipes.size() - 1` wraps around and arrives in the `int`
parameter as -1, the value of the subtraction over the integers. -/
def balance (root : RecipeTree) : RecipeTree :=
  let recipes := inorderHelper (fun (v : List Recipe) r => v ++ [r]) root []
  balanceHelper recipes recipes.length 0 ((recipes.length : Int) - 1) (clearBook root)

/-! ## Project 5: `KitchenStation::canCompleteOrder` -/

/-- Project 5, innermost loop of `canCompleteOrder` (project5 KitchenStation.cpp lines
119-125): it stops with `ingredient_found` at the first entry that has the name and a
sufficient quantity. -/
def canScan5 (dish_ingredient : Ingredient) : List Ingredient → Bool
  | [] => false
  | stock_ingredient :: rest =>
    if stock_ingredient.name = dish_ingredient.name ∧
        stock_ingredient.quantity ≥ dish_ingredient.required_quantity then true
    else canScan5 dish_ingredient rest

/-- Project 5, loop over the ingredients of the matched dish (lines 115-129). -/
def canIngredients5 (stock : List Ingredient) : List Ingredient → Bool
  | [] => true
  | dish_ingredient :: rest =>
    if canScan5 dish_ingredient stock then canIngredients5 stock rest else false

/-- Project 5, loop over the assigned dishes (lines 112-132). -/
def canDishes5 (stock : List Ingredient) (dish_name : String) : List Dish → Bool
  | [] => false
  | dish :: rest =>
    if dish.name_ = dish_name then canIngredients5 stock dish.ingredients_
    else canDishes5 stock dish_name rest

/-- Project 5, method `KitchenStation::canCompleteOrder` (project5 KitchenStation.cpp
lines 110-133). -/
def KitchenStation.canCompleteOrder5 (s : KitchenStation) (dish_name : String) : Bool :=
  canDishes5 s.ingredients_stock_ dish_name s.dishes_

/-! ## Dietary accommodations (`Appetizer.cpp`, `MainCourse.cpp`) -/

/-- The test of the vegetarian branch (project-6 Appetizer.cpp lines 156-158,
MainCourse.cpp lines 162-164; the list `non_vegetarian` of the project-4
Appetizer.cpp line 144). -/
def isNonVegetarian (name : String) : Bool :=
  name = "Meat" || name = "Chicken" || name = "Fish" || name = "Beef" || name = "Pork" ||
    name = "Lamb" || name = "Shrimp" || name = "Bacon"

/-- The test of the gluten branch of `Appetizer::dietaryAccommodations` (project-6
Appetizer.cpp lines 198-200; the list `gluten` of the project-4 Appetizer.cpp line
145). -/
def isGluten (name : String) : Bool :=
  name = "Wheat" || name = "Flour" || name = "Bread" || name = "Pasta" || name = "Barley" ||
    name = "Rye" || name = "Oats" || name = "Crust"

/-- The test of the vegan branch of `MainCourse::dietaryAccommodations` (MainCourse.cpp
lines 198-199). -/
def isDairyOrEgg (name : String) : Bool :=
  name = "Milk" || name = "Eggs" || name = "Cheese" || name = "Butter" || name = "Cream" ||
    name = "Yogurt"

/-- The index loop of the vegetarian branch (project-6 Appetizer.cpp lines 154-176,
MainCourse.cpp lines 160-181, project-4 Appetizer.cpp lines 150-166).  `getName` reads
the name of an entry and `setName` writes it: the entries are `Ingredient` records in
project 6 and plain strings in project 4.  The loop tests `i < ingredients.size()`
before every iteration; after an `erase` the statements `i--` and `i++` leave `i` where
it is.  The first argument bounds the number of iterations, every one of which either
advances `i` or shortens the vector. -/
def vegetarianLoop {α : Type} (getName : α → String) (setName : α → String → α) :
    Nat → Nat → Bool → Bool → List α → List α
  | 0, _, _, _, ingredients => ingredients
  | k + 1, i, first_replacement_done, second_replacement_done, ingredients =>
    match ingredients[i]? with
    | none => ingredients
    | some entry =>
      if isNonVegetarian (getName entry) then
        if first_replacement_done = false then
          vegetarianLoop getName setName k (i + 1) true second_replacement_done
            (ingredients.set i (setName entry "Beans"))
        else if second_replacement_done = false then
          vegetarianLoop getName setName k (i + 1) first_replacement_done true
            (ingredients.set i (setName entry "Mushrooms"))
        else
          vegetarianLoop getName setName k i first_replacement_done second_replacement_done
            (ingredients.eraseIdx i)
      else
        vegetarianLoop getName setName k (i + 1) first_replacement_done second_replacement_done
          ingredients

/-- The index loop that erases every entry a test selects (gluten branch of
`Appetizer::dietaryAccommodations`, vegan and gluten branches of
`MainCourse::dietaryAccommodations`), with the same treatment of `i` as above. -/
def eraseLoop {α : Type} (selected : α → Bool) : Nat → Nat → List α → List α
  | 0, _, items => items
  | k + 1, i, items =>
    match items[i]? with
    | none => items
    | some entry =>
      if selected entry then eraseLoop selected k i (items.eraseIdx i)
      else eraseLoop selected k (i + 1) items

/-- The `Appetizer::ServingStyle` enum. -/
inductive ServingStyle where
  | PLATED | FAMILY_STYLE | BUFFET
deriving DecidableEq, Repr

/-- The data members of the project-6 `Appetizer`, those of its base class `Dish`
first. -/
structure Appetizer extends Dish where
  serving_style_ : ServingStyle
  spiciness_level_ : Int
  vegetarian_ : Bool
deriving DecidableEq, Repr

/-- The `Ingredient` record with another name. -/
def Ingredient.rename (ingredient : Ingredient) (name : String) : Ingredient :=
  { ingredient with name := name }

/-- Method `Appetizer::dietaryAccommodations` of project 6 (Appetizer.cpp lines 141-211):
the appetizer after the call.  Every branch works on a copy of the ingredient vector
and writes it back through `setIngredients`. -/
def Appetizer.dietaryAccommodations (a : Appetizer) (request : DietaryRequest) : Appetizer :=
  let a1 : Appetizer :=
    if request.vegetarian then
      { a with
        vegetarian_ := true
        ingredients_ :=
          vegetarianLoop (fun x => x.name) Ingredient.rename a.ingredients_.length 0 false false
            a.ingredients_ }
    else a
  let a2 : Appetizer :=
    if request.low_sodium then
      { a1 with
        spiciness_level_ :=
          if a1.spiciness_level_ - 2 < 0 then 0 else a1.spiciness_level_ - 2 }
    else a1
  if request.gluten_free then
    { a2 with
      ingredients_ := eraseLoop (fun x => isGluten x.name) a2.ingredients_.length 0 a2.ingredients_ }
  else a2

/-- The data members of the project-4 `Appetizer`, those of its base class `Dish` first. -/
structure Appetizer4 extends Dish4 where
  serving_style_ : ServingStyle
  spiciness_level_ : Int
  vegetarian_ : Bool
deriving DecidableEq, Repr

/-- Method `Appetizer::dietaryAccommodations` of project 4 (project4 Appetizer.cpp lines
143-185): one local copy of the ingredient strings goes through both loops and is
written back at the end. -/
def Appetizer4.dietaryAccommodations (a : Appetizer4) (request : DietaryRequest) : Appetizer4 :=
  let ingredients0 := a.ingredients_
  let ingredients1 :=
    if request.vegetarian then
      vegetarianLoop (fun x => x) (fun _ name => name) ingredients0.length 0 false false
        ingredients0
    else ingredients0
  let spiciness1 :=
    if request.low_sodium then
      if a.spiciness_level_ - 2 < 0 then 0 else a.spiciness_level_ - 2
    else a.spiciness_level_
  let ingredients2 :=
    if request.gluten_free then eraseLoop isGluten ingredients1.length 0 ingredients1
    else ingredients1
  { a with
    vegetarian_ := if request.vegetarian then true else a.vegetarian_
    spiciness_level_ := spiciness1
    ingredients_ := ingredients2 }

/-- The `MainCourse::CookingMethod` enum. -/
inductive CookingMethod where
  | GRILLED | BAKED | BOILED | FRIED | STEAMED | RAW
deriving DecidableEq, Repr

/-- The `MainCourse::Category` enum. -/
inductive Category where
  | GRAIN | PASTA | LEGUME | BREAD | SALAD | SOUP | STARCHES | VEGETABLE
deriving DecidableEq, Repr

/-- The `MainCourse::SideDish` struct. -/
structure SideDish where
  name : String
  category : Category
deriving DecidableEq, Repr

/-- Method `MainCourse::categoryToString` (MainCourse.cpp lines 228-247). -/
def categoryToString : Category → String
  | .GRAIN => "GRAIN"
  | .PASTA => "PASTA"
  | .LEGUME => "LEGUME"
  | .BREAD => "BREAD"
  | .SALAD => "SALAD"
  | .SOUP => "SOUP"
  | .STARCHES => "STARCHES"
  | .VEGETABLE => "VEGETABLE"

/-- The data members of the project-6 `MainCourse`, those of its base class `Dish`
first. -/
structure MainCourse extends Dish where
  cooking_method_ : CookingMethod
  protein_type_ : String
  side_dishes_ : List SideDish
  gluten_free_ : Bool
deriving DecidableEq, Repr

/-- Method `MainCourse::dietaryAccommodations` of project 6 (MainCourse.cpp lines
149-226): the main course after the call. -/
def MainCourse.dietaryAccommodations (c : MainCourse) (request : DietaryRequest) : MainCourse :=
  let c1 : MainCourse :=
    if request.vegetarian then
      { c with
        protein_type_ := "Tofu"
        ingredients_ :=
          vegetarianLoop (fun x => x.name) Ingredient.rename c.ingredients_.length 0 false false
            c.ingredients_ }
    else c
  let c2 : MainCourse :=
    if request.vegan then
      { c1 with
        protein_type_ := "Tofu"
        ingredients_ :=
          eraseLoop (fun x => isDairyOrEgg x.name) c1.ingredients_.length 0 c1.ingredients_ }
    else c1
  if request.gluten_free then
    { c2 with
      gluten_free_ := true
      side_dishes_ :=
        eraseLoop
          (fun (side : SideDish) =>
            categoryToString side.category = "GRAIN" || categoryToString side.category = "PASTA" ||
              categoryToString side.category = "BREAD" ||
              categoryToString side.category = "STARCHES")
          c2.side_dishes_.length 0 c2.side_dishes_ }
  else c2

/-! ## Concrete states used by the evaluations below -/

/-- A recipe record of ingredient `A` whose own stock field is 10 and whose required
quantity is 1. -/
def saladLeaf : Ingredient := ⟨"A", 10, 1, 0⟩

/-- A station assigned one dish `D` that requires one unit of `A`, holding five. -/
def saladStation : KitchenStation :=
  ⟨"S", [⟨"D", [saladLeaf], 0, 0, 0⟩], [⟨"A", 5, 0, 0⟩]⟩

/-- A station whose dish needs `A` and `B`; `A` is stocked, `B` is one unit short. -/
def shortStation : KitchenStation :=
  ⟨"S", [⟨"D", [⟨"A", 0, 1, 0⟩, ⟨"B", 0, 2, 0⟩], 0, 0, 0⟩],
    [⟨"A", 5, 0, 0⟩, ⟨"B", 1, 0, 0⟩]⟩

/-- Deduction of one required ingredient as the data model describes it: the ledger
entry of that name is lowered by the required quantity, and erased when it reaches
zero.  `deductScan_unique` shows that the loop of the code computes this on a ledger
with one entry per name. -/
def deductOne (ingredient : Ingredient) : List Ingredient → List Ingredient
  | [] => []
  | x :: rest =>
    if x.name = ingredient.name then
      if x.quantity - ingredient.required_quantity = 0 then rest
      else { x with quantity := x.quantity - ingredient.required_quantity } :: rest
    else x :: deductOne ingredient rest

/-- A station whose dish lists ingredient `A` twice, two units each, holding five. -/
def doubleStation : KitchenStation :=
  ⟨"S", [⟨"D", [⟨"A", 0, 2, 0⟩, ⟨"A", 0, 2, 0⟩], 0, 0, 0⟩], [⟨"A", 5, 0, 0⟩]⟩

/-- A station whose ledger holds two entries named `A` (2 and 1 units); its dish
requires one unit of `A`. -/
def twinStation : KitchenStation :=
  ⟨"S", [⟨"D", [⟨"A", 0, 1, 0⟩], 0, 0, 0⟩], [⟨"A", 2, 0, 0⟩, ⟨"A", 1, 0, 0⟩]⟩

/-- A station with dish `D` requiring 2 of `A` and 1 of `B`, holding 2 of `A`, 4 of `B`
and 7 of `C`. -/
def pantryStation : KitchenStation :=
  ⟨"S", [⟨"D", [⟨"A", 0, 2, 0⟩, ⟨"B", 0, 1, 0⟩], 0, 0, 0⟩],
    [⟨"A", 2, 0, 0⟩, ⟨"B", 4, 0, 0⟩, ⟨"C", 7, 0, 0⟩]⟩

/-- Total quantity a ledger or backup store holds of an ingredient name, over all the
entries with that name (`0` when there is none). -/
def totalQuantity (ingredient_name : String) : List Ingredient → Int
  | [] => 0
  | x :: rest =>
    (if x.name = ingredient_name then x.quantity else 0) + totalQuantity ingredient_name rest

/-- Ledger of the station that `findStation` returns for a name (the first station with
that name), empty when there is no such station. -/
def stationLedger (station_name : String) : List KitchenStation → List Ingredient
  | [] => []
  | station :: rest =>
    if station.station_name_ = station_name then station.ingredients_stock_
    else stationLedger station_name rest

/-- The queue that the hold-queue rule of the specification leaves behind: an item is
deleted when its name is empty or when its attempt prepared it, every other item is
kept, in the original order.  The manager is threaded through the attempts. -/
def keptQueue : List Dish → StationManager → List Dish
  | [], _ => []
  | dish :: rest, m =>
    if dish.name_ = "" then keptQueue rest m
    else if (attemptDish dish m).1 then keptQueue rest (attemptDish dish m).2
    else dish :: keptQueue rest (attemptDish dish m).2

/-- A manager with stations `Grill` and `Fryer` and a backup store of 5 `Oil`. -/
def oilManager : StationManager :=
  ⟨[⟨"Grill", [], []⟩, ⟨"Fryer", [], [⟨"Oil", 1, 0, 0⟩]⟩], [], [⟨"Salt", 2, 0, 0⟩, ⟨"Oil", 5, 0, 7⟩]⟩

/-- Dish `A`, requiring one `X`. -/
def dishA : Dish := ⟨"A", [⟨"X", 0, 1, 0⟩], 0, 0, 0⟩

/-- Dish `B`, requiring one `Y`. -/
def dishB : Dish := ⟨"B", [⟨"Y", 0, 1, 0⟩], 0, 0, 0⟩

/-- Dish `C`, requiring one `Z`. -/
def dishC : Dish := ⟨"C", [⟨"Z", 0, 1, 0⟩], 0, 0, 0⟩

/-- A manager whose only station is assigned `A`, `B` and `C` and holds one `Y`; the
backup store is empty and the queue is `[A, B, C]`, so only `B` can be prepared. -/
def trioManager : StationManager :=
  ⟨[⟨"Line", [dishA, dishB, dishC], [⟨"Y", 1, 0, 0⟩]⟩], [dishA, dishB, dishC], []⟩

/-- The dish `Chicken Plate`, requiring 3 `Chicken`. -/
def chickenPlate : Dish := ⟨"Chicken Plate", [⟨"Chicken", 0, 3, 0⟩], 0, 0, 0⟩

/-- The station `Grill`, assigned `Chicken Plate`, holding 2 `Chicken`. -/
def grill : KitchenStation := ⟨"Grill", [chickenPlate], [⟨"Chicken", 2, 0, 0⟩]⟩

/-- The manager of the scenario: station `Grill`, `Chicken Plate` queued, 5 `Chicken`
in the backup store. -/
def grillManager : StationManager := ⟨[grill], [chickenPlate], [⟨"Chicken", 5, 0, 0⟩]⟩

/-- A dish `D` whose recipe record of `A` carries stock field 0 and requires one unit. -/
def plainDish : Dish := ⟨"D", [⟨"A", 0, 1, 0⟩], 0, 0, 0⟩

/-- Two stations assigned a dish named `D`, five `A` on hand each.  The record of the
first station carries stock field 10, so that station can complete the order but its
`prepareDish` refuses; the second station prepares it.  `D` is queued. -/
def relayManager : StationManager :=
  ⟨[saladStation, ⟨"Fryer", [plainDish], [⟨"A", 5, 0, 0⟩]⟩], [plainDish, dishB], []⟩

/-- A manager whose only station cannot complete the queued dish `D` (no `A` on hand). -/
def idleManager : StationManager :=
  ⟨[⟨"Grill", [plainDish], []⟩], [plainDish, dishB], [⟨"A", 5, 0, 0⟩]⟩

/-- A dish that lists ingredient `A` twice, two units each. -/
def doubleDish : Dish := ⟨"D", [⟨"A", 0, 2, 0⟩, ⟨"A", 0, 2, 0⟩], 0, 0, 0⟩

/-- Calls on a fresh station: assign `doubleDish`, replenish three `A`, prepare `D`. -/
def doubleCalls : List StationCall :=
  [.assign (some doubleDish), .replenish ⟨"A", 3, 0, 0⟩, .prepare "D"]

/-- Calls on a fresh station: assign `plainDish`, replenish two `A`, prepare `D` twice,
replenish one `B`. -/
def plainCalls : List StationCall :=
  [.assign (some plainDish), .replenish ⟨"A", 2, 0, 0⟩, .prepare "D", .prepare "D",
    .replenish ⟨"B", 1, 0, 0⟩]

/-- Calls on a manager: two stations, stock on both, a withdrawal and a merge. -/
def mergeCalls : List ManagerCall :=
  [.addStation "Grill", .addStation "Fryer",
    .onStation 0 (.replenish ⟨"A", 2, 0, 0⟩), .onStation 1 (.replenish ⟨"A", 1, 0, 0⟩),
    .onStation 1 (.replenish ⟨"B", 4, 0, 0⟩),
    .addBackupIngredients [⟨"B", 9, 0, 0⟩],
    .replenishFromBackup "Grill" "B" 3, .merge "Grill" "Fryer"]

instance StationCall.decAdmissible (c : StationCall) : Decidable c.Admissible := by
  cases c with
  | replenish ingredient => unfold StationCall.Admissible; infer_instance
  | prepare dish_name => unfold StationCall.Admissible; infer_instance
  | assign dish =>
    cases dish with
    | none => unfold StationCall.Admissible; infer_instance
    | some d => unfold StationCall.Admissible; infer_instance

/-- The invariant behind the non-negativity of a ledger: one entry per name, no negative
quantity, and every assigned dish names each ingredient once. -/
def StationSound (s : KitchenStation) : Prop :=
  UniqueNames s.ingredients_stock_ ∧ (∀ e ∈ s.ingredients_stock_, 0 ≤ e.quantity) ∧
    ∀ d ∈ s.dishes_, UniqueNames d.ingredients_

/-- A manager with three stations, `Grill`, `Fryer` and `Oven`. -/
def lineManager : StationManager :=
  ⟨[⟨"Grill", [], [⟨"A", 2, 0, 0⟩]⟩, ⟨"Fryer", [dishA], [⟨"A", 1, 0, 0⟩, ⟨"B", 4, 0, 0⟩]⟩,
    ⟨"Oven", [], []⟩], [], []⟩

/-- The manager `lineManager` with the ledger of `Fryer` listed in the other order. -/
def lineManagerSwapped : StationManager :=
  ⟨[⟨"Grill", [], [⟨"A", 2, 0, 0⟩]⟩, ⟨"Fryer", [dishA], [⟨"B", 4, 0, 0⟩, ⟨"A", 1, 0, 0⟩]⟩,
    ⟨"Oven", [], []⟩], [], []⟩

/-- Two `addStation` calls with stations of the same name. -/
def twinAdds : List RosterCall :=
  [.addStation ⟨"Grill", [], []⟩, .addStation ⟨"Grill", [], []⟩]

/-- Calls that add three stations with distinct names, move one to the front, merge two
and remove one. -/
def rosterCalls : List RosterCall :=
  [.addStation ⟨"Grill", [], []⟩, .addStation ⟨"Fryer", [], []⟩, .addStation ⟨"Oven", [], []⟩,
    .moveStationToFront "Oven", .mergeStations "Grill" "Fryer", .removeStation "Oven"]

/-- A station whose dish `D` requires one `A` and one `B`; it holds one `A` and no `B`. -/
def halfStation : KitchenStation :=
  ⟨"S", [⟨"D", [⟨"A", 0, 1, 0⟩, ⟨"B", 0, 1, 0⟩], 0, 0, 0⟩], [⟨"A", 1, 0, 0⟩]⟩

/-- An Italian dish. -/
def pasta : Dish4 := ⟨"Pasta", [], 20, 0, .ITALIAN⟩

/-- A second Italian dish. -/
def pizza : Dish4 := ⟨"Pizza", [], 30, 0, .ITALIAN⟩

/-- A kitchen holding the two Italian dishes, with their preparation times summed. -/
def italianKitchen : Kitchen4 := ⟨[pasta, pizza], 50, 0⟩

/-- The recipes of a tree in in-order: left subtree, item, right subtree. -/
def inorder : RecipeTree → List Recipe
  | .nil => []
  | .node left item right => inorder left ++ item :: inorder right

/-- Height of a tree: 0 for the empty tree. -/
def height : RecipeTree → Nat
  | .nil => 0
  | .node left _ right => max (height left) (height right) + 1

/-- At every node the heights of the left and the right subtree differ by at most 1. -/
def Balanced : RecipeTree → Prop
  | .nil => True
  | .node left _ right =>
    (height left ≤ height right + 1 ∧ height right ≤ height left + 1) ∧
      Balanced left ∧ Balanced right

/-- The names of a list of recipes increase strictly: the order a search tree under
`Recipe::operator<` keeps in-order, with no name twice. -/
def NameSorted (recipes : List Recipe) : Prop :=
  recipes.Pairwise (fun a b => a.name_ < b.name_)

/-- The book after `addRecipe` was called with each recipe of a list, first recipe first. -/
def addRecipes (root : RecipeTree) (recipes : List Recipe) : RecipeTree :=
  recipes.foldl (fun t r => (addRecipe t r).2) root

/-- A recipe named `A` of difficulty 5. -/
def recipeA : Recipe := ⟨"A", 5, "", false⟩

/-- A recipe named `B` of difficulty 1. -/
def recipeB : Recipe := ⟨"B", 1, "", false⟩

/-- A recipe named `C` of difficulty 3, mastered. -/
def recipeC : Recipe := ⟨"C", 3, "", true⟩

/-- The recipes of a tree in pre-order: item, left subtree, right subtree (the order of
`RecipeBook::preorderHelper`). -/
def preorder : RecipeTree → List Recipe
  | .nil => []
  | .node left item right => item :: (preorder left ++ preorder right)

/-- The tree that has the middle recipe of a list at its root (the recipe at index
`(length - 1) / 2`), the tree of the recipes before it to the left and the tree of the
recipes after it to the right.  The first argument bounds the depth. -/
def buildTree : Nat → List Recipe → RecipeTree
  | 0, _ => .nil
  | fuel + 1, l =>
    match l[(l.length - 1) / 2]? with
    | none => .nil
    | some item =>
      .node (buildTree fuel (l.take ((l.length - 1) / 2))) item
        (buildTree fuel (l.drop ((l.length - 1) / 2 + 1)))

/-- A book of three recipes added in the order of their names: every recipe hangs to the
right of the one before. -/
def chainBook : RecipeTree := .node .nil recipeA (.node .nil recipeB (.node .nil recipeC .nil))

/-- The dish `D` that requires one `A` and one `B`. -/
def comboDish : Dish := ⟨"D", [⟨"A", 0, 1, 0⟩, ⟨"B", 0, 1, 0⟩], 0, 0, 0⟩

/-- A manager whose only station `Grill` is assigned `comboDish` and holds nothing; the
backup store holds five `A` and no `B`, and `comboDish` is queued. -/
def partialManager : StationManager :=
  ⟨[⟨"Grill", [comboDish], []⟩], [comboDish], [⟨"A", 5, 0, 0⟩]⟩

/-- The roster of a station list: the name and the assigned dishes of every station, in
list order.  It is what the pipeline never writes to. -/
def roster (stations : List KitchenStation) : List (String × List Dish) :=
  stations.map (fun st => (st.station_name_, st.dishes_))

/-- A ledger covers a required ingredient: it has an entry of the name, and every entry
of the name holds at least the required quantity (the test of the innermost loop of
`canCompleteOrder`). -/
def Covered (ingredient : Ingredient) (stock : List Ingredient) : Prop :=
  (∃ e ∈ stock, e.name = ingredient.name) ∧
    ∀ e ∈ stock, e.name = ingredient.name → e.quantity ≥ ingredient.required_quantity

/-- The station `Bar`, assigned dish `B` only, holding one `Y`. -/
def bar : KitchenStation := ⟨"Bar", [dishB], [⟨"Y", 1, 0, 0⟩]⟩

/-- The manager `grillManager` with the station `Bar` added behind `Grill`: `Bar` is not
assigned the queued `Chicken Plate`. -/
def bystanderManager : StationManager :=
  ⟨[grill, bar], [chickenPlate], [⟨"Chicken", 5, 0, 0⟩]⟩

/-- The dish assigned to `saladStation`: its record of `A` carries stock field 10 and
requires one unit. -/
def saladDish : Dish := ⟨"D", [saladLeaf], 0, 0, 0⟩

/-- A manager whose only station is `saladStation`, with its dish queued. -/
def saladManager : StationManager := ⟨[saladStation], [saladDish], []⟩

/-- The manager `saladManager` with a second station `Fryer` behind `saladStation`,
assigned `plainDish` (also named `D`) and holding five `A`. -/
def refusalManager : StationManager :=
  ⟨[saladStation, ⟨"Fryer", [plainDish], [⟨"A", 5, 0, 0⟩]⟩], [saladDish], []⟩

/-- The list the vegetarian rule describes, in the words of the documentation: the first
non-vegetarian entry is renamed `Beans`, the second `Mushrooms`, every further one is
left out, and every other entry is kept where it is.  The first argument counts the
non-vegetarian entries already met. -/
def vegetarianSpec {α : Type} (getName : α → String) (setName : α → String → α) :
    Nat → List α → List α
  | _, [] => []
  | seen, entry :: rest =>
    if isNonVegetarian (getName entry) then
      if seen = 0 then setName entry "Beans" :: vegetarianSpec getName setName 1 rest
      else if seen = 1 then setName entry "Mushrooms" :: vegetarianSpec getName setName 2 rest
      else vegetarianSpec getName setName seen rest
    else entry :: vegetarianSpec getName setName seen rest

/-- An ingredient record that carries a name only. -/
def plainIngredient (name : String) : Ingredient := ⟨name, 0, 0, 0⟩

/-- An appetizer made of `Flour` and `Meat`. -/
def flourAppetizer : Appetizer :=
  { name_ := "Pie", ingredients_ := [plainIngredient "Flour", plainIngredient "Meat"],
    prep_time_ := 0, price_ := 0, cuisine_type_ := 0,
    serving_style_ := .PLATED, spiciness_level_ := 1, vegetarian_ := false }

/-- An appetizer with four non-vegetarian ingredients around `Rice`. -/
def mixedAppetizer : Appetizer :=
  { name_ := "Platter",
    ingredients_ := [plainIngredient "Meat", plainIngredient "Rice", plainIngredient "Chicken",
      plainIngredient "Fish", plainIngredient "Bacon"],
    prep_time_ := 0, price_ := 0, cuisine_type_ := 0,
    serving_style_ := .PLATED, spiciness_level_ := 1, vegetarian_ := false }

/-- The project-4 appetizer with the same ingredient names. -/
def mixedAppetizer4 : Appetizer4 :=
  { name_ := "Platter", ingredients_ := ["Meat", "Rice", "Chicken", "Fish", "Bacon"],
    prep_time_ := 0, price_ := 0, cuisine_type_ := .OTHER,
    serving_style_ := .PLATED, spiciness_level_ := 1, vegetarian_ := false }

/-- A main course with the same ingredients. -/
def mixedCourse : MainCourse :=
  { name_ := "Platter",
    ingredients_ := [plainIngredient "Meat", plainIngredient "Rice", plainIngredient "Chicken",
      plainIngredient "Fish", plainIngredient "Bacon"],
    prep_time_ := 0, price_ := 0, cuisine_type_ := 0,
    cooking_method_ := .GRILLED, protein_type_ := "Beef", side_dishes_ := [],
    gluten_free_ := false }

/-- The dish `Chicken Plate`, requiring 3 `Chicken`, with the stock field `quantity` of
its recipe record left open. -/
def stockedPlate (quantity : Int) : Dish :=
  ⟨"Chicken Plate", [⟨"Chicken", quantity, 3, 0⟩], 0, 0, 0⟩

/-- The `Grill` scenario for a given stock field of the recipe record: station `Grill`
assigned the dish and holding 2 `Chicken`, the dish queued, 5 `Chicken` in the backup
store. -/
def stockedGrillManager (quantity : Int) : StationManager :=
  ⟨[⟨"Grill", [stockedPlate quantity], [⟨"Chicken", 2, 0, 0⟩]⟩], [stockedPlate quantity],
    [⟨"Chicken", 5, 0, 0⟩]⟩

/-! ## Properties of `KitchenStation` -/

theorem canScan_true_iff (ingredient : Ingredient) (stock : List Ingredient) (found : Bool) :
    canScan ingredient stock found = some true ↔
      (∀ e ∈ stock, e.name = ingredient.name → e.quantity ≥ ingredient.required_quantity) ∧
      (found = true ∨ ∃ e ∈ stock, e.name = ingredient.name) := by
  induction stock generalizing found with
  | nil => simp [canScan]
  | cons x rest ih =>
    unfold canScan
    by_cases hn : x.name = ingredient.name
    · by_cases hq : x.quantity ≥ ingredient.required_quantity
      · rw [if_pos hn, if_pos hq, ih]
        constructor
        · rintro ⟨h1, _⟩
          refine ⟨?_, Or.inr ⟨x, List.mem_cons_self _ _, hn⟩⟩
          intro e he hen
          rcases List.mem_cons.1 he with rfl | he
          · exact hq
          · exact h1 e he hen
        · rintro ⟨h1, _⟩
          exact ⟨fun e he hen => h1 e (List.mem_cons_of_mem _ he) hen, Or.inl rfl⟩
      · rw [if_pos hn, if_neg hq]
        constructor
        · intro h; cases h
        · rintro ⟨h1, _⟩
          exact absurd (h1 x (List.mem_cons_self _ _) hn) hq
    · rw [if_neg hn, ih]
      constructor
      · rintro ⟨h1, h2⟩
        refine ⟨?_, ?_⟩
        · intro e he hen
          rcases List.mem_cons.1 he with rfl | he
          · exact absurd hen hn
          · exact h1 e he hen
        · rcases h2 with h2 | ⟨e, he, hen⟩
          · exact Or.inl h2
          · exact Or.inr ⟨e, List.mem_cons_of_mem _ he, hen⟩
      · rintro ⟨h1, h2⟩
        refine ⟨fun e he hen => h1 e (List.mem_cons_of_mem _ he) hen, ?_⟩
        rcases h2 with h2 | ⟨e, he, hen⟩
        · exact Or.inl h2
        · rcases List.mem_cons.1 he with rfl | he
          · exact absurd hen hn
          · exact Or.inr ⟨e, he, hen⟩

theorem canIngredients_true_iff (stock ingredients : List Ingredient) :
    canIngredients stock ingredients = true ↔
      ∀ ingredient ∈ ingredients, canScan ingredient stock false = some true := by
  induction ingredients with
  | nil => simp [canIngredients]
  | cons a rest ih =>
    unfold canIngredients
    rcases h : canScan a stock false with _ | _ | _
    · simp [h]
    · simp [h]
    · simp [h, ih]

theorem canDishes_eq (stock : List Ingredient) (dish_name : String) (dishes : List Dish) :
    canDishes stock dish_name dishes =
      match firstDish dish_name dishes with
      | some dish => canIngredients stock dish.ingredients_
      | none => false := by
  induction dishes with
  | nil => simp [canDishes, firstDish]
  | cons d rest ih =>
    unfold canDishes firstDish
    by_cases hn : d.name_ = dish_name
    · simp [hn]
    · simp [hn, ih]

theorem prepDishes_eq (dish_name : String) (stock : List Ingredient) (dishes : List Dish) :
    prepDishes dish_name stock dishes =
      match firstDish dish_name dishes with
      | some dish =>
        if prepCheck stock dish.ingredients_ then (true, deductAll dish.ingredients_ stock)
        else (false, stock)
      | none => (false, stock) := by
  induction dishes with
  | nil => simp [prepDishes, firstDish]
  | cons d rest ih =>
    unfold prepDishes firstDish
    by_cases hn : d.name_ = dish_name
    · simp [hn]
    · simp [hn, ih]

theorem prepDishes_false (dish_name : String) (stock : List Ingredient) (dishes : List Dish)
    (h : (prepDishes dish_name stock dishes).1 = false) :
    (prepDishes dish_name stock dishes).2 = stock := by
  revert h
  rw [prepDishes_eq]
  rcases firstDish dish_name dishes with _ | d
  · intro _; rfl
  · dsimp only
    by_cases hc : prepCheck stock d.ingredients_ = true
    · rw [if_pos hc]; intro h; cases h
    · rw [if_neg hc]; intro _; rfl

theorem unique_entry {stock : List Ingredient} (hu : UniqueNames stock) {e e1 : Ingredient}
    (he : e ∈ stock) (he1 : e1 ∈ stock) (hn : e.name = e1.name) : e = e1 :=
  List.inj_on_of_nodup_map hu he he1 hn

/-- C1 (evaluation at the failing input): the station `saladStation` can complete the
order for `D` (five units of `A` on hand, one required), yet `prepareDish` returns
false, because its re-check compares the stock with the `quantity` field of the recipe
record (10) and not with `required_quantity` (1). -/
theorem prepareDish_refuses_completable_order :
    saladStation.canCompleteOrder "D" = true ∧ (saladStation.prepareDish "D").1 = false := by
  decide

/-- C3: whenever `prepareDish` returns false the station, and in particular its ledger,
is exactly what it was before the call; a failed capability check is one such case. -/
theorem prepareDish_false_keeps_ledger (s : KitchenStation) (dish_name : String)
    (h : (s.prepareDish dish_name).1 = false) :
    (s.prepareDish dish_name).2.ingredients_stock_ = s.ingredients_stock_ ∧
    (s.prepareDish dish_name).2 = s := by
  unfold KitchenStation.prepareDish at h ⊢
  by_cases hc : s.canCompleteOrder dish_name = true
  · simp only [hc, if_true] at h ⊢
    have := prepDishes_false dish_name s.ingredients_stock_ s.dishes_ h
    refine ⟨this, ?_⟩
    rw [this]
  · simp [hc]

/-- Witness of C3: in `shortStation` ingredient `A` is sufficiently stocked and `B` is
not; `prepareDish` fails and the ledger is untouched. -/
theorem prepareDish_false_keeps_ledger_witness :
    (shortStation.prepareDish "D").1 = false ∧
    (shortStation.prepareDish "D").2.ingredients_stock_ = [⟨"A", 5, 0, 0⟩, ⟨"B", 1, 0, 0⟩] :=
  ⟨by decide, (prepareDish_false_keeps_ledger shortStation "D" (by decide)).1⟩

/-- C4: on a ledger with at most one entry per ingredient name, `canCompleteOrder` is
true exactly when a dish of that name is assigned and every ingredient of that dish
has a ledger entry of the same name holding at least the required quantity. -/
theorem canCompleteOrder_iff (s : KitchenStation) (dish_name : String)
    (hu : UniqueNames s.ingredients_stock_) :
    s.canCompleteOrder dish_name = true ↔
      ∃ dish, firstDish dish_name s.dishes_ = some dish ∧
        ∀ ingredient ∈ dish.ingredients_, ∃ e ∈ s.ingredients_stock_,
          e.name = ingredient.name ∧ e.quantity ≥ ingredient.required_quantity := by
  unfold KitchenStation.canCompleteOrder
  rw [canDishes_eq]
  rcases firstDish dish_name s.dishes_ with _ | d
  · simp
  · simp only [canIngredients_true_iff, canScan_true_iff, Option.some.injEq, exists_eq_left']
    constructor
    · intro h ingredient hi
      obtain ⟨h1, h2⟩ := h ingredient hi
      rcases h2 with h2 | ⟨e, he, hen⟩
      · cases h2
      · exact ⟨e, he, hen, h1 e he hen⟩
    · intro h ingredient hi
      obtain ⟨e, he, hen, hq⟩ := h ingredient hi
      refine ⟨?_, Or.inr ⟨e, he, hen⟩⟩
      intro e1 he1 hen1
      have : e1 = e := unique_entry hu he1 he (hen1.trans hen.symm)
      rw [this]; exact hq

/-- Witness of C4 on `saladStation`, whose ledger has the single entry `A`. -/
theorem canCompleteOrder_iff_witness :
    UniqueNames saladStation.ingredients_stock_ ∧
    (saladStation.canCompleteOrder "D" = true ↔
      ∃ dish, firstDish "D" saladStation.dishes_ = some dish ∧
        ∀ ingredient ∈ dish.ingredients_, ∃ e ∈ saladStation.ingredients_stock_,
          e.name = ingredient.name ∧ e.quantity ≥ ingredient.required_quantity) :=
  ⟨by decide, canCompleteOrder_iff saladStation "D" (by decide)⟩

/-! ### The deduction loop on a ledger with one entry per name -/

theorem mem_drop_succ {α : Type} {l : List α} {j : Nat} {a : α}
    (h : a ∈ l.drop (j + 1)) : a ∈ l.drop j := by
  rw [← List.drop_drop 1 j l] at h
  exact List.mem_of_mem_drop h

theorem deductScan_skip (ingredient : Ingredient) :
    ∀ (k j : Nat) (stock : List Ingredient),
      (∀ e ∈ stock.drop j, e.name ≠ ingredient.name) →
      deductScan ingredient k j stock = stock := by
  intro k
  induction k with
  | zero => intro j stock _; rfl
  | succ k ih =>
    intro j stock h
    unfold deductScan
    cases hg : stock[j]? with
    | none => exact ih (j + 1) stock (fun e he => h e (mem_drop_succ he))
    | some x =>
      obtain ⟨hlt, hx⟩ := List.getElem?_eq_some_iff.1 hg
      have hmem : x ∈ stock.drop j := by
        rw [List.drop_eq_getElem_cons hlt, hx]
        exact List.mem_cons_self _ _
      have hne : ¬ x.name = ingredient.name := h x hmem
      simp only [hne, if_false]
      exact ih (j + 1) stock (fun e he => h e (mem_drop_succ he))

theorem getElem?_middle (pre suf : List Ingredient) (x : Ingredient) :
    (pre ++ x :: suf)[pre.length]? = some x := by
  induction pre with
  | nil => simp
  | cons a pre ih => simpa using ih

theorem set_middle (pre suf : List Ingredient) (x y : Ingredient) :
    (pre ++ x :: suf).set pre.length y = pre ++ y :: suf := by
  induction pre with
  | nil => rfl
  | cons a pre ih => simp [ih]

theorem removeIngredient_middle (pre suf : List Ingredient) (x : Ingredient)
    (h : ∀ e ∈ pre, e.name ≠ x.name) :
    removeIngredient x.name (pre ++ x :: suf) = pre ++ suf := by
  induction pre with
  | nil => simp [removeIngredient]
  | cons a pre ih =>
    have ha : ¬ a.name = x.name := h a (List.mem_cons_self _ _)
    have := ih (fun e he => h e (List.mem_cons_of_mem _ he))
    simp [removeIngredient, ha, this]

theorem uniqueNames_cons {x : Ingredient} {rest : List Ingredient}
    (h : UniqueNames (x :: rest)) :
    (∀ e ∈ rest, e.name ≠ x.name) ∧ UniqueNames rest := by
  unfold UniqueNames at h ⊢
  rw [List.map_cons, List.nodup_cons] at h
  refine ⟨?_, h.2⟩
  intro e he hn
  exact h.1 (List.mem_map.2 ⟨e, he, hn⟩)

theorem deductScan_unique (ingredient : Ingredient) :
    ∀ (k : Nat) (pre suf : List Ingredient), suf.length ≤ k →
      (∀ e ∈ pre, e.name ≠ ingredient.name) → UniqueNames suf →
      deductScan ingredient k pre.length (pre ++ suf) = pre ++ deductOne ingredient suf := by
  intro k
  induction k with
  | zero =>
    intro pre suf hl _ _
    have : suf = [] := List.eq_nil_of_length_eq_zero (Nat.le_zero.1 hl)
    subst this
    rfl
  | succ k ih =>
    intro pre suf hl hpre hu
    cases suf with
    | nil =>
      rw [deductScan_skip]
      · rfl
      · intro e he
        simp at he
    | cons x suf =>
      obtain ⟨hx, hu1⟩ := uniqueNames_cons hu
      unfold deductScan
      rw [getElem?_middle]
      dsimp only
      by_cases hn : x.name = ingredient.name
      · have hnone : ∀ e ∈ suf, e.name ≠ ingredient.name := fun e he => hn ▸ hx e he
        rw [if_pos hn, set_middle]
        by_cases hz : x.quantity - ingredient.required_quantity = 0
        · rw [if_pos hz]
          have hrm := removeIngredient_middle pre suf
            { x with quantity := x.quantity - ingredient.required_quantity }
            (fun e he => by rw [hn]; exact hpre e he)
          rw [hrm, deductScan_skip]
          · simp [deductOne, hn, hz]
          · intro e he
            rcases List.mem_append.1 (List.mem_of_mem_drop he) with h1 | h1
            · exact hpre e h1
            · exact hnone e h1
        · rw [if_neg hz, deductScan_skip]
          · simp [deductOne, hn, hz]
          · intro e he
            rw [List.drop_append 1] at he
            exact hnone e (List.mem_of_mem_drop he)
      · rw [if_neg hn]
        have hl1 : suf.length ≤ k := by simpa using hl
        have hpre1 : ∀ e ∈ pre ++ [x], e.name ≠ ingredient.name := by
          intro e he
          rcases List.mem_append.1 he with h1 | h1
          · exact hpre e h1
          · rw [List.mem_singleton.1 h1]; exact hn
        have := ih (pre ++ [x]) suf hl1 hpre1 hu1
        simp only [List.length_append, List.length_singleton, List.append_assoc,
          List.singleton_append] at this
        rw [this]
        simp [deductOne, hn]

theorem deductOne_names_sublist (ingredient : Ingredient) (stock : List Ingredient) :
    List.Sublist ((deductOne ingredient stock).map (fun x => x.name))
      (stock.map (fun x => x.name)) := by
  induction stock with
  | nil => exact List.Sublist.slnil
  | cons x rest ih =>
    unfold deductOne
    by_cases hn : x.name = ingredient.name
    · by_cases hz : x.quantity - ingredient.required_quantity = 0
      · simp [hn, hz]
      · simp [hn, hz]
    · simp [hn, ih]

theorem deductOne_unique (ingredient : Ingredient) {stock : List Ingredient}
    (hu : UniqueNames stock) : UniqueNames (deductOne ingredient stock) :=
  List.Nodup.sublist (deductOne_names_sublist ingredient stock) hu

theorem deductAll_cons_unique (ingredient : Ingredient) (rest stock : List Ingredient)
    (hu : UniqueNames stock) :
    deductAll (ingredient :: rest) stock = deductAll rest (deductOne ingredient stock) := by
  have := deductScan_unique ingredient stock.length [] stock (Nat.le_refl _)
    (fun e he => by cases he) hu
  simp only [List.length_nil, List.nil_append] at this
  rw [deductAll, this]

theorem onHand_absent (n : String) (stock : List Ingredient)
    (h : ∀ e ∈ stock, e.name ≠ n) : onHand n stock = 0 := by
  induction stock with
  | nil => rfl
  | cons x rest ih =>
    have hx : ¬ x.name = n := h x (List.mem_cons_self _ _)
    simp [onHand, hx, ih (fun e he => h e (List.mem_cons_of_mem _ he))]

theorem onHand_cons_ne (n : String) (x : Ingredient) (rest : List Ingredient)
    (h : ¬ x.name = n) : onHand n (x :: rest) = onHand n rest := by
  rw [onHand, if_neg h]

theorem onHand_cons_eq (n : String) (x : Ingredient) (rest : List Ingredient)
    (h : x.name = n) : onHand n (x :: rest) = x.quantity := by
  rw [onHand, if_pos h]

theorem onHand_deductOne_other (n : String) (ingredient : Ingredient)
    (stock : List Ingredient) (hn : ingredient.name ≠ n) :
    onHand n (deductOne ingredient stock) = onHand n stock := by
  induction stock with
  | nil => rfl
  | cons x rest ih =>
    unfold deductOne
    by_cases hx : x.name = ingredient.name
    · have hxn : ¬ x.name = n := fun h => hn (hx ▸ h)
      rw [if_pos hx, onHand_cons_ne n x rest hxn]
      by_cases hz : x.quantity - ingredient.required_quantity = 0
      · rw [if_pos hz]
      · rw [if_neg hz]
        exact onHand_cons_ne n _ rest hxn
    · rw [if_neg hx]
      by_cases hxn : x.name = n
      · rw [onHand_cons_eq n x _ hxn, onHand_cons_eq n x _ hxn]
      · rw [onHand_cons_ne n x _ hxn, onHand_cons_ne n x _ hxn, ih]

theorem onHand_deductOne_self (ingredient : Ingredient) (stock : List Ingredient)
    (hu : UniqueNames stock) (hex : ∃ e ∈ stock, e.name = ingredient.name) :
    onHand ingredient.name (deductOne ingredient stock) =
      onHand ingredient.name stock - ingredient.required_quantity := by
  induction stock with
  | nil => obtain ⟨e, he, _⟩ := hex; cases he
  | cons x rest ih =>
    obtain ⟨hx, hu1⟩ := uniqueNames_cons hu
    unfold deductOne
    by_cases hn : x.name = ingredient.name
    · have hnone : ∀ e ∈ rest, e.name ≠ ingredient.name := fun e he => hn ▸ hx e he
      by_cases hz : x.quantity - ingredient.required_quantity = 0
      · simp [hn, hz, onHand, onHand_absent _ _ hnone]
      · simp [hn, hz, onHand]
    · have hex1 : ∃ e ∈ rest, e.name = ingredient.name := by
        obtain ⟨e, he, hen⟩ := hex
        rcases List.mem_cons.1 he with rfl | he
        · exact absurd hen hn
        · exact ⟨e, he, hen⟩
      simp [hn, onHand, ih hu1 hex1]

theorem deductOne_keeps_other (n : String) (ingredient : Ingredient)
    (stock : List Ingredient) (hn : ingredient.name ≠ n)
    (hex : ∃ e ∈ stock, e.name = n) : ∃ e ∈ deductOne ingredient stock, e.name = n := by
  induction stock with
  | nil => obtain ⟨e, he, _⟩ := hex; cases he
  | cons x rest ih =>
    obtain ⟨e, he, hen⟩ := hex
    unfold deductOne
    by_cases hx : x.name = ingredient.name
    · have hex1 : e ∈ rest := by
        rcases List.mem_cons.1 he with rfl | he
        · exact absurd (hx ▸ hen) hn
        · exact he
      by_cases hz : x.quantity - ingredient.required_quantity = 0
      · rw [if_pos hx, if_pos hz]; exact ⟨e, hex1, hen⟩
      · rw [if_pos hx, if_neg hz]; exact ⟨e, List.mem_cons_of_mem _ hex1, hen⟩
    · rw [if_neg hx]
      rcases List.mem_cons.1 he with rfl | he
      · exact ⟨e, List.mem_cons_self _ _, hen⟩
      · obtain ⟨e1, he1, hen1⟩ := ih ⟨e, he, hen⟩
        exact ⟨e1, List.mem_cons_of_mem _ he1, hen1⟩

theorem onHand_deductAll_other (n : String) :
    ∀ (ingredients stock : List Ingredient), UniqueNames stock →
      (∀ ingredient ∈ ingredients, ingredient.name ≠ n) →
      onHand n (deductAll ingredients stock) = onHand n stock := by
  intro ingredients
  induction ingredients with
  | nil => intro stock _ _; rfl
  | cons a rest ih =>
    intro stock hu h
    rw [deductAll_cons_unique a rest stock hu,
      ih _ (deductOne_unique a hu) (fun i hi => h i (List.mem_cons_of_mem _ hi)),
      onHand_deductOne_other n a stock (h a (List.mem_cons_self _ _))]

theorem onHand_deductAll_required (ingredient : Ingredient) :
    ∀ (ingredients stock : List Ingredient), UniqueNames stock → UniqueNames ingredients →
      ingredient ∈ ingredients → (∃ e ∈ stock, e.name = ingredient.name) →
      onHand ingredient.name (deductAll ingredients stock) =
        onHand ingredient.name stock - ingredient.required_quantity := by
  intro ingredients
  induction ingredients with
  | nil => intro stock _ _ hi; cases hi
  | cons a rest ih =>
    intro stock hu hui hi hex
    obtain ⟨ha, hur⟩ := uniqueNames_cons hui
    rw [deductAll_cons_unique a rest stock hu]
    rcases List.mem_cons.1 hi with rfl | hi
    · rw [onHand_deductAll_other _ rest _ (deductOne_unique ingredient hu) ha,
        onHand_deductOne_self ingredient stock hu hex]
    · have hne : a.name ≠ ingredient.name := fun h => ha ingredient hi h.symm
      rw [ih _ (deductOne_unique a hu) hur hi
          (deductOne_keeps_other _ a stock hne hex),
        onHand_deductOne_other _ a stock hne]

theorem prepScan_entry (ingredient : Ingredient) (stock : List Ingredient)
    (h : prepScan ingredient stock = true) : ∃ e ∈ stock, e.name = ingredient.name := by
  induction stock with
  | nil => cases h
  | cons x rest ih =>
    by_cases hn : x.name = ingredient.name
    · exact ⟨x, List.mem_cons_self _ _, hn⟩
    · unfold prepScan at h
      rw [if_neg hn] at h
      obtain ⟨e, he, hen⟩ := ih h
      exact ⟨e, List.mem_cons_of_mem _ he, hen⟩

theorem prepCheck_entries (stock ingredients : List Ingredient)
    (h : prepCheck stock ingredients = true) :
    ∀ ingredient ∈ ingredients, ∃ e ∈ stock, e.name = ingredient.name := by
  induction ingredients with
  | nil => intro i hi; cases hi
  | cons a rest ih =>
    unfold prepCheck at h
    by_cases hs : prepScan a stock = true
    · rw [if_pos hs] at h
      intro i hi
      rcases List.mem_cons.1 hi with rfl | hi
      · exact prepScan_entry _ stock hs
      · exact ih h i hi
    · rw [if_neg hs] at h; cases h

theorem prepareDish_true_eq (s : KitchenStation) (dish_name : String) (dish : Dish)
    (hd : firstDish dish_name s.dishes_ = some dish)
    (hp : (s.prepareDish dish_name).1 = true) :
    prepCheck s.ingredients_stock_ dish.ingredients_ = true ∧
    (s.prepareDish dish_name).2.ingredients_stock_ =
      deductAll dish.ingredients_ s.ingredients_stock_ := by
  unfold KitchenStation.prepareDish at hp ⊢
  by_cases hc : s.canCompleteOrder dish_name = true
  · simp only [hc, if_true] at hp ⊢
    rw [prepDishes_eq, hd] at hp ⊢
    dsimp only at hp ⊢
    by_cases hk : prepCheck s.ingredients_stock_ dish.ingredients_ = true
    · rw [if_pos hk]; exact ⟨hk, rfl⟩
    · rw [if_neg hk] at hp; cases hp
  · simp [hc] at hp

/-- C2 (counterexample): the claim fails for a dish that lists an ingredient twice
(`doubleStation`: five `A` on hand, the dish lists `A` twice with 2 required, the
call succeeds and leaves 1, not 3) and for a ledger with two entries of one name
(`twinStation`: entries 2 and 1 of `A`, one required, the call succeeds and leaves a
single entry of quantity 0, so neither the first entry nor the total dropped by 1). -/
theorem prepareDish_deduction_counterexample :
    ((doubleStation.prepareDish "D").1 = true ∧
      onHand "A" doubleStation.ingredients_stock_ = 5 ∧
      onHand "A" (doubleStation.prepareDish "D").2.ingredients_stock_ = 1) ∧
    ((twinStation.prepareDish "D").1 = true ∧
      (twinStation.prepareDish "D").2.ingredients_stock_ = [⟨"A", 0, 0, 0⟩]) := by
  decide

/-- C2 (amended): for a station whose ledger has at most one entry per name and an
assigned dish that lists each ingredient name once, a successful `prepareDish` lowers
the on-hand quantity of every required ingredient by exactly its required quantity
and leaves the on-hand quantity of every other ingredient unchanged. -/
theorem prepareDish_deducts_required (s : KitchenStation) (dish_name : String) (dish : Dish)
    (hu : UniqueNames s.ingredients_stock_)
    (hd : firstDish dish_name s.dishes_ = some dish)
    (hdu : UniqueNames dish.ingredients_)
    (hp : (s.prepareDish dish_name).1 = true) :
    (∀ ingredient ∈ dish.ingredients_,
      onHand ingredient.name (s.prepareDish dish_name).2.ingredients_stock_ =
        onHand ingredient.name s.ingredients_stock_ - ingredient.required_quantity) ∧
    (∀ n : String, (∀ ingredient ∈ dish.ingredients_, ingredient.name ≠ n) →
      onHand n (s.prepareDish dish_name).2.ingredients_stock_ =
        onHand n s.ingredients_stock_) := by
  obtain ⟨hk, heq⟩ := prepareDish_true_eq s dish_name dish hd hp
  rw [heq]
  refine ⟨?_, ?_⟩
  · intro ingredient hi
    exact onHand_deductAll_required ingredient _ _ hu hdu hi
      (prepCheck_entries _ _ hk ingredient hi)
  · intro n hn
    exact onHand_deductAll_other n _ _ hu hn

/-- Witness of C2 (amended) on `pantryStation`: `A` drops from 2 to 0 (its entry is
erased), `B` from 4 to 3, and `C` keeps its 7 units. -/
theorem prepareDish_deducts_required_witness :
    (pantryStation.prepareDish "D").1 = true ∧
    (pantryStation.prepareDish "D").2.ingredients_stock_ = [⟨"B", 3, 0, 0⟩, ⟨"C", 7, 0, 0⟩] ∧
    ((∀ ingredient ∈ [(⟨"A", 0, 2, 0⟩ : Ingredient), ⟨"B", 0, 1, 0⟩],
      onHand ingredient.name (pantryStation.prepareDish "D").2.ingredients_stock_ =
        onHand ingredient.name pantryStation.ingredients_stock_ -
          ingredient.required_quantity) ∧
    (∀ n : String,
      (∀ ingredient ∈ [(⟨"A", 0, 2, 0⟩ : Ingredient), ⟨"B", 0, 1, 0⟩], ingredient.name ≠ n) →
      onHand n (pantryStation.prepareDish "D").2.ingredients_stock_ =
        onHand n pantryStation.ingredients_stock_)) :=
  ⟨by decide, by decide,
    prepareDish_deducts_required pantryStation "D"
      ⟨"D", [⟨"A", 0, 2, 0⟩, ⟨"B", 0, 1, 0⟩], 0, 0, 0⟩ (by decide) (by decide) (by decide)
      (by decide)⟩

/-! ## Properties of `replenishStationIngredientFromBackup` -/

theorem findStation_eq_none_iff (station_name : String) (stations : List KitchenStation) :
    findStation station_name stations = none ↔
      ∀ st ∈ stations, st.station_name_ ≠ station_name := by
  induction stations with
  | nil => simp [findStation]
  | cons s rest ih =>
    unfold findStation
    by_cases hn : s.station_name_ = station_name
    · simp [hn]
    · rw [if_neg hn]
      cases hf : findStation station_name rest with
      | none =>
        have := ih.1 hf
        simp only [List.mem_cons, forall_eq_or_imp, true_iff]
        exact ⟨hn, this⟩
      | some i =>
        have hne : ¬ ∀ st ∈ rest, st.station_name_ ≠ station_name := by
          intro h; rw [ih.2 h] at hf; cases hf
        constructor
        · intro h; cases h
        · intro h
          exact absurd (fun st hst => h st (List.mem_cons_of_mem _ hst)) hne

theorem backupScan_eq_none_iff (ingredient_name : String) (quantity : Int)
    (backup : List Ingredient) :
    backupScan ingredient_name quantity backup = none ↔
      (∀ e ∈ backup, e.name ≠ ingredient_name) ∨
      ((∃ e ∈ backup, e.name = ingredient_name) ∧ onHand ingredient_name backup < quantity) := by
  induction backup with
  | nil => simp [backupScan]
  | cons b rest ih =>
    unfold backupScan
    by_cases hn : b.name = ingredient_name
    · rw [if_pos hn, onHand_cons_eq _ b rest hn]
      have hex : ∃ e ∈ b :: rest, e.name = ingredient_name := ⟨b, List.mem_cons_self _ _, hn⟩
      have hnall : ¬ ∀ e ∈ b :: rest, e.name ≠ ingredient_name :=
        fun h => h b (List.mem_cons_self _ _) hn
      by_cases hq : b.quantity ≥ quantity
      · rw [if_pos hq]
        dsimp only
        have hlt : ¬ b.quantity < quantity := not_lt.2 hq
        constructor
        · intro h
          split at h <;> cases h
        · rintro (h | ⟨_, h⟩)
          · exact absurd h hnall
          · exact absurd h hlt
      · rw [if_neg hq]
        exact ⟨fun _ => Or.inr ⟨hex, not_le.1 hq⟩, fun _ => rfl⟩
    · rw [if_neg hn, onHand_cons_ne _ b rest hn]
      have hstep : backupScan ingredient_name quantity rest = none ↔
          (match backupScan ingredient_name quantity rest with
            | some (replenished_ingredient, rest1) => some (replenished_ingredient, b :: rest1)
            | none => none) = none := by
        cases backupScan ingredient_name quantity rest with
        | none => simp
        | some p => simp
      rw [← hstep, ih]
      constructor
      · rintro (h | ⟨⟨e, he, hen⟩, hlt⟩)
        · left
          intro e he
          rcases List.mem_cons.1 he with rfl | he
          · exact hn
          · exact h e he
        · exact Or.inr ⟨⟨e, List.mem_cons_of_mem _ he, hen⟩, hlt⟩
      · rintro (h | ⟨⟨e, he, hen⟩, hlt⟩)
        · exact Or.inl (fun e he => h e (List.mem_cons_of_mem _ he))
        · rcases List.mem_cons.1 he with rfl | he
          · exact absurd hen hn
          · exact Or.inr ⟨⟨e, he, hen⟩, hlt⟩

/-- C5: `replenishStationIngredientFromBackup` returns false exactly when no station
has the name, or the backup store has no entry of the ingredient name, or the backup
entry of that name (the first one) holds less than the requested quantity. -/
theorem replenishFromBackup_false_iff (m : StationManager)
    (station_name ingredient_name : String) (quantity : Int) :
    (m.replenishStationIngredientFromBackup station_name ingredient_name quantity).1 = false ↔
      (∀ st ∈ m.stations, st.station_name_ ≠ station_name) ∨
      (∀ e ∈ m.backup_ingredients_, e.name ≠ ingredient_name) ∨
      ((∃ e ∈ m.backup_ingredients_, e.name = ingredient_name) ∧
        onHand ingredient_name m.backup_ingredients_ < quantity) := by
  rw [← findStation_eq_none_iff, ← backupScan_eq_none_iff]
  unfold StationManager.replenishStationIngredientFromBackup
  cases findStation station_name m.stations with
  | none => simp
  | some i =>
    cases backupScan ingredient_name quantity m.backup_ingredients_ with
    | none => simp
    | some p => simp

theorem totalQuantity_append (n : String) (l1 l2 : List Ingredient) :
    totalQuantity n (l1 ++ l2) = totalQuantity n l1 + totalQuantity n l2 := by
  induction l1 with
  | nil => simp [totalQuantity]
  | cons x rest ih =>
    rw [List.cons_append, totalQuantity, totalQuantity, ih]
    omega

theorem totalQuantity_absent (n : String) (stock : List Ingredient)
    (h : ∀ e ∈ stock, e.name ≠ n) : totalQuantity n stock = 0 := by
  induction stock with
  | nil => rfl
  | cons x rest ih =>
    have hx : ¬ x.name = n := h x (List.mem_cons_self _ _)
    simp [totalQuantity, hx, ih (fun e he => h e (List.mem_cons_of_mem _ he))]

theorem onHand_append_absent (n : String) (l1 l2 : List Ingredient)
    (h : ∀ e ∈ l1, e.name ≠ n) : onHand n (l1 ++ l2) = onHand n l2 := by
  induction l1 with
  | nil => rfl
  | cons x rest ih =>
    have hx : ¬ x.name = n := h x (List.mem_cons_self _ _)
    rw [List.cons_append, onHand_cons_ne n x _ hx,
      ih (fun e he => h e (List.mem_cons_of_mem _ he))]

theorem backupScan_some (ingredient_name : String) (quantity : Int) :
    ∀ (backup : List Ingredient) (r : Ingredient) (backup1 : List Ingredient),
      backupScan ingredient_name quantity backup = some (r, backup1) →
      r.name = ingredient_name ∧ r.quantity = quantity ∧
      totalQuantity ingredient_name backup1 =
        totalQuantity ingredient_name backup - quantity ∧
      (UniqueNames backup →
        onHand ingredient_name backup1 = onHand ingredient_name backup - quantity) := by
  intro backup
  induction backup with
  | nil => intro r backup1 h; cases h
  | cons b rest ih =>
    intro r backup1 h
    unfold backupScan at h
    by_cases hn : b.name = ingredient_name
    · rw [if_pos hn] at h
      by_cases hq : b.quantity ≥ quantity
      · rw [if_pos hq] at h
        dsimp only at h
        by_cases hz : b.quantity - quantity = 0
        · rw [if_pos hz] at h
          cases h
          refine ⟨hn, rfl, ?_, ?_⟩
          · simp only [totalQuantity, if_pos hn]; omega
          · intro hu
            have hnone : ∀ e ∈ rest, e.name ≠ ingredient_name :=
              fun e he => hn ▸ (uniqueNames_cons hu).1 e he
            rw [onHand_absent _ _ hnone, onHand_cons_eq _ b rest hn]
            omega
        · rw [if_neg hz] at h
          cases h
          refine ⟨hn, rfl, ?_, ?_⟩
          · simp only [totalQuantity, if_pos hn]; omega
          · intro _
            rw [onHand_cons_eq _ b rest hn]
            exact onHand_cons_eq _ _ rest hn
      · rw [if_neg hq] at h; cases h
    · rw [if_neg hn] at h
      cases hr : backupScan ingredient_name quantity rest with
      | none => rw [hr] at h; cases h
      | some p =>
        obtain ⟨r1, rest1⟩ := p
        rw [hr] at h
        cases h
        obtain ⟨h1, h2, h3, h4⟩ := ih r rest1 hr
        refine ⟨h1, h2, ?_, ?_⟩
        · simp only [totalQuantity, if_neg hn, h3]; omega
        · intro hu
          rw [onHand_cons_ne _ b _ hn, onHand_cons_ne _ b _ hn, h4 (uniqueNames_cons hu).2]

theorem replenishLoop_none (ingredient : Ingredient) (stock : List Ingredient)
    (h : replenishLoop ingredient stock = none) :
    ∀ e ∈ stock, e.name ≠ ingredient.name := by
  induction stock with
  | nil => intro e he; cases he
  | cons x rest ih =>
    unfold replenishLoop at h
    by_cases hn : x.name = ingredient.name
    · rw [if_pos hn] at h; cases h
    · rw [if_neg hn] at h
      cases hr : replenishLoop ingredient rest with
      | some rest1 => rw [hr] at h; cases h
      | none =>
        intro e he
        rcases List.mem_cons.1 he with rfl | he
        · exact hn
        · exact ih hr e he

theorem replenishLoop_some (ingredient : Ingredient) :
    ∀ (stock stock1 : List Ingredient), replenishLoop ingredient stock = some stock1 →
      onHand ingredient.name stock1 = onHand ingredient.name stock + ingredient.quantity ∧
      totalQuantity ingredient.name stock1 =
        totalQuantity ingredient.name stock + ingredient.quantity := by
  intro stock
  induction stock with
  | nil => intro stock1 h; cases h
  | cons x rest ih =>
    intro stock1 h
    unfold replenishLoop at h
    by_cases hn : x.name = ingredient.name
    · rw [if_pos hn] at h
      cases h
      refine ⟨?_, ?_⟩
      · rw [onHand_cons_eq _ x rest hn]
        exact onHand_cons_eq _ _ rest hn
      · simp only [totalQuantity, if_pos hn]; omega
    · rw [if_neg hn] at h
      cases hr : replenishLoop ingredient rest with
      | none => rw [hr] at h; cases h
      | some rest1 =>
        rw [hr] at h
        cases h
        obtain ⟨h1, h2⟩ := ih rest1 hr
        refine ⟨?_, ?_⟩
        · rw [onHand_cons_ne _ x _ hn, onHand_cons_ne _ x _ hn, h1]
        · simp only [totalQuantity, if_neg hn, h2]; omega

theorem replenishStock_quantity (ingredient : Ingredient) (stock : List Ingredient) :
    onHand ingredient.name (replenishStock ingredient stock) =
      onHand ingredient.name stock + ingredient.quantity ∧
    totalQuantity ingredient.name (replenishStock ingredient stock) =
      totalQuantity ingredient.name stock + ingredient.quantity := by
  unfold replenishStock
  cases hr : replenishLoop ingredient stock with
  | some stock1 => exact replenishLoop_some ingredient stock stock1 hr
  | none =>
    have hnone := replenishLoop_none ingredient stock hr
    dsimp only
    refine ⟨?_, ?_⟩
    · rw [onHand_append_absent _ _ _ hnone, onHand_absent _ _ hnone,
        onHand_cons_eq _ ingredient [] rfl]
      omega
    · rw [totalQuantity_append]
      simp [totalQuantity]

theorem stationLedger_modifyAt (station_name : String) (r : Ingredient) :
    ∀ (stations : List KitchenStation) (i : Nat),
      findStation station_name stations = some i →
      stationLedger station_name
          (modifyAt (fun st => st.replenishStationIngredients r) i stations) =
        replenishStock r (stationLedger station_name stations) := by
  intro stations
  induction stations with
  | nil => intro i h; cases h
  | cons s rest ih =>
    intro i h
    unfold findStation at h
    by_cases hn : s.station_name_ = station_name
    · rw [if_pos hn] at h
      cases h
      simp [modifyAt, stationLedger, KitchenStation.replenishStationIngredients, hn]
    · rw [if_neg hn] at h
      cases hf : findStation station_name rest with
      | none => rw [hf] at h; cases h
      | some i1 =>
        rw [hf] at h
        cases h
        simp [modifyAt, stationLedger, hn, ih i1 hf]

theorem replenishFromBackup_true (m : StationManager)
    (station_name ingredient_name : String) (quantity : Int)
    (h : (m.replenishStationIngredientFromBackup station_name ingredient_name quantity).1
      = true) :
    ∃ i r backup1, findStation station_name m.stations = some i ∧
      backupScan ingredient_name quantity m.backup_ingredients_ = some (r, backup1) ∧
      (m.replenishStationIngredientFromBackup station_name ingredient_name quantity).2 =
        { m with
          stations := modifyAt (fun st => st.replenishStationIngredients r) i m.stations,
          backup_ingredients_ := backup1 } := by
  unfold StationManager.replenishStationIngredientFromBackup at h ⊢
  cases hf : findStation station_name m.stations with
  | none => rw [hf] at h; cases h
  | some i =>
    cases hb : backupScan ingredient_name quantity m.backup_ingredients_ with
    | none => rw [hf, hb] at h; cases h
    | some p =>
      obtain ⟨r, backup1⟩ := p
      exact ⟨i, r, backup1, rfl, rfl, rfl⟩

/-- C6: after a successful `replenishStationIngredientFromBackup(S, I, q)` the backup
store holds `q` less of `I` and the ledger of station `S` holds `q` more of `I` (its
entry of `I`, and its total of `I`, `0` when it had no entry); the sum over backup and
station is unchanged.  The backup quantity is the total over the entries named `I`;
when the backup store has one entry per name the same holds for the entry of `I`. -/
theorem replenishFromBackup_conserves (m : StationManager)
    (station_name ingredient_name : String) (quantity : Int)
    (h : (m.replenishStationIngredientFromBackup station_name ingredient_name quantity).1
      = true) :
    totalQuantity ingredient_name
        (m.replenishStationIngredientFromBackup station_name ingredient_name
          quantity).2.backup_ingredients_ =
      totalQuantity ingredient_name m.backup_ingredients_ - quantity ∧
    onHand ingredient_name (stationLedger station_name
        (m.replenishStationIngredientFromBackup station_name ingredient_name
          quantity).2.stations) =
      onHand ingredient_name (stationLedger station_name m.stations) + quantity ∧
    totalQuantity ingredient_name (stationLedger station_name
        (m.replenishStationIngredientFromBackup station_name ingredient_name
          quantity).2.stations) =
      totalQuantity ingredient_name (stationLedger station_name m.stations) + quantity ∧
    totalQuantity ingredient_name
        (m.replenishStationIngredientFromBackup station_name ingredient_name
          quantity).2.backup_ingredients_ +
      totalQuantity ingredient_name (stationLedger station_name
        (m.replenishStationIngredientFromBackup station_name ingredient_name
          quantity).2.stations) =
      totalQuantity ingredient_name m.backup_ingredients_ +
        totalQuantity ingredient_name (stationLedger station_name m.stations) ∧
    (UniqueNames m.backup_ingredients_ →
      onHand ingredient_name
          (m.replenishStationIngredientFromBackup station_name ingredient_name
            quantity).2.backup_ingredients_ =
        onHand ingredient_name m.backup_ingredients_ - quantity) := by
  obtain ⟨i, r, backup1, hf, hb, heq⟩ :=
    replenishFromBackup_true m station_name ingredient_name quantity h
  obtain ⟨hrn, hrq, htot, hon⟩ := backupScan_some ingredient_name quantity _ r backup1 hb
  have hst := stationLedger_modifyAt station_name r m.stations i hf
  obtain ⟨hs1, hs2⟩ := replenishStock_quantity r (stationLedger station_name m.stations)
  rw [hrn, hrq] at hs1 hs2
  rw [heq]
  dsimp only
  rw [hst, htot, hs1, hs2]
  refine ⟨rfl, rfl, rfl, by omega, hon⟩

/-- Witness of C6 on `oilManager`: 2 `Oil` move from the backup store (5, then 3) to
the ledger of `Fryer` (1, then 3). -/
theorem replenishFromBackup_conserves_witness :
    (oilManager.replenishStationIngredientFromBackup "Fryer" "Oil" 2).1 = true ∧
    (oilManager.replenishStationIngredientFromBackup "Fryer" "Oil" 2).2 =
      ⟨[⟨"Grill", [], []⟩, ⟨"Fryer", [], [⟨"Oil", 3, 0, 0⟩]⟩], [],
        [⟨"Salt", 2, 0, 0⟩, ⟨"Oil", 3, 0, 7⟩]⟩ ∧
    totalQuantity "Oil"
        (oilManager.replenishStationIngredientFromBackup "Fryer" "Oil"
          2).2.backup_ingredients_ =
      totalQuantity "Oil" oilManager.backup_ingredients_ - 2 :=
  ⟨by decide, by decide,
    (replenishFromBackup_conserves oilManager "Fryer" "Oil" 2 (by decide)).1⟩

/-- C7: when `replenishStationIngredientFromBackup` returns false the backup store and
every station (hence every ledger) are exactly what they were before the call. -/
theorem replenishFromBackup_false_unchanged (m : StationManager)
    (station_name ingredient_name : String) (quantity : Int)
    (h : (m.replenishStationIngredientFromBackup station_name ingredient_name quantity).1
      = false) :
    (m.replenishStationIngredientFromBackup station_name ingredient_name
        quantity).2.backup_ingredients_ = m.backup_ingredients_ ∧
    (m.replenishStationIngredientFromBackup station_name ingredient_name
        quantity).2.stations = m.stations ∧
    (m.replenishStationIngredientFromBackup station_name ingredient_name quantity).2 = m := by
  unfold StationManager.replenishStationIngredientFromBackup at h ⊢
  cases hf : findStation station_name m.stations with
  | none => exact ⟨rfl, rfl, rfl⟩
  | some i =>
    cases hb : backupScan ingredient_name quantity m.backup_ingredients_ with
    | none => exact ⟨rfl, rfl, rfl⟩
    | some p => rw [hf, hb] at h; cases h

/-- Witness of C7 on `oilManager`: 9 `Oil` are requested, the backup store holds 5. -/
theorem replenishFromBackup_false_unchanged_witness :
    (oilManager.replenishStationIngredientFromBackup "Fryer" "Oil" 9).1 = false ∧
    (oilManager.replenishStationIngredientFromBackup "Fryer" "Oil" 9).2 = oilManager :=
  ⟨by decide, (replenishFromBackup_false_unchanged oilManager "Fryer" "Oil" 9 (by decide)).2.2⟩

theorem backupScan_whole (ingredient_name : String) (quantity : Int) (b : Ingredient)
    (post : List Ingredient) (hn : b.name = ingredient_name) (hq : b.quantity = quantity) :
    ∀ pre : List Ingredient, (∀ e ∈ pre, e.name ≠ ingredient_name) →
      backupScan ingredient_name quantity (pre ++ b :: post) =
        some ({ b with quantity := quantity }, pre ++ post) := by
  intro pre
  induction pre with
  | nil =>
    intro _
    have hge : b.quantity ≥ quantity := by omega
    have hz : b.quantity - quantity = 0 := by omega
    simp [backupScan, hn, hge, hz]
  | cons a pre ih =>
    intro h
    have ha : ¬ a.name = ingredient_name := h a (List.mem_cons_self _ _)
    have := ih (fun e he => h e (List.mem_cons_of_mem _ he))
    simp [backupScan, ha, this]

/-- C8: when a successful `replenishStationIngredientFromBackup` asks for the whole
quantity of the matched backup entry (the first entry `b` of the ingredient name), the
backup store afterwards is the previous one with exactly that entry removed: the
entries before and after it are unchanged and in the same order. -/
theorem replenishFromBackup_prunes_entry (m : StationManager)
    (station_name ingredient_name : String) (quantity : Int)
    (pre post : List Ingredient) (b : Ingredient)
    (h : (m.replenishStationIngredientFromBackup station_name ingredient_name quantity).1
      = true)
    (hb : m.backup_ingredients_ = pre ++ b :: post)
    (hpre : ∀ e ∈ pre, e.name ≠ ingredient_name)
    (hn : b.name = ingredient_name) (hq : b.quantity = quantity) :
    (m.replenishStationIngredientFromBackup station_name ingredient_name
        quantity).2.backup_ingredients_ = pre ++ post := by
  obtain ⟨i, r, backup1, _, hscan, heq⟩ :=
    replenishFromBackup_true m station_name ingredient_name quantity h
  rw [hb, backupScan_whole ingredient_name quantity b post hn hq pre hpre] at hscan
  cases hscan
  rw [heq]

/-- Witness of C8 on `oilManager`: all 5 `Oil` are withdrawn; `Salt` stays. -/
theorem replenishFromBackup_prunes_entry_witness :
    (oilManager.replenishStationIngredientFromBackup "Fryer" "Oil" 5).1 = true ∧
    (oilManager.replenishStationIngredientFromBackup "Fryer" "Oil"
        5).2.backup_ingredients_ = [⟨"Salt", 2, 0, 0⟩] :=
  ⟨by decide,
    replenishFromBackup_prunes_entry oilManager "Fryer" "Oil" 5 [⟨"Salt", 2, 0, 0⟩] []
      ⟨"Oil", 5, 0, 7⟩ (by decide) (by decide) (by decide) (by decide) (by decide)⟩

/-! ## Properties of `processAllDishes` -/

theorem replenishFromBackup_queue (m : StationManager) (queue : List Dish)
    (station_name ingredient_name : String) (quantity : Int) :
    ({ m with dish_queue_ := queue } : StationManager).replenishStationIngredientFromBackup
        station_name ingredient_name quantity =
      ((m.replenishStationIngredientFromBackup station_name ingredient_name quantity).1,
        { (m.replenishStationIngredientFromBackup station_name ingredient_name quantity).2
          with dish_queue_ := queue }) := by
  unfold StationManager.replenishStationIngredientFromBackup
  dsimp only
  cases findStation station_name m.stations with
  | none => rfl
  | some i =>
    cases backupScan ingredient_name quantity m.backup_ingredients_ with
    | none => rfl
    | some p => rfl

theorem replenishPass_queue (i : Nat) (queue : List Dish) :
    ∀ (ingredients : List Ingredient) (m : StationManager),
      replenishPass i ingredients { m with dish_queue_ := queue } =
        ((replenishPass i ingredients m).1,
          { (replenishPass i ingredients m).2 with dish_queue_ := queue }) := by
  intro ingredients
  induction ingredients with
  | nil => intro m; rfl
  | cons a rest ih =>
    intro m
    unfold replenishPass
    dsimp only
    cases m.stations[i]? with
    | none => rfl
    | some station =>
      dsimp only
      cases stockLookup a.name station.ingredients_stock_ with
      | none =>
        dsimp only
        rw [replenishFromBackup_queue]
        dsimp only
        split
        · exact ih _
        · rfl
      | some availableQuantity =>
        dsimp only
        split
        · rw [replenishFromBackup_queue]
          dsimp only
          split
          · exact ih _
          · rfl
        · exact ih _

theorem tryPrepare_queue (i : Nat) (dish_name : String) (queue : List Dish)
    (m : StationManager) :
    tryPrepare i dish_name { m with dish_queue_ := queue } =
      ((tryPrepare i dish_name m).1,
        { (tryPrepare i dish_name m).2 with dish_queue_ := queue }) := by
  unfold tryPrepare
  dsimp only
  cases m.stations[i]? with
  | none => rfl
  | some station => rfl

theorem stationScan_queue (dish : Dish) (queue : List Dish) :
    ∀ (k i : Nat) (m : StationManager),
      stationScan dish k i { m with dish_queue_ := queue } =
        ((stationScan dish k i m).1, { (stationScan dish k i m).2 with dish_queue_ := queue }) := by
  intro k
  induction k with
  | zero => intro i m; rfl
  | succ k ih =>
    intro i m
    unfold stationScan
    dsimp only
    cases m.stations[i]? with
    | none => rfl
    | some station =>
      dsimp only
      split
      · exact ih _ _
      · split
        · exact ih _ _
        · split
          · rw [replenishPass_queue]
            dsimp only
            split
            · rw [tryPrepare_queue]
              dsimp only
              split
              · rfl
              · exact ih _ _
            · exact ih _ _
          · rw [tryPrepare_queue]
            dsimp only
            split
            · rfl
            · exact ih _ _

theorem attemptDish_queue (dish : Dish) (queue : List Dish) (m : StationManager) :
    attemptDish dish { m with dish_queue_ := queue } =
      ((attemptDish dish m).1, { (attemptDish dish m).2 with dish_queue_ := queue }) := by
  unfold attemptDish
  exact stationScan_queue dish queue _ 0 m

theorem keptQueue_queue :
    ∀ (items queue : List Dish) (m : StationManager),
      keptQueue items { m with dish_queue_ := queue } = keptQueue items m := by
  intro items
  induction items with
  | nil => intro queue m; rfl
  | cons d rest ih =>
    intro queue m
    unfold keptQueue
    rw [attemptDish_queue]
    dsimp only
    simp only [ih]

theorem processLoop_queue :
    ∀ (items temp_queue : List Dish) (m : StationManager),
      (processLoop items temp_queue m).dish_queue_ = temp_queue ++ keptQueue items m := by
  intro items
  induction items with
  | nil => intro temp_queue m; simp [processLoop, keptQueue]
  | cons d rest ih =>
    intro temp_queue m
    unfold processLoop keptQueue
    by_cases hn : d.name_ = ""
    · rw [if_pos hn, if_pos hn, ih, keptQueue_queue]
    · rw [if_neg hn, if_neg hn]
      dsimp only
      by_cases hp : (attemptDish d m).1 = true
      · rw [if_pos hp, if_pos hp, ih, keptQueue_queue]
      · rw [if_neg hp, if_neg hp, ih, keptQueue_queue]
        simp

theorem keptQueue_sublist :
    ∀ (items : List Dish) (m : StationManager), List.Sublist (keptQueue items m) items := by
  intro items
  induction items with
  | nil => intro m; exact List.Sublist.slnil
  | cons d rest ih =>
    intro m
    unfold keptQueue
    split
    · exact List.Sublist.cons _ (ih _)
    · split
      · exact List.Sublist.cons _ (ih _)
      · exact List.Sublist.cons₂ _ (ih _)

theorem keptQueue_named :
    ∀ (items : List Dish) (m : StationManager), ∀ d ∈ keptQueue items m, d.name_ ≠ "" := by
  intro items
  induction items with
  | nil => intro m d hd; cases hd
  | cons a rest ih =>
    intro m d hd
    unfold keptQueue at hd
    split at hd
    · exact ih _ d hd
    · split at hd
      · exact ih _ d hd
      · rcases List.mem_cons.1 hd with rfl | hd
        · assumption
        · exact ih _ d hd

/-- C9: after `processAllDishes` the dish queue is the original queue with exactly the
empty-named items and the items whose attempt prepared them deleted (`keptQueue`); it
is a sublist of the original queue, so the items that could not be prepared keep
their relative order, and it holds no empty-named item.  For the queue `[A, B, C]` of
`trioManager`, where only `B` can be prepared, the resulting queue is `[A, C]`. -/
theorem processAllDishes_queue (m : StationManager) :
    m.processAllDishes.dish_queue_ = keptQueue m.dish_queue_ m ∧
    List.Sublist m.processAllDishes.dish_queue_ m.dish_queue_ ∧
    (∀ d ∈ m.processAllDishes.dish_queue_, d.name_ ≠ "") ∧
    trioManager.dish_queue_ = [dishA, dishB, dishC] ∧
    trioManager.processAllDishes.dish_queue_ = [dishA, dishC] := by
  have h : m.processAllDishes.dish_queue_ = keptQueue m.dish_queue_ m := by
    unfold StationManager.processAllDishes
    rw [processLoop_queue]
    rfl
  refine ⟨h, ?_, ?_, by decide, by decide⟩
  · rw [h]; exact keptQueue_sublist _ _
  · rw [h]; exact keptQueue_named _ _

/-- The `Grill` scenario (ledger 2 `Chicken`, `Chicken Plate` requires 3, backup 5) with
the stock field of the recipe record at 0: the replenishment pass withdraws exactly 1
`Chicken` (ledger 3, backup 4), the dish is then prepared, and one `processAllDishes`
pass ends with the backup store at 4 `Chicken`, an empty station ledger and an empty
queue. -/
theorem processAllDishes_grill_scenario :
    grill.canCompleteOrder "Chicken Plate" = false ∧
    replenishPass 0 chickenPlate.ingredients_ grillManager =
      (true, ⟨[⟨"Grill", [chickenPlate], [⟨"Chicken", 3, 0, 0⟩]⟩], [chickenPlate],
        [⟨"Chicken", 4, 0, 0⟩]⟩) ∧
    (attemptDish chickenPlate grillManager).1 = true ∧
    grillManager.processAllDishes =
      ⟨[⟨"Grill", [chickenPlate], []⟩], [], [⟨"Chicken", 4, 0, 0⟩]⟩ := by
  decide


/-- After the replenishment the station of the `Grill` scenario holds 3 `Chicken`; its
`prepareDish` compares them with the stock field of the recipe record. -/
theorem prepareDish_stockedPlate (quantity : Int) :
    (⟨"Grill", [stockedPlate quantity], [⟨"Chicken", 3, 0, 0⟩]⟩ : KitchenStation).prepareDish
      "Chicken Plate" =
      if quantity ≤ 3 then (true, ⟨"Grill", [stockedPlate quantity], []⟩)
      else (false, ⟨"Grill", [stockedPlate quantity], [⟨"Chicken", 3, 0, 0⟩]⟩) := by
  have hcan : (⟨"Grill", [stockedPlate quantity], [⟨"Chicken", 3, 0, 0⟩]⟩ :
      KitchenStation).canCompleteOrder "Chicken Plate" = true := rfl
  unfold KitchenStation.prepareDish
  rw [hcan]
  simp only [if_true]
  by_cases h : quantity ≤ 3
  · rw [if_pos h]
    have hp : prepDishes "Chicken Plate" [⟨"Chicken", 3, 0, 0⟩] [stockedPlate quantity]
        = (true, []) := by
      simp [prepDishes, stockedPlate, prepCheck, prepScan, h, deductAll, deductScan,
        removeIngredient]
    rw [hp]
  · rw [if_neg h]
    have hp : prepDishes "Chicken Plate" [⟨"Chicken", 3, 0, 0⟩] [stockedPlate quantity]
        = (false, [⟨"Chicken", 3, 0, 0⟩]) := by
      simp [prepDishes, stockedPlate, prepCheck, prepScan, h]
    rw [hp]

/-- The handling of the queued dish in the `Grill` scenario: the station cannot complete
the order, the pass withdraws 1 `Chicken`, and the final attempt succeeds exactly when
the stock field of the recipe record is at most 3. -/
theorem attemptDish_stockedPlate (quantity : Int) :
    attemptDish (stockedPlate quantity) (stockedGrillManager quantity) =
      if quantity ≤ 3 then
        (true, ⟨[⟨"Grill", [stockedPlate quantity], []⟩], [stockedPlate quantity],
          [⟨"Chicken", 4, 0, 0⟩]⟩)
      else
        (false, ⟨[⟨"Grill", [stockedPlate quantity], [⟨"Chicken", 3, 0, 0⟩]⟩],
          [stockedPlate quantity], [⟨"Chicken", 4, 0, 0⟩]⟩) := by
  have h1 : attemptDish (stockedPlate quantity) (stockedGrillManager quantity) =
      if ((⟨"Grill", [stockedPlate quantity], [⟨"Chicken", 3, 0, 0⟩]⟩ :
          KitchenStation).prepareDish "Chicken Plate").1 then
        (true, ⟨[((⟨"Grill", [stockedPlate quantity], [⟨"Chicken", 3, 0, 0⟩]⟩ :
          KitchenStation).prepareDish "Chicken Plate").2], [stockedPlate quantity],
          [⟨"Chicken", 4, 0, 0⟩]⟩)
      else
        (false, ⟨[((⟨"Grill", [stockedPlate quantity], [⟨"Chicken", 3, 0, 0⟩]⟩ :
          KitchenStation).prepareDish "Chicken Plate").2], [stockedPlate quantity],
          [⟨"Chicken", 4, 0, 0⟩]⟩) := rfl
  rw [h1, prepareDish_stockedPlate]
  by_cases h : quantity ≤ 3
  · simp only [if_pos h, if_true]
  · simp only [if_neg h, Bool.false_eq_true, if_false]

/-- One `processAllDishes` pass in the `Grill` scenario, for every stock field of the
recipe record: 1 `Chicken` is withdrawn in either case; the dish is prepared, the
ledger emptied and the queue emptied when the field is at most 3, and otherwise the
dish stays queued and the ledger keeps its 3 `Chicken`. -/
theorem processAllDishes_stockedPlate (quantity : Int) :
    (stockedGrillManager quantity).processAllDishes =
      if quantity ≤ 3 then
        ⟨[⟨"Grill", [stockedPlate quantity], []⟩], [], [⟨"Chicken", 4, 0, 0⟩]⟩
      else
        ⟨[⟨"Grill", [stockedPlate quantity], [⟨"Chicken", 3, 0, 0⟩]⟩], [stockedPlate quantity],
          [⟨"Chicken", 4, 0, 0⟩]⟩ := by
  have h1 : (stockedGrillManager quantity).processAllDishes =
      if (attemptDish (stockedPlate quantity) (stockedGrillManager quantity)).1 then
        ⟨(attemptDish (stockedPlate quantity) (stockedGrillManager quantity)).2.stations, [],
          (attemptDish (stockedPlate quantity)
            (stockedGrillManager quantity)).2.backup_ingredients_⟩
      else
        ⟨(attemptDish (stockedPlate quantity) (stockedGrillManager quantity)).2.stations,
          [stockedPlate quantity],
          (attemptDish (stockedPlate quantity)
            (stockedGrillManager quantity)).2.backup_ingredients_⟩ := by
    unfold StationManager.processAllDishes
    rw [show (stockedGrillManager quantity).dish_queue_ = [stockedPlate quantity] from rfl,
      processLoop,
      if_neg (show ¬ (stockedPlate quantity).name_ = "" from by
        show ¬ "Chicken Plate" = ""
        decide)]
    dsimp only
    split <;> rfl
  rw [h1, attemptDish_stockedPlate]
  by_cases h : quantity ≤ 3
  · simp only [if_pos h, if_true]
  · simp only [if_neg h, Bool.false_eq_true, if_false]

/-- Claim C10, evaluated at the failing input.  In the `Grill` scenario with the recipe
record `Ingredient("Chicken", 5, 3, 0)` (stock field 5, 3 required) the pass withdraws
1 `Chicken` and the station, now holding 3, can complete the order, yet `prepareDish`
returns false: the dish stays in the queue and the ledger keeps its 3 `Chicken`.  The
same happens for every stock field above 3; the outcome of the scenario is the
described one exactly when the field is at most 3. -/
theorem processAllDishes_grill_stock_field :
    (⟨"Grill", [stockedPlate 5], [⟨"Chicken", 2, 0, 0⟩]⟩ : KitchenStation).canCompleteOrder
      "Chicken Plate" = false ∧
    replenishPass 0 (stockedPlate 5).ingredients_ (stockedGrillManager 5) =
      (true, ⟨[⟨"Grill", [stockedPlate 5], [⟨"Chicken", 3, 0, 0⟩]⟩], [stockedPlate 5],
        [⟨"Chicken", 4, 0, 0⟩]⟩) ∧
    (⟨"Grill", [stockedPlate 5], [⟨"Chicken", 3, 0, 0⟩]⟩ : KitchenStation).canCompleteOrder
      "Chicken Plate" = true ∧
    ((⟨"Grill", [stockedPlate 5], [⟨"Chicken", 3, 0, 0⟩]⟩ : KitchenStation).prepareDish
      "Chicken Plate").1 = false ∧
    (stockedGrillManager 5).processAllDishes =
      ⟨[⟨"Grill", [stockedPlate 5], [⟨"Chicken", 3, 0, 0⟩]⟩], [stockedPlate 5],
        [⟨"Chicken", 4, 0, 0⟩]⟩ ∧
    (∀ quantity : Int, 3 < quantity →
      (stockedGrillManager quantity).processAllDishes =
        ⟨[⟨"Grill", [stockedPlate quantity], [⟨"Chicken", 3, 0, 0⟩]⟩], [stockedPlate quantity],
          [⟨"Chicken", 4, 0, 0⟩]⟩) ∧
    (∀ quantity : Int, quantity ≤ 3 →
      (stockedGrillManager quantity).processAllDishes =
        ⟨[⟨"Grill", [stockedPlate quantity], []⟩], [], [⟨"Chicken", 4, 0, 0⟩]⟩) := by
  refine ⟨by decide, by decide, by decide, by decide, by decide, ?_, ?_⟩
  · intro quantity h
    rw [processAllDishes_stockedPlate, if_neg (by omega)]
  · intro quantity h
    rw [processAllDishes_stockedPlate, if_pos h]
/-! ## Properties of `prepareNextDish` and `addDishToQueue` -/

theorem prepareDish_false_station (s : KitchenStation) (dish_name : String)
    (h : (s.prepareDish dish_name).1 = false) : (s.prepareDish dish_name).2 = s := by
  unfold KitchenStation.prepareDish at h ⊢
  by_cases hc : s.canCompleteOrder dish_name = true
  · simp only [hc, if_true] at h ⊢
    rw [prepDishes_false dish_name s.ingredients_stock_ s.dishes_ h]
  · simp [hc]

theorem set_eq_self {α : Type} : ∀ (l : List α) (i : Nat) (x : α), l[i]? = some x → l.set i x = l
  | [], _, _, _ => rfl
  | a :: l, 0, x, h => by
    simp only [List.getElem?_cons_zero, Option.some.injEq] at h
    rw [List.set_cons_zero, h]
  | a :: l, i + 1, x, h => by
    simp only [List.getElem?_cons_succ] at h
    rw [List.set_cons_succ, set_eq_self l i x h]

theorem nextDishScan_spec (dish_name : String) :
    ∀ (k i : Nat) (m : StationManager),
      (∃ j st, i ≤ j ∧ j < i + k ∧ m.stations[j]? = some st ∧
        st.canCompleteOrder dish_name = true ∧ (st.prepareDish dish_name).1 = true ∧
        (∀ j1 st1, i ≤ j1 → j1 < j → m.stations[j1]? = some st1 →
          ¬ (st1.canCompleteOrder dish_name = true ∧ (st1.prepareDish dish_name).1 = true)) ∧
        nextDishScan dish_name k i m =
          (true, { m with stations := m.stations.set j (st.prepareDish dish_name).2,
                          dish_queue_ := m.dish_queue_.tail })) ∨
      ((∀ j st, i ≤ j → j < i + k → m.stations[j]? = some st →
          ¬ (st.canCompleteOrder dish_name = true ∧ (st.prepareDish dish_name).1 = true)) ∧
        nextDishScan dish_name k i m = (false, m)) := by
  intro k
  induction k with
  | zero =>
    intro i m
    right
    exact ⟨fun j st h1 h2 => by omega, rfl⟩
  | succ k ih =>
    intro i m
    unfold nextDishScan
    cases hg : m.stations[i]? with
    | none =>
      right
      refine ⟨?_, rfl⟩
      intro j st hij _ hj
      have hlen : m.stations.length ≤ i := List.getElem?_eq_none_iff.1 hg
      have : j < m.stations.length := (List.getElem?_eq_some_iff.1 hj).1
      omega
    | some station =>
      dsimp only
      have step : ∀ (hno : ¬ (station.canCompleteOrder dish_name = true ∧
            (station.prepareDish dish_name).1 = true)),
          (∃ j st, i ≤ j ∧ j < i + (k + 1) ∧ m.stations[j]? = some st ∧
            st.canCompleteOrder dish_name = true ∧ (st.prepareDish dish_name).1 = true ∧
            (∀ j1 st1, i ≤ j1 → j1 < j → m.stations[j1]? = some st1 →
              ¬ (st1.canCompleteOrder dish_name = true ∧
                (st1.prepareDish dish_name).1 = true)) ∧
            nextDishScan dish_name k (i + 1) m =
              (true, { m with stations := m.stations.set j (st.prepareDish dish_name).2,
                              dish_queue_ := m.dish_queue_.tail })) ∨
          ((∀ j st, i ≤ j → j < i + (k + 1) → m.stations[j]? = some st →
              ¬ (st.canCompleteOrder dish_name = true ∧
                (st.prepareDish dish_name).1 = true)) ∧
            nextDishScan dish_name k (i + 1) m = (false, m)) := by
        intro hno
        rcases ih (i + 1) m with ⟨j, st, h1, h2, h3, h4, h5, h6, h7⟩ | ⟨h1, h2⟩
        · left
          refine ⟨j, st, by omega, by omega, h3, h4, h5, ?_, h7⟩
          intro j1 st1 hj1 hj1j hst1
          by_cases hji : j1 = i
          · subst hji
            rw [hg] at hst1
            cases hst1
            exact hno
          · exact h6 j1 st1 (by omega) hj1j hst1
        · right
          refine ⟨?_, h2⟩
          intro j st hij hjk hst
          by_cases hji : j = i
          · subst hji
            rw [hg] at hst
            cases hst
            exact hno
          · exact h1 j st (by omega) (by omega) hst
      by_cases hc : station.canCompleteOrder dish_name = true
      · rw [if_pos hc]
        by_cases hp : (station.prepareDish dish_name).1 = true
        · rw [if_pos hp]
          left
          refine ⟨i, station, Nat.le_refl _, by omega, hg, hc, hp, ?_, rfl⟩
          intro j1 st1 h1 h2
          omega
        · rw [if_neg hp]
          have hf : (station.prepareDish dish_name).1 = false := by
            cases hv : (station.prepareDish dish_name).1 with
            | true => exact absurd hv hp
            | false => rfl
          rw [prepareDish_false_station station dish_name hf, set_eq_self _ _ _ hg]
          exact step (fun h => hp h.2)
      · rw [if_neg hc]
        exact step (fun h => hc h.1)

/-- Claim C11, evaluated at the failing input.  In `relayManager` both stations can
complete the order for the front dish `D`, and the first one, `saladStation`, is the
first station in manager order that can; its `prepareDish` refuses all the same.
`prepareNextDish` returns true and pops `D`, the ledger of the first station is
unchanged, and the ledger that changes is that of the second station, from 5 `A` to
4. -/
theorem prepareNextDish_first_station_refuses :
    (relayManager.prepareNextDish).1 = true ∧
    relayManager.stations.map (fun st => st.canCompleteOrder "D") = [true, true] ∧
    (saladStation.prepareDish "D").1 = false ∧
    (relayManager.prepareNextDish).2.stations.map (fun st => st.ingredients_stock_) =
      [[⟨"A", 5, 0, 0⟩], [⟨"A", 4, 0, 0⟩]] ∧
    (relayManager.prepareNextDish).2.dish_queue_ = [dishB] := by
  decide

/-- What `prepareNextDish` does, the outcome of `prepareDish` taken as it is:
`prepareNextDish` returns true exactly when the queue is non-empty
and some station can complete the order for the front dish and prepares it; in that
case the front item is removed, the rest of the queue keeps its order, the backup
store is untouched and the only station that changes is the first one, in manager
order, that both can complete the order and prepares it, which becomes what its
`prepareDish` leaves. -/
theorem prepareNextDish_spec (m : StationManager) :
    ((m.prepareNextDish).1 = true ↔
      ∃ d rest, m.dish_queue_ = d :: rest ∧ ∃ st ∈ m.stations,
        st.canCompleteOrder d.name_ = true ∧ (st.prepareDish d.name_).1 = true) ∧
    ((m.prepareNextDish).1 = true →
      ∃ d rest j st, m.dish_queue_ = d :: rest ∧ m.stations[j]? = some st ∧
        st.canCompleteOrder d.name_ = true ∧ (st.prepareDish d.name_).1 = true ∧
        (∀ j1 st1, j1 < j → m.stations[j1]? = some st1 →
          ¬ (st1.canCompleteOrder d.name_ = true ∧ (st1.prepareDish d.name_).1 = true)) ∧
        (m.prepareNextDish).2 =
          { m with stations := m.stations.set j (st.prepareDish d.name_).2,
                   dish_queue_ := rest }) := by
  unfold StationManager.prepareNextDish
  cases hq : m.dish_queue_ with
  | nil =>
    refine ⟨⟨(fun h => by cases h), ?_⟩, (fun h => by cases h)⟩
    rintro ⟨d, rest, h, _⟩
    cases h
  | cons d rest =>
    dsimp only
    rcases nextDishScan_spec d.name_ m.stations.length 0 m with
      ⟨j, st, _, _, h3, h4, h5, h6, h7⟩ | ⟨h1, h2⟩
    · rw [h7]
      refine ⟨⟨fun _ => ⟨d, rest, rfl, st, List.getElem?_mem h3, h4, h5⟩, fun _ => rfl⟩, ?_⟩
      intro _
      refine ⟨d, rest, j, st, rfl, h3, h4, h5, ?_, ?_⟩
      · intro j1 st1 hj hst
        exact h6 j1 st1 (Nat.zero_le _) hj hst
      · rw [hq]; rfl
    · rw [h2]
      refine ⟨⟨(fun h => by cases h), ?_⟩, (fun h => by cases h)⟩
      rintro ⟨d1, rest1, hd, st, hst, hc, hp⟩
      cases hd
      obtain ⟨j, hj⟩ := List.mem_iff_getElem?.1 hst
      have hlt : j < m.stations.length := (List.getElem?_eq_some_iff.1 hj).1
      exact absurd ⟨hc, hp⟩ (h1 j st (Nat.zero_le _) (by omega) hj)

/-- The theorem above at `relayManager`: the call succeeds, the second station is the
first that can complete and prepare `D`, and it alone changes. -/
theorem prepareNextDish_spec_witness :
    (relayManager.prepareNextDish).1 = true ∧
    (relayManager.prepareNextDish).2 =
      ⟨[saladStation, ⟨"Fryer", [plainDish], [⟨"A", 4, 0, 0⟩]⟩], [dishB], []⟩ ∧
    ∃ d rest j st, relayManager.dish_queue_ = d :: rest ∧
      relayManager.stations[j]? = some st ∧
      st.canCompleteOrder d.name_ = true ∧ (st.prepareDish d.name_).1 = true ∧
      (∀ j1 st1, j1 < j → relayManager.stations[j1]? = some st1 →
        ¬ (st1.canCompleteOrder d.name_ = true ∧ (st1.prepareDish d.name_).1 = true)) ∧
      (relayManager.prepareNextDish).2 =
        { relayManager with
            stations := relayManager.stations.set j (st.prepareDish d.name_).2,
            dish_queue_ := rest } :=
  ⟨by decide, by decide, (prepareNextDish_spec relayManager).2 (by decide)⟩

/-- C12: whenever `prepareNextDish` returns false the manager is exactly what it was
before the call: the dish queue (the unprepared dish still at the front), every
station with its ledger, and the backup store. -/
theorem prepareNextDish_false_unchanged (m : StationManager)
    (h : (m.prepareNextDish).1 = false) :
    (m.prepareNextDish).2.dish_queue_ = m.dish_queue_ ∧
    (m.prepareNextDish).2.stations = m.stations ∧
    (m.prepareNextDish).2.backup_ingredients_ = m.backup_ingredients_ ∧
    (m.prepareNextDish).2 = m := by
  have key : (m.prepareNextDish).2 = m := by
    unfold StationManager.prepareNextDish at h ⊢
    cases hq : m.dish_queue_ with
    | nil => rfl
    | cons d rest =>
      rw [hq] at h
      dsimp only at h ⊢
      rcases nextDishScan_spec d.name_ m.stations.length 0 m with
        ⟨j, st, _, _, _, _, _, _, h7⟩ | ⟨_, h2⟩
      · rw [h7] at h; cases h
      · rw [h2]
  rw [key]
  exact ⟨rfl, rfl, rfl, rfl⟩

/-- Witness of C12 on `idleManager`, whose station has no `A`: the call fails and
the queue still starts with `D`. -/
theorem prepareNextDish_false_unchanged_witness :
    (idleManager.prepareNextDish).1 = false ∧
    (idleManager.prepareNextDish).2.dish_queue_ = [plainDish, dishB] :=
  ⟨by decide, (prepareNextDish_false_unchanged idleManager (by decide)).1⟩

theorem replenishLoop_some_split (ingredient : Ingredient) :
    ∀ (stock stock1 : List Ingredient), replenishLoop ingredient stock = some stock1 →
      ∃ pre x post, stock = pre ++ x :: post ∧ (∀ e ∈ pre, e.name ≠ ingredient.name) ∧
        x.name = ingredient.name ∧
        stock1 = pre ++ { x with quantity := x.quantity + ingredient.quantity } :: post := by
  intro stock
  induction stock with
  | nil => intro stock1 h; cases h
  | cons a rest ih =>
    intro stock1 h
    unfold replenishLoop at h
    by_cases hn : a.name = ingredient.name
    · rw [if_pos hn] at h
      cases h
      exact ⟨[], a, rest, rfl, (fun e he => by cases he), hn, rfl⟩
    · rw [if_neg hn] at h
      cases hr : replenishLoop ingredient rest with
      | none => rw [hr] at h; cases h
      | some rest1 =>
        rw [hr] at h
        cases h
        obtain ⟨pre, x, post, h1, h2, h3, h4⟩ := ih rest1 hr
        refine ⟨a :: pre, x, post, by rw [h1]; rfl, ?_, h3, by rw [h4]; rfl⟩
        intro e he
        rcases List.mem_cons.1 he with rfl | he
        · exact hn
        · exact h2 e he

/-- C14: `replenishStationIngredients(ing)` changes only the ledger.  Either the ledger
has a first entry named `ing.name`, and the ledger afterwards is the same list with
that entry's quantity raised by `ing.quantity` (no entry added, order kept); or it has
no entry of that name, and the ledger afterwards is the old one with `ing` appended at
the end. -/
theorem replenishStationIngredients_spec (s : KitchenStation) (ingredient : Ingredient) :
    (s.replenishStationIngredients ingredient).station_name_ = s.station_name_ ∧
    (s.replenishStationIngredients ingredient).dishes_ = s.dishes_ ∧
    ((∃ pre x post, s.ingredients_stock_ = pre ++ x :: post ∧
        (∀ e ∈ pre, e.name ≠ ingredient.name) ∧ x.name = ingredient.name ∧
        (s.replenishStationIngredients ingredient).ingredients_stock_ =
          pre ++ { x with quantity := x.quantity + ingredient.quantity } :: post) ∨
     ((∀ e ∈ s.ingredients_stock_, e.name ≠ ingredient.name) ∧
        (s.replenishStationIngredients ingredient).ingredients_stock_ =
          s.ingredients_stock_ ++ [ingredient])) := by
  refine ⟨rfl, rfl, ?_⟩
  unfold KitchenStation.replenishStationIngredients replenishStock
  cases hr : replenishLoop ingredient s.ingredients_stock_ with
  | some stock1 =>
    left
    exact replenishLoop_some_split ingredient _ stock1 hr
  | none =>
    right
    exact ⟨replenishLoop_none ingredient _ hr, rfl⟩

theorem isPresentLoop_iff (dish_name : String) (dishes : List Dish) :
    isPresentLoop dish_name dishes = true ↔ ∃ d ∈ dishes, d.name_ = dish_name := by
  induction dishes with
  | nil => simp [isPresentLoop]
  | cons a rest ih =>
    unfold isPresentLoop
    by_cases hn : a.name_ = dish_name
    · simp [hn]
    · simp [hn, ih]

/-- C15: `assignDishToStation(dish)` on a dish whose name is already assigned returns
false and leaves the station (its dish list included) unchanged; on any other dish it
returns true and the dish list is the old one with the dish appended, name and ledger
unchanged.  A null pointer is refused without change. -/
theorem assignDishToStation_spec (s : KitchenStation) (d : Dish) :
    (((∃ d1 ∈ s.dishes_, d1.name_ = d.name_) ∧ s.assignDishToStation (some d) = (false, s)) ∨
     ((∀ d1 ∈ s.dishes_, d1.name_ ≠ d.name_) ∧
        s.assignDishToStation (some d) = (true, { s with dishes_ := s.dishes_ ++ [d] }))) ∧
    s.assignDishToStation none = (false, s) := by
  refine ⟨?_, rfl⟩
  unfold KitchenStation.assignDishToStation KitchenStation.isPresent
  by_cases hp : isPresentLoop d.name_ s.dishes_ = true
  · left
    exact ⟨(isPresentLoop_iff _ _).1 hp, by simp [hp]⟩
  · right
    refine ⟨?_, by simp [hp]⟩
    intro d1 hd1 hn
    exact hp ((isPresentLoop_iff _ _).2 ⟨d1, hd1, hn⟩)

theorem deductOne_self_nonzero (ingredient : Ingredient) (stock : List Ingredient)
    (hu : UniqueNames stock) :
    ∀ e ∈ deductOne ingredient stock, e.name = ingredient.name → e.quantity ≠ 0 := by
  induction stock with
  | nil => intro e he; cases he
  | cons x rest ih =>
    obtain ⟨hx, hu1⟩ := uniqueNames_cons hu
    intro e he hen
    unfold deductOne at he
    by_cases hn : x.name = ingredient.name
    · rw [if_pos hn] at he
      by_cases hz : x.quantity - ingredient.required_quantity = 0
      · rw [if_pos hz] at he
        exact absurd (hen.trans hn.symm) (hx e he)
      · rw [if_neg hz] at he
        rcases List.mem_cons.1 he with rfl | he
        · exact hz
        · exact absurd (hen.trans hn.symm) (hx e he)
    · rw [if_neg hn] at he
      rcases List.mem_cons.1 he with rfl | he
      · exact absurd hen hn
      · exact ih hu1 e he hen

theorem mem_deductOne_other (n : String) (ingredient : Ingredient) (stock : List Ingredient)
    (hn : ingredient.name ≠ n) :
    ∀ e ∈ deductOne ingredient stock, e.name = n → e ∈ stock := by
  induction stock with
  | nil => intro e he; cases he
  | cons x rest ih =>
    intro e he hen
    unfold deductOne at he
    by_cases hx : x.name = ingredient.name
    · rw [if_pos hx] at he
      by_cases hz : x.quantity - ingredient.required_quantity = 0
      · rw [if_pos hz] at he
        exact List.mem_cons_of_mem _ he
      · rw [if_neg hz] at he
        rcases List.mem_cons.1 he with rfl | he
        · exact absurd (hx.symm.trans hen) hn
        · exact List.mem_cons_of_mem _ he
    · rw [if_neg hx] at he
      rcases List.mem_cons.1 he with rfl | he
      · exact List.mem_cons_self _ _
      · exact List.mem_cons_of_mem _ (ih e he hen)

theorem mem_deductAll_other (n : String) :
    ∀ (ingredients stock : List Ingredient), UniqueNames stock →
      (∀ a ∈ ingredients, a.name ≠ n) →
      ∀ e ∈ deductAll ingredients stock, e.name = n → e ∈ stock := by
  intro ingredients
  induction ingredients with
  | nil => intro stock _ _ e he _; exact he
  | cons a rest ih =>
    intro stock hu h e he hen
    rw [deductAll_cons_unique a rest stock hu] at he
    have h1 := ih _ (deductOne_unique a hu) (fun b hb => h b (List.mem_cons_of_mem _ hb)) e he hen
    exact mem_deductOne_other n a stock (h a (List.mem_cons_self _ _)) e h1 hen

theorem deductAll_unique :
    ∀ (ingredients stock : List Ingredient), UniqueNames stock →
      UniqueNames (deductAll ingredients stock) := by
  intro ingredients
  induction ingredients with
  | nil => intro stock hu; exact hu
  | cons a rest ih =>
    intro stock hu
    rw [deductAll_cons_unique a rest stock hu]
    exact ih _ (deductOne_unique a hu)

theorem deductAll_required_nonzero :
    ∀ (ingredients stock : List Ingredient), UniqueNames stock →
      ∀ ingredient ∈ ingredients, ∀ e ∈ deductAll ingredients stock,
        e.name = ingredient.name → e.quantity ≠ 0 := by
  intro ingredients
  induction ingredients with
  | nil => intro stock _ i hi; cases hi
  | cons a rest ih =>
    intro stock hu ingredient hi e he hen
    rw [deductAll_cons_unique a rest stock hu] at he
    by_cases hex : ∃ b ∈ rest, b.name = ingredient.name
    · obtain ⟨b, hb, hbn⟩ := hex
      exact ih _ (deductOne_unique a hu) b hb e he (hen.trans hbn.symm)
    · have hall : ∀ b ∈ rest, b.name ≠ ingredient.name :=
        fun b hb hbn => hex ⟨b, hb, hbn⟩
      have hia : ingredient = a := by
        rcases List.mem_cons.1 hi with h | h
        · exact h
        · exact absurd rfl (hall ingredient h)
      subst hia
      have h1 := mem_deductAll_other ingredient.name rest _ (deductOne_unique ingredient hu)
        hall e he hen
      exact deductOne_self_nonzero ingredient stock hu e h1 hen

theorem onHand_entry (n : String) (stock : List Ingredient)
    (hex : ∃ e ∈ stock, e.name = n) :
    ∃ e ∈ stock, e.name = n ∧ e.quantity = onHand n stock := by
  induction stock with
  | nil => obtain ⟨e, he, _⟩ := hex; cases he
  | cons x rest ih =>
    by_cases hx : x.name = n
    · exact ⟨x, List.mem_cons_self _ _, hx, (onHand_cons_eq n x rest hx).symm⟩
    · obtain ⟨e, he, hen⟩ := hex
      rcases List.mem_cons.1 he with rfl | he
      · exact absurd hen hx
      · obtain ⟨e1, he1, hn1, hq1⟩ := ih ⟨e, he, hen⟩
        exact ⟨e1, List.mem_cons_of_mem _ he1, hn1, by rw [onHand_cons_ne n x rest hx]; exact hq1⟩

/-- C16: after a successful `prepareDish` on a station whose ledger has at most one
entry per name, the ledger holds no entry of quantity 0 under the name of an
ingredient the dish requires; so a required ingredient whose on-hand quantity is 0
afterwards has no entry at all, and a following check finds it absent. -/
theorem prepareDish_prunes_zero (s : KitchenStation) (dish_name : String) (dish : Dish)
    (hu : UniqueNames s.ingredients_stock_)
    (hd : firstDish dish_name s.dishes_ = some dish)
    (hp : (s.prepareDish dish_name).1 = true) :
    (∀ ingredient ∈ dish.ingredients_, ∀ e ∈ (s.prepareDish dish_name).2.ingredients_stock_,
      e.name = ingredient.name → e.quantity ≠ 0) ∧
    (∀ ingredient ∈ dish.ingredients_,
      onHand ingredient.name (s.prepareDish dish_name).2.ingredients_stock_ = 0 →
      ∀ e ∈ (s.prepareDish dish_name).2.ingredients_stock_, e.name ≠ ingredient.name) := by
  obtain ⟨_, heq⟩ := prepareDish_true_eq s dish_name dish hd hp
  rw [heq]
  have main := deductAll_required_nonzero dish.ingredients_ s.ingredients_stock_ hu
  refine ⟨main, ?_⟩
  intro ingredient hi hzero e he hen
  obtain ⟨e1, he1, hn1, hq1⟩ := onHand_entry ingredient.name _ ⟨e, he, hen⟩
  exact main ingredient hi e1 he1 hn1 (hq1.trans hzero)

/-- Witness of C16 on `pantryStation`: the two units of `A` are used up and the entry of
`A` is gone from the ledger. -/
theorem prepareDish_prunes_zero_witness :
    (pantryStation.prepareDish "D").1 = true ∧
    (pantryStation.prepareDish "D").2.ingredients_stock_ = [⟨"B", 3, 0, 0⟩, ⟨"C", 7, 0, 0⟩] ∧
    (∀ ingredient ∈ [(⟨"A", 0, 2, 0⟩ : Ingredient), ⟨"B", 0, 1, 0⟩],
      ∀ e ∈ (pantryStation.prepareDish "D").2.ingredients_stock_,
        e.name = ingredient.name → e.quantity ≠ 0) :=
  ⟨by decide, by decide,
    (prepareDish_prunes_zero pantryStation "D"
      ⟨"D", [⟨"A", 0, 2, 0⟩, ⟨"B", 0, 1, 0⟩], 0, 0, 0⟩ (by decide) (by decide) (by decide)).1⟩

/-! ## Ledger invariants under sequences of calls -/

theorem replenishStock_unique (ingredient : Ingredient) (stock : List Ingredient)
    (hu : UniqueNames stock) : UniqueNames (replenishStock ingredient stock) := by
  unfold replenishStock
  cases hr : replenishLoop ingredient stock with
  | some stock1 =>
    obtain ⟨pre, x, post, h1, _, _, h4⟩ := replenishLoop_some_split ingredient stock stock1 hr
    dsimp only
    unfold UniqueNames at hu ⊢
    rw [h4]
    rw [h1] at hu
    simpa using hu
  | none =>
    have hnone := replenishLoop_none ingredient stock hr
    dsimp only
    unfold UniqueNames at hu ⊢
    rw [List.map_append, List.nodup_append]
    refine ⟨hu, by simp, ?_⟩
    intro a ha hb
    simp only [List.map_cons, List.map_nil, List.mem_singleton] at hb
    obtain ⟨e, he, hen⟩ := List.mem_map.1 ha
    exact hnone e he (hen.trans hb)

theorem replenishStock_nonneg (ingredient : Ingredient) (stock : List Ingredient)
    (hq : 0 ≤ ingredient.quantity) (h : ∀ e ∈ stock, 0 ≤ e.quantity) :
    ∀ e ∈ replenishStock ingredient stock, 0 ≤ e.quantity := by
  unfold replenishStock
  cases hr : replenishLoop ingredient stock with
  | some stock1 =>
    obtain ⟨pre, x, post, h1, _, _, h4⟩ := replenishLoop_some_split ingredient stock stock1 hr
    dsimp only
    intro e he
    rw [h4] at he
    rw [h1] at h
    rcases List.mem_append.1 he with hp | hp
    · exact h e (List.mem_append_left _ hp)
    · rcases List.mem_cons.1 hp with rfl | hp
      · have := h x (List.mem_append_right _ (List.mem_cons_self _ _))
        show 0 ≤ x.quantity + ingredient.quantity
        omega
      · exact h e (List.mem_append_right _ (List.mem_cons_of_mem _ hp))
  | none =>
    dsimp only
    intro e he
    rcases List.mem_append.1 he with hp | hp
    · exact h e hp
    · rw [List.mem_singleton.1 hp]; exact hq

theorem deductOne_nonneg (ingredient : Ingredient) (stock : List Ingredient)
    (hreq : ∀ e ∈ stock, e.name = ingredient.name → e.quantity ≥ ingredient.required_quantity)
    (h : ∀ e ∈ stock, 0 ≤ e.quantity) :
    ∀ e ∈ deductOne ingredient stock, 0 ≤ e.quantity := by
  induction stock with
  | nil => intro e he; cases he
  | cons x rest ih =>
    have ih1 := ih (fun e he => hreq e (List.mem_cons_of_mem _ he))
      (fun e he => h e (List.mem_cons_of_mem _ he))
    intro e he
    unfold deductOne at he
    by_cases hn : x.name = ingredient.name
    · rw [if_pos hn] at he
      by_cases hz : x.quantity - ingredient.required_quantity = 0
      · rw [if_pos hz] at he
        exact h e (List.mem_cons_of_mem _ he)
      · rw [if_neg hz] at he
        rcases List.mem_cons.1 he with rfl | he
        · have := hreq x (List.mem_cons_self _ _) hn
          show 0 ≤ x.quantity - ingredient.required_quantity
          omega
        · exact h e (List.mem_cons_of_mem _ he)
    · rw [if_neg hn] at he
      rcases List.mem_cons.1 he with rfl | he
      · exact h e (List.mem_cons_self _ _)
      · exact ih1 e he

theorem deductAll_nonneg :
    ∀ (ingredients stock : List Ingredient), UniqueNames stock → UniqueNames ingredients →
      (∀ ingredient ∈ ingredients, ∀ e ∈ stock,
        e.name = ingredient.name → e.quantity ≥ ingredient.required_quantity) →
      (∀ e ∈ stock, 0 ≤ e.quantity) →
      ∀ e ∈ deductAll ingredients stock, 0 ≤ e.quantity := by
  intro ingredients
  induction ingredients with
  | nil => intro stock _ _ _ h; exact h
  | cons a rest ih =>
    intro stock hu hui hreq h
    obtain ⟨ha, hur⟩ := uniqueNames_cons hui
    rw [deductAll_cons_unique a rest stock hu]
    apply ih _ (deductOne_unique a hu) hur
    · intro ingredient hi e he hen
      have hne : a.name ≠ ingredient.name := fun hh => ha ingredient hi hh.symm
      exact hreq ingredient (List.mem_cons_of_mem _ hi) e
        (mem_deductOne_other ingredient.name a stock hne e he hen) hen
    · exact deductOne_nonneg a stock (hreq a (List.mem_cons_self _ _)) h

theorem firstDish_mem (dish_name : String) (dishes : List Dish) (d : Dish)
    (h : firstDish dish_name dishes = some d) : d ∈ dishes := by
  induction dishes with
  | nil => cases h
  | cons a rest ih =>
    unfold firstDish at h
    by_cases hn : a.name_ = dish_name
    · rw [if_pos hn] at h
      cases h
      exact List.mem_cons_self _ _
    · rw [if_neg hn] at h
      exact List.mem_cons_of_mem _ (ih h)

theorem prepareDish_true_dish (s : KitchenStation) (dish_name : String)
    (hp : (s.prepareDish dish_name).1 = true) :
    ∃ d, firstDish dish_name s.dishes_ = some d ∧
      canIngredients s.ingredients_stock_ d.ingredients_ = true := by
  have hc : s.canCompleteOrder dish_name = true := by
    by_cases hc : s.canCompleteOrder dish_name = true
    · exact hc
    · unfold KitchenStation.prepareDish at hp
      simp [hc] at hp
  unfold KitchenStation.canCompleteOrder at hc
  rw [canDishes_eq] at hc
  cases hf : firstDish dish_name s.dishes_ with
  | none => rw [hf] at hc; cases hc
  | some d => rw [hf] at hc; exact ⟨d, rfl, hc⟩

theorem prepareDish_sound (s : KitchenStation) (dish_name : String) (hs : StationSound s) :
    StationSound (s.prepareDish dish_name).2 := by
  by_cases hp : (s.prepareDish dish_name).1 = true
  · obtain ⟨d, hd, hcan⟩ := prepareDish_true_dish s dish_name hp
    obtain ⟨_, heq⟩ := prepareDish_true_eq s dish_name d hd hp
    obtain ⟨hu, hq, hds⟩ := hs
    have hdu := hds d (firstDish_mem dish_name _ d hd)
    have hdishes : (s.prepareDish dish_name).2.dishes_ = s.dishes_ := by
      unfold KitchenStation.prepareDish
      split <;> rfl
    refine ⟨?_, ?_, ?_⟩
    · rw [heq]; exact deductAll_unique _ _ hu
    · rw [heq]
      apply deductAll_nonneg _ _ hu hdu _ hq
      intro ingredient hi e he hen
      exact ((canScan_true_iff ingredient _ false).1
        ((canIngredients_true_iff _ _).1 hcan ingredient hi)).1 e he hen
    · rw [hdishes]; exact hds
  · have hf : (s.prepareDish dish_name).1 = false := by
      cases hv : (s.prepareDish dish_name).1 with
      | true => exact absurd hv hp
      | false => rfl
    rw [prepareDish_false_station s dish_name hf]
    exact hs

theorem stationCall_sound (s : KitchenStation) (c : StationCall) (hs : StationSound s)
    (hc : c.Admissible) : StationSound (c.run s) := by
  cases c with
  | replenish ingredient =>
    obtain ⟨hu, hq, hds⟩ := hs
    exact ⟨replenishStock_unique ingredient _ hu, replenishStock_nonneg ingredient _ hc hq, hds⟩
  | prepare dish_name => exact prepareDish_sound s dish_name hs
  | assign dish =>
    cases dish with
    | none => exact hs
    | some d =>
      obtain ⟨hu, hq, hds⟩ := hs
      unfold StationCall.run KitchenStation.assignDishToStation
      dsimp only
      split
      · exact ⟨hu, hq, hds⟩
      · refine ⟨hu, hq, ?_⟩
        intro d1 hd1
        rcases List.mem_append.1 hd1 with h | h
        · exact hds d1 h
        · rw [List.mem_singleton.1 h]; exact hc.1

theorem runCalls_sound :
    ∀ (calls : List StationCall) (s : KitchenStation), StationSound s →
      (∀ c ∈ calls, c.Admissible) → StationSound (runCalls s calls) := by
  intro calls
  induction calls with
  | nil => intro s hs _; exact hs
  | cons c rest ih =>
    intro s hs hc
    unfold runCalls
    rw [List.foldl_cons]
    exact ih _ (stationCall_sound s c hs (hc c (List.mem_cons_self _ _)))
      (fun c1 h1 => hc c1 (List.mem_cons_of_mem _ h1))

/-- C17 (counterexample): on a fresh station, assigning a dish that lists `A` twice with
2 required each, replenishing 3 `A` and preparing the dish leaves the ledger entry of
`A` at -1, although every replenished and every required quantity is non-negative. -/
theorem ledger_negative_counterexample :
    (∀ c ∈ doubleCalls, match c with
      | .replenish ingredient => 0 ≤ ingredient.quantity
      | .prepare _ => True
      | .assign none => True
      | .assign (some d) => ∀ ingredient ∈ d.ingredients_, 0 ≤ ingredient.required_quantity) ∧
    (runCalls ⟨"S", [], []⟩ doubleCalls).ingredients_stock_ = [⟨"A", -1, 0, 0⟩] := by
  refine ⟨?_, by decide⟩
  intro c hc
  simp only [doubleCalls, List.mem_cons, List.mem_singleton, List.not_mem_nil, or_false] at hc
  rcases hc with rfl | rfl | rfl
  · intro ingredient hi
    simp only [doubleDish, List.mem_cons, List.mem_singleton, List.not_mem_nil, or_false,
      or_self] at hi
    subst hi
    decide
  · decide
  · trivial

/-- C17 (amended): starting from a fresh station (empty ledger), after any sequence of
`replenishStationIngredients` calls with non-negative quantities, `assignDishToStation`
calls with dishes that name each ingredient once and require non-negative quantities,
and `prepareDish` calls, no ledger entry has a negative quantity. -/
theorem ledger_never_negative (station_name : String) (calls : List StationCall)
    (h : ∀ c ∈ calls, c.Admissible) :
    ∀ e ∈ (runCalls ⟨station_name, [], []⟩ calls).ingredients_stock_, 0 ≤ e.quantity := by
  have h0 : StationSound ⟨station_name, [], []⟩ :=
    ⟨List.nodup_nil, (fun e he => by cases he), (fun d hd => by cases hd)⟩
  exact (runCalls_sound calls _ h0 h).2.1

/-- Witness of C17 (amended) on `plainCalls`: the two units of `A` are used up by two
preparations and one `B` is added; the ledger ends as one entry of `B`. -/
theorem ledger_never_negative_witness :
    (∀ c ∈ plainCalls, c.Admissible) ∧
    (runCalls ⟨"S", [], []⟩ plainCalls).ingredients_stock_ = [⟨"B", 1, 0, 0⟩] ∧
    ∀ e ∈ (runCalls ⟨"S", [], []⟩ plainCalls).ingredients_stock_, 0 ≤ e.quantity :=
  ⟨by decide, by decide, ledger_never_negative "S" plainCalls (by decide)⟩

theorem mem_modifyAt (f : KitchenStation → KitchenStation) :
    ∀ (i : Nat) (l : List KitchenStation) (st1 : KitchenStation),
      st1 ∈ modifyAt f i l → st1 ∈ l ∨ ∃ st ∈ l, st1 = f st := by
  intro i l
  induction l generalizing i with
  | nil => intro st1 h; cases i <;> simp [modifyAt] at h
  | cons a rest ih =>
    intro st1 h
    cases i with
    | zero =>
      rcases List.mem_cons.1 h with rfl | h
      · exact Or.inr ⟨a, List.mem_cons_self _ _, rfl⟩
      · exact Or.inl (List.mem_cons_of_mem _ h)
    | succ i =>
      rcases List.mem_cons.1 h with rfl | h
      · exact Or.inl (List.mem_cons_self _ _)
      · rcases ih i st1 h with h1 | ⟨st, hst, heq⟩
        · exact Or.inl (List.mem_cons_of_mem _ h1)
        · exact Or.inr ⟨st, List.mem_cons_of_mem _ hst, heq⟩

theorem modifyAt_unique (f : KitchenStation → KitchenStation) (i : Nat)
    (l : List KitchenStation)
    (hf : ∀ st, UniqueNames st.ingredients_stock_ → UniqueNames (f st).ingredients_stock_)
    (h : ∀ st ∈ l, UniqueNames st.ingredients_stock_) :
    ∀ st ∈ modifyAt f i l, UniqueNames st.ingredients_stock_ := by
  intro st1 h1
  rcases mem_modifyAt f i l st1 h1 with h2 | ⟨st, hst, heq⟩
  · exact h st1 h2
  · rw [heq]; exact hf st (h st hst)

theorem prepareDish_unique (s : KitchenStation) (dish_name : String)
    (hu : UniqueNames s.ingredients_stock_) :
    UniqueNames (s.prepareDish dish_name).2.ingredients_stock_ := by
  by_cases hp : (s.prepareDish dish_name).1 = true
  · obtain ⟨d, hd, _⟩ := prepareDish_true_dish s dish_name hp
    rw [(prepareDish_true_eq s dish_name d hd hp).2]
    exact deductAll_unique _ _ hu
  · have hf : (s.prepareDish dish_name).1 = false := by
      cases hv : (s.prepareDish dish_name).1 with
      | true => exact absurd hv hp
      | false => rfl
    rw [prepareDish_false_station s dish_name hf]
    exact hu

theorem assignDishToStation_ledger (s : KitchenStation) (dish : Option Dish) :
    (s.assignDishToStation dish).2.ingredients_stock_ = s.ingredients_stock_ ∧
    (s.assignDishToStation dish).2.station_name_ = s.station_name_ := by
  unfold KitchenStation.assignDishToStation
  cases dish with
  | none => exact ⟨rfl, rfl⟩
  | some d =>
    dsimp only
    split <;> exact ⟨rfl, rfl⟩

theorem stationCall_unique (s : KitchenStation) (c : StationCall)
    (hu : UniqueNames s.ingredients_stock_) : UniqueNames (c.run s).ingredients_stock_ := by
  cases c with
  | replenish ingredient => exact replenishStock_unique ingredient _ hu
  | prepare dish_name => exact prepareDish_unique s dish_name hu
  | assign dish =>
    unfold StationCall.run
    rw [(assignDishToStation_ledger s dish).1]
    exact hu

theorem runCalls_unique :
    ∀ (calls : List StationCall) (s : KitchenStation), UniqueNames s.ingredients_stock_ →
      UniqueNames (runCalls s calls).ingredients_stock_ := by
  intro calls
  induction calls with
  | nil => intro s hs; exact hs
  | cons c rest ih =>
    intro s hs
    unfold runCalls
    rw [List.foldl_cons]
    exact ih _ (stationCall_unique s c hs)

theorem assignAll_ledger :
    ∀ (dishes : List Dish) (s : KitchenStation),
      (assignAll dishes s).ingredients_stock_ = s.ingredients_stock_ ∧
      (assignAll dishes s).station_name_ = s.station_name_ := by
  intro dishes
  induction dishes with
  | nil => intro s; exact ⟨rfl, rfl⟩
  | cons d rest ih =>
    intro s
    unfold assignAll
    obtain ⟨h1, h2⟩ := ih (s.assignDishToStation (some d)).2
    obtain ⟨h3, h4⟩ := assignDishToStation_ledger s (some d)
    exact ⟨h1.trans h3, h2.trans h4⟩

theorem replenishAll_unique :
    ∀ (ingredients : List Ingredient) (s : KitchenStation),
      UniqueNames s.ingredients_stock_ →
      UniqueNames (replenishAll ingredients s).ingredients_stock_ := by
  intro ingredients
  induction ingredients with
  | nil => intro s hs; exact hs
  | cons a rest ih =>
    intro s hs
    unfold replenishAll
    exact ih _ (replenishStock_unique a _ hs)

theorem mem_listRemove {α : Type} (position : Int) (items : List α) (a : α)
    (h : a ∈ (listRemove position items).2) : a ∈ items := by
  unfold listRemove at h
  split at h
  · exact List.mem_of_mem_eraseIdx h
  · exact h

theorem mem_removeStationScan (station_name : String) (stations : List KitchenStation) :
    ∀ (k i : Nat) (st : KitchenStation),
      st ∈ (removeStationScan station_name stations k i).2 → st ∈ stations := by
  intro k
  induction k with
  | zero => intro i st h; exact h
  | succ k ih =>
    intro i st h
    unfold removeStationScan at h
    cases hg : stations[i]? with
    | none => rw [hg] at h; exact h
    | some station =>
      rw [hg] at h
      dsimp only at h
      split at h
      · exact mem_listRemove _ _ _ h
      · exact ih _ _ h

theorem mergeStations_unique (m : StationManager) (station_name1 station_name2 : String)
    (h : ∀ st ∈ m.stations, UniqueNames st.ingredients_stock_) :
    ∀ st ∈ (m.mergeStations station_name1 station_name2).2.stations,
      UniqueNames st.ingredients_stock_ := by
  unfold StationManager.mergeStations
  cases h1 : findStation station_name1 m.stations with
  | none => exact h
  | some i1 =>
    cases h2 : findStation station_name2 m.stations with
    | none => exact h
    | some i2 =>
      dsimp only
      cases h3 : m.stations[i2]? with
      | none => exact h
      | some station2 =>
        dsimp only
        intro st hst
        unfold StationManager.removeStation at hst
        dsimp only at hst
        have hmem := mem_removeStationScan _ _ _ _ _ hst
        refine modifyAt_unique _ i1 _ (fun s hs => replenishAll_unique _ s hs) ?_ st hmem
        exact modifyAt_unique _ i1 _
          (fun s hs => by rw [(assignAll_ledger _ s).1]; exact hs) h

theorem mem_listInsert {α : Type} (position : Int) (item : α) (items : List α) (a : α)
    (h : a ∈ (listInsert position item items).2) : a = item ∨ a ∈ items := by
  unfold listInsert at h
  split at h
  · rcases List.mem_append.1 h with h1 | h1
    · exact Or.inr (List.mem_of_mem_take h1)
    · rcases List.mem_cons.1 h1 with h2 | h2
      · exact Or.inl h2
      · exact Or.inr (List.mem_of_mem_drop h2)
  · exact Or.inr h

theorem managerCall_unique (m : StationManager) (c : ManagerCall)
    (h : ∀ st ∈ m.stations, UniqueNames st.ingredients_stock_) :
    ∀ st ∈ (c.run m).stations, UniqueNames st.ingredients_stock_ := by
  cases c with
  | addStation station_name =>
    intro st hst
    rcases mem_listInsert _ _ _ _ hst with h1 | h1
    · rw [h1]; exact List.nodup_nil
    · exact h st h1
  | onStation i call =>
    exact modifyAt_unique _ i _ (fun s hs => stationCall_unique s call hs) h
  | replenishFromBackup station_name ingredient_name quantity =>
    show ∀ st ∈ (m.replenishStationIngredientFromBackup station_name ingredient_name
      quantity).2.stations, UniqueNames st.ingredients_stock_
    unfold StationManager.replenishStationIngredientFromBackup
    cases findStation station_name m.stations with
    | none => exact h
    | some i =>
      cases backupScan ingredient_name quantity m.backup_ingredients_ with
      | none => exact h
      | some p =>
        obtain ⟨r, backup1⟩ := p
        exact modifyAt_unique (fun st => st.replenishStationIngredients r) i _
          (fun s hs => replenishStock_unique r _ hs) h
  | merge station_name1 station_name2 =>
    exact mergeStations_unique m station_name1 station_name2 h
  | addBackupIngredients ingredients => exact h

theorem runManagerCalls_unique :
    ∀ (calls : List ManagerCall) (m : StationManager),
      (∀ st ∈ m.stations, UniqueNames st.ingredients_stock_) →
      ∀ st ∈ (runManagerCalls m calls).stations, UniqueNames st.ingredients_stock_ := by
  intro calls
  induction calls with
  | nil => intro m h; exact h
  | cons c rest ih =>
    intro m h
    unfold runManagerCalls
    rw [List.foldl_cons]
    exact ih _ (managerCall_unique m c h)

/-- C18: starting from stations with empty ledgers, every sequence of calls of
`replenishStationIngredients`, `prepareDish` and `assignDishToStation` on a station
and of `addStation`, `replenishStationIngredientFromBackup`, `mergeStations` and
`addBackupIngredients` on the manager leaves every station's ledger with at most one
entry per ingredient name; the same holds for a station alone, whatever dishes it
starts with. -/
theorem ledger_stays_unique (m0 : StationManager)
    (h0 : ∀ st ∈ m0.stations, st.ingredients_stock_ = []) (calls : List ManagerCall)
    (station_name : String) (dishes : List Dish) (stationCalls : List StationCall) :
    (∀ st ∈ (runManagerCalls m0 calls).stations, UniqueNames st.ingredients_stock_) ∧
    UniqueNames (runCalls ⟨station_name, dishes, []⟩ stationCalls).ingredients_stock_ := by
  refine ⟨runManagerCalls_unique calls m0 ?_, runCalls_unique stationCalls _ List.nodup_nil⟩
  intro st hst
  rw [h0 st hst]
  exact List.nodup_nil

/-- Witness of C18 on `mergeCalls` and `plainCalls`: after the withdrawal and the merge
the one remaining station holds one entry of `A` and one of `B`. -/
theorem ledger_stays_unique_witness :
    (runManagerCalls ⟨[], [], []⟩ mergeCalls) =
      ⟨[⟨"Grill", [], [⟨"A", 3, 0, 0⟩, ⟨"B", 7, 0, 0⟩]⟩], [], [⟨"B", 6, 0, 0⟩]⟩ ∧
    ((∀ st ∈ (runManagerCalls ⟨[], [], []⟩ mergeCalls).stations,
        UniqueNames st.ingredients_stock_) ∧
      UniqueNames (runCalls ⟨"S", [], []⟩ plainCalls).ingredients_stock_) :=
  ⟨by decide, ledger_stays_unique ⟨[], [], []⟩ (fun st hst => by cases hst) mergeCalls "S" []
    plainCalls⟩

/-! ## Properties of `moveStationToFront` and `mergeStations` -/

theorem first_split (station_name : String) (l : List KitchenStation)
    (h : ∃ st ∈ l, st.station_name_ = station_name) :
    ∃ pre st post, l = pre ++ st :: post ∧
      (∀ e ∈ pre, e.station_name_ ≠ station_name) ∧ st.station_name_ = station_name := by
  induction l with
  | nil => obtain ⟨st, hst, _⟩ := h; cases hst
  | cons a rest ih =>
    by_cases hn : a.station_name_ = station_name
    · exact ⟨[], a, rest, rfl, (fun e he => by cases he), hn⟩
    · obtain ⟨st, hst, hsn⟩ := h
      have hrest : ∃ st ∈ rest, st.station_name_ = station_name := by
        rcases List.mem_cons.1 hst with rfl | hst
        · exact absurd hsn hn
        · exact ⟨st, hst, hsn⟩
      obtain ⟨pre, s1, post, h1, h2, h3⟩ := ih hrest
      refine ⟨a :: pre, s1, post, by rw [h1]; rfl, ?_, h3⟩
      intro e he
      rcases List.mem_cons.1 he with rfl | he
      · exact hn
      · exact h2 e he

theorem findStation_split (station_name : String) (st : KitchenStation)
    (post : List KitchenStation) (hst : st.station_name_ = station_name) :
    ∀ pre : List KitchenStation, (∀ e ∈ pre, e.station_name_ ≠ station_name) →
      findStation station_name (pre ++ st :: post) = some pre.length := by
  intro pre
  induction pre with
  | nil => intro _; simp [findStation, hst]
  | cons a pre ih =>
    intro h
    have ha : ¬ a.station_name_ = station_name := h a (List.mem_cons_self _ _)
    simp [findStation, ha, ih (fun e he => h e (List.mem_cons_of_mem _ he))]

theorem getStationIndexFrom_split (station_name : String) (st : KitchenStation)
    (post : List KitchenStation) (hst : st.station_name_ = station_name) :
    ∀ (pre : List KitchenStation) (index : Int),
      (∀ e ∈ pre, e.station_name_ ≠ station_name) →
      getStationIndexFrom station_name (pre ++ st :: post) index = index + pre.length := by
  intro pre
  induction pre with
  | nil => intro index _; simp [getStationIndexFrom, hst]
  | cons a pre ih =>
    intro index h
    have ha : ¬ a.station_name_ = station_name := h a (List.mem_cons_self _ _)
    show getStationIndexFrom station_name (a :: (pre ++ st :: post)) index = _
    rw [getStationIndexFrom, if_neg ha,
      ih (index + 1) (fun e he => h e (List.mem_cons_of_mem _ he)), List.length_cons]
    push_cast
    omega

theorem eraseIdx_middle {α : Type} (x : α) (post : List α) :
    ∀ pre : List α, (pre ++ x :: post).eraseIdx pre.length = pre ++ post := by
  intro pre
  induction pre with
  | nil => rfl
  | cons a pre ih => simp [ih]

theorem listRemove_middle {α : Type} (pre post : List α) (x : α) :
    listRemove (pre.length : Int) (pre ++ x :: post) = (true, pre ++ post) := by
  unfold listRemove
  have h : 0 ≤ (pre.length : Int) ∧ (pre.length : Int) < ((pre ++ x :: post).length : Int) := by
    constructor
    · omega
    · simp only [List.length_append, List.length_cons]
      push_cast
      omega
  rw [if_pos h, Int.toNat_ofNat, eraseIdx_middle]

theorem listInsert_zero {α : Type} (x : α) (l : List α) :
    listInsert 0 x l = (true, x :: l) := by
  unfold listInsert
  have h : (0 : Int) ≤ 0 ∧ (0 : Int) ≤ (l.length : Int) := ⟨Int.le_refl _, by omega⟩
  rw [if_pos h]
  rfl

theorem moveStationWalk_split (station_name : String) (stations : List KitchenStation)
    (st : KitchenStation) (post : List KitchenStation)
    (hst : st.station_name_ = station_name) :
    ∀ pre : List KitchenStation, (∀ e ∈ pre, e.station_name_ ≠ station_name) →
      moveStationWalk station_name stations (pre ++ st :: post) =
        (true, (listInsert 0 st
          (listRemove (getStationIndex station_name stations) stations).2).2) := by
  intro pre
  induction pre with
  | nil =>
    intro _
    simp only [List.nil_append, moveStationWalk, if_pos hst]
    rw [hst]
  | cons a pre ih =>
    intro h
    have ha : ¬ a.station_name_ = station_name := h a (List.mem_cons_self _ _)
    simp only [List.cons_append, moveStationWalk, if_neg ha]
    exact ih (fun e he => h e (List.mem_cons_of_mem _ he))

theorem moveStationWalk_none (station_name : String) (stations : List KitchenStation) :
    ∀ rest : List KitchenStation, (∀ e ∈ rest, e.station_name_ ≠ station_name) →
      moveStationWalk station_name stations rest = (false, stations) := by
  intro rest
  induction rest with
  | nil => intro _; rfl
  | cons a rest ih =>
    intro h
    have ha : ¬ a.station_name_ = station_name := h a (List.mem_cons_self _ _)
    simp only [moveStationWalk, if_neg ha]
    exact ih (fun e he => h e (List.mem_cons_of_mem _ he))

theorem getElem?_before {α : Type} (pre post : List α) (x : α) (i : Nat)
    (hi : i < pre.length) : ∃ e ∈ pre, (pre ++ x :: post)[i]? = some e := by
  refine ⟨pre[i], List.getElem_mem _, ?_⟩
  rw [List.getElem?_append_left hi]
  exact List.getElem?_eq_getElem hi

theorem getElem?_at {α : Type} (pre post : List α) (x : α) :
    (pre ++ x :: post)[pre.length]? = some x := by
  induction pre with
  | nil => simp
  | cons a pre ih => simpa using ih

theorem moveStationScan5_split (station_name : String) (pre post : List KitchenStation)
    (st : KitchenStation) (hpre : ∀ e ∈ pre, e.station_name_ ≠ station_name)
    (hst : st.station_name_ = station_name) :
    ∀ (k i : Nat), i ≤ pre.length → pre.length < i + k →
      moveStationScan5 station_name (pre ++ st :: post) k i = (true, st :: (pre ++ post)) := by
  intro k
  induction k with
  | zero => intro i h1 h2; omega
  | succ k ih =>
    intro i h1 h2
    unfold moveStationScan5
    by_cases hi : i = pre.length
    · subst hi
      rw [getElem?_at]
      dsimp only
      rw [if_pos hst, listRemove_middle, listInsert_zero]
    · have hlt : i < pre.length := by omega
      obtain ⟨e, he, hg⟩ := getElem?_before pre post st i hlt
      rw [hg]
      dsimp only
      rw [if_neg (hpre e he)]
      exact ih (i + 1) (by omega) (by omega)

theorem moveStationScan5_none (station_name : String) (stations : List KitchenStation)
    (h : ∀ e ∈ stations, e.station_name_ ≠ station_name) :
    ∀ (k i : Nat), moveStationScan5 station_name stations k i = (false, stations) := by
  intro k
  induction k with
  | zero => intro i; rfl
  | succ k ih =>
    intro i
    unfold moveStationScan5
    cases hg : stations[i]? with
    | none => rfl
    | some station =>
      dsimp only
      rw [if_neg (h station (List.getElem?_mem hg))]
      exact ih (i + 1)

theorem moveStationToFront_cases (m : StationManager) (station_name : String) :
    (∃ pre st post, m.stations = pre ++ st :: post ∧
        (∀ e ∈ pre, e.station_name_ ≠ station_name) ∧ st.station_name_ = station_name ∧
        m.moveStationToFront station_name = (true, { m with stations := st :: (pre ++ post) }) ∧
        moveStationToFront5 station_name m.stations = (true, st :: (pre ++ post))) ∨
    ((∀ st ∈ m.stations, st.station_name_ ≠ station_name) ∧
        m.moveStationToFront station_name = (false, m) ∧
        moveStationToFront5 station_name m.stations = (false, m.stations)) := by
  by_cases hex : ∃ st ∈ m.stations, st.station_name_ = station_name
  · left
    obtain ⟨pre, st, post, h1, h2, h3⟩ := first_split station_name m.stations hex
    refine ⟨pre, st, post, h1, h2, h3, ?_, ?_⟩
    · unfold StationManager.moveStationToFront
      rw [h1, findStation_split station_name st post h3 pre h2]
      dsimp only
      cases pre with
      | nil =>
        simp only [List.nil_append, if_pos h3]
        obtain ⟨s, q, b⟩ := m
        simp only [List.nil_append] at h1
        subst h1
        rfl
      | cons a pre =>
        have ha : ¬ a.station_name_ = station_name := h2 a (List.mem_cons_self _ _)
        simp only [List.cons_append, if_neg ha]
        have hw := moveStationWalk_split station_name (a :: pre ++ st :: post) st post h3
          (a :: pre) h2
        have hidx : getStationIndex station_name (a :: pre ++ st :: post) =
            ((a :: pre).length : Int) := by
          unfold getStationIndex
          rw [getStationIndexFrom_split station_name st post h3 (a :: pre) 0 h2]
          omega
        rw [hidx, listRemove_middle, listInsert_zero] at hw
        simp only [List.cons_append] at hw
        rw [hw]
    · unfold moveStationToFront5
      rw [h1]
      apply moveStationScan5_split station_name pre post st h2 h3
      · omega
      · simp only [List.length_append, List.length_cons]
        omega
  · right
    have hall : ∀ st ∈ m.stations, st.station_name_ ≠ station_name :=
      fun st hst hn => hex ⟨st, hst, hn⟩
    refine ⟨hall, ?_, ?_⟩
    · unfold StationManager.moveStationToFront
      rw [(findStation_eq_none_iff station_name m.stations).2 hall]
    · exact moveStationScan5_none station_name m.stations hall _ _

/-- C19: `moveStationToFront(name)`, in project 6 and in project 5.  Either a station of
that name exists, and with `st` the first such station the call returns true and the
list becomes `st` followed by all other stations in their previous order (the list is
unchanged when `st` was already first); or no station has the name, the call returns
false and the list is unchanged.  Nothing but the station list changes. -/
theorem moveStationToFront_spec (m : StationManager) (station_name : String) :
    (∃ pre st post, m.stations = pre ++ st :: post ∧
        (∀ e ∈ pre, e.station_name_ ≠ station_name) ∧ st.station_name_ = station_name ∧
        m.moveStationToFront station_name = (true, { m with stations := st :: (pre ++ post) }) ∧
        moveStationToFront5 station_name m.stations = (true, st :: (pre ++ post))) ∨
    ((∀ st ∈ m.stations, st.station_name_ ≠ station_name) ∧
        m.moveStationToFront station_name = (false, m) ∧
        moveStationToFront5 station_name m.stations = (false, m.stations)) :=
  moveStationToFront_cases m station_name

theorem onHand_append_other (n : String) (l1 l2 : List Ingredient)
    (h : ∀ e ∈ l2, e.name ≠ n) : onHand n (l1 ++ l2) = onHand n l1 := by
  induction l1 with
  | nil => rw [List.nil_append, onHand_absent n l2 h]; rfl
  | cons x rest ih =>
    by_cases hx : x.name = n
    · rw [List.cons_append, onHand_cons_eq n x _ hx, onHand_cons_eq n x _ hx]
    · rw [List.cons_append, onHand_cons_ne n x _ hx, onHand_cons_ne n x _ hx, ih]

theorem replenishLoop_some_other (n : String) (ingredient : Ingredient)
    (hn : ingredient.name ≠ n) :
    ∀ (stock stock1 : List Ingredient), replenishLoop ingredient stock = some stock1 →
      onHand n stock1 = onHand n stock ∧ totalQuantity n stock1 = totalQuantity n stock := by
  intro stock
  induction stock with
  | nil => intro stock1 h; cases h
  | cons x rest ih =>
    intro stock1 h
    unfold replenishLoop at h
    by_cases hx : x.name = ingredient.name
    · rw [if_pos hx] at h
      cases h
      have hxn : ¬ x.name = n := fun hh => hn (hx.symm.trans hh)
      refine ⟨?_, ?_⟩
      · rw [onHand_cons_ne n x rest hxn]
        exact onHand_cons_ne n _ rest hxn
      · simp only [totalQuantity, if_neg hxn]
    · rw [if_neg hx] at h
      cases hr : replenishLoop ingredient rest with
      | none => rw [hr] at h; cases h
      | some rest1 =>
        rw [hr] at h
        cases h
        obtain ⟨h1, h2⟩ := ih rest1 hr
        refine ⟨?_, ?_⟩
        · by_cases hxn : x.name = n
          · rw [onHand_cons_eq n x _ hxn, onHand_cons_eq n x _ hxn]
          · rw [onHand_cons_ne n x _ hxn, onHand_cons_ne n x _ hxn, h1]
        · simp only [totalQuantity, h2]

theorem replenishStock_add (n : String) (ingredient : Ingredient) (stock : List Ingredient) :
    onHand n (replenishStock ingredient stock) =
      onHand n stock + (if ingredient.name = n then ingredient.quantity else 0) ∧
    totalQuantity n (replenishStock ingredient stock) =
      totalQuantity n stock + (if ingredient.name = n then ingredient.quantity else 0) := by
  by_cases hn : ingredient.name = n
  · subst hn
    rw [if_pos rfl]
    exact replenishStock_quantity ingredient stock
  · rw [if_neg hn]
    unfold replenishStock
    cases hr : replenishLoop ingredient stock with
    | some stock1 =>
      obtain ⟨h1, h2⟩ := replenishLoop_some_other n ingredient hn stock stock1 hr
      dsimp only
      rw [h1, h2]
      exact ⟨by omega, by omega⟩
    | none =>
      dsimp only
      have hl : ∀ e ∈ [ingredient], e.name ≠ n := by
        intro e he
        rw [List.mem_singleton.1 he]
        exact hn
      rw [onHand_append_other n stock _ hl, totalQuantity_append,
        totalQuantity_absent n _ hl]
      exact ⟨by omega, by omega⟩

theorem replenishAll_quantity (n : String) :
    ∀ (ingredients : List Ingredient) (s : KitchenStation),
      onHand n (replenishAll ingredients s).ingredients_stock_ =
        onHand n s.ingredients_stock_ + totalQuantity n ingredients ∧
      totalQuantity n (replenishAll ingredients s).ingredients_stock_ =
        totalQuantity n s.ingredients_stock_ + totalQuantity n ingredients ∧
      (replenishAll ingredients s).station_name_ = s.station_name_ := by
  intro ingredients
  induction ingredients with
  | nil =>
    intro s
    simp only [replenishAll, totalQuantity]
    exact ⟨by omega, by omega, trivial⟩
  | cons a rest ih =>
    intro s
    unfold replenishAll
    obtain ⟨h1, h2, h3⟩ := ih (s.replenishStationIngredients a)
    obtain ⟨h4, h5⟩ := replenishStock_add n a s.ingredients_stock_
    rw [h1, h2, h3]
    simp only [KitchenStation.replenishStationIngredients, h4, h5, totalQuantity]
    exact ⟨by omega, by omega, trivial⟩

theorem unique_total_eq_onHand (n : String) (l : List Ingredient) (hu : UniqueNames l) :
    totalQuantity n l = onHand n l := by
  induction l with
  | nil => rfl
  | cons x rest ih =>
    obtain ⟨hx, hu1⟩ := uniqueNames_cons hu
    by_cases hn : x.name = n
    · have hnone : ∀ e ∈ rest, e.name ≠ n := fun e he => hn ▸ hx e he
      rw [onHand_cons_eq n x rest hn, totalQuantity, if_pos hn,
        totalQuantity_absent n rest hnone]
      omega
    · rw [onHand_cons_ne n x rest hn, totalQuantity, if_neg hn, ih hu1]
      omega

theorem findStation_some_split (station_name : String) (l : List KitchenStation) (i : Nat)
    (h : findStation station_name l = some i) :
    ∃ pre st post, l = pre ++ st :: post ∧ pre.length = i ∧
      (∀ e ∈ pre, e.station_name_ ≠ station_name) ∧ st.station_name_ = station_name := by
  have hex : ∃ st ∈ l, st.station_name_ = station_name := by
    by_contra hno
    have hall : ∀ st ∈ l, st.station_name_ ≠ station_name :=
      fun st hst hn => hno ⟨st, hst, hn⟩
    rw [(findStation_eq_none_iff station_name l).2 hall] at h
    cases h
  obtain ⟨pre, st, post, h1, h2, h3⟩ := first_split station_name l hex
  refine ⟨pre, st, post, h1, ?_, h2, h3⟩
  rw [h1, findStation_split station_name st post h3 pre h2] at h
  cases h
  rfl

theorem modifyAt_middle (f : KitchenStation → KitchenStation) (st : KitchenStation)
    (post : List KitchenStation) :
    ∀ pre : List KitchenStation,
      modifyAt f pre.length (pre ++ st :: post) = pre ++ f st :: post := by
  intro pre
  induction pre with
  | nil => rfl
  | cons a pre ih => simp [modifyAt, ih]

theorem stationLedger_split (station_name : String) (st : KitchenStation)
    (post : List KitchenStation) (hst : st.station_name_ = station_name) :
    ∀ pre : List KitchenStation, (∀ e ∈ pre, e.station_name_ ≠ station_name) →
      stationLedger station_name (pre ++ st :: post) = st.ingredients_stock_ := by
  intro pre
  induction pre with
  | nil => intro _; simp [stationLedger, hst]
  | cons a pre ih =>
    intro h
    have ha : ¬ a.station_name_ = station_name := h a (List.mem_cons_self _ _)
    simp [stationLedger, ha, ih (fun e he => h e (List.mem_cons_of_mem _ he))]

theorem stationLedger_skip (station_name : String) (st : KitchenStation)
    (post : List KitchenStation) (hst : st.station_name_ ≠ station_name) :
    ∀ pre : List KitchenStation,
      stationLedger station_name (pre ++ post) =
        stationLedger station_name (pre ++ st :: post) := by
  intro pre
  induction pre with
  | nil => simp [stationLedger, hst]
  | cons a pre ih =>
    by_cases ha : a.station_name_ = station_name
    · simp [stationLedger, ha]
    · simp [stationLedger, ha, ih]

theorem removeStationScan_split (station_name : String) (pre post : List KitchenStation)
    (st : KitchenStation) (hpre : ∀ e ∈ pre, e.station_name_ ≠ station_name)
    (hst : st.station_name_ = station_name) :
    ∀ (k i : Nat), i ≤ pre.length → pre.length < i + k →
      removeStationScan station_name (pre ++ st :: post) k i = (true, pre ++ post) := by
  intro k
  induction k with
  | zero => intro i h1 h2; omega
  | succ k ih =>
    intro i h1 h2
    unfold removeStationScan
    by_cases hi : i = pre.length
    · subst hi
      rw [getElem?_at]
      dsimp only
      rw [if_pos hst, listRemove_middle]
    · have hlt : i < pre.length := by omega
      obtain ⟨e, he, hg⟩ := getElem?_before pre post st i hlt
      rw [hg]
      dsimp only
      rw [if_neg (hpre e he)]
      exact ih (i + 1) (by omega) (by omega)

theorem removeStationScan_none (station_name : String) (stations : List KitchenStation)
    (h : ∀ e ∈ stations, e.station_name_ ≠ station_name) :
    ∀ (k i : Nat), removeStationScan station_name stations k i = (false, stations) := by
  intro k
  induction k with
  | zero => intro i; rfl
  | succ k ih =>
    intro i
    unfold removeStationScan
    cases hg : stations[i]? with
    | none => rfl
    | some station =>
      dsimp only
      rw [if_neg (h station (List.getElem?_mem hg))]
      exact ih (i + 1)

theorem getElem?_modifyAt_ledger (f : KitchenStation → KitchenStation)
    (hf : ∀ st, (f st).ingredients_stock_ = st.ingredients_stock_) :
    ∀ (l : List KitchenStation) (i j : Nat) (st : KitchenStation), l[j]? = some st →
      ∃ st1, (modifyAt f i l)[j]? = some st1 ∧
        st1.ingredients_stock_ = st.ingredients_stock_ := by
  intro l
  induction l with
  | nil => intro i j st h; simp at h
  | cons a rest ih =>
    intro i j st h
    cases i with
    | zero =>
      cases j with
      | zero =>
        simp only [List.getElem?_cons_zero, Option.some.injEq] at h
        subst h
        exact ⟨f a, by simp [modifyAt], hf a⟩
      | succ j =>
        simp only [List.getElem?_cons_succ] at h
        exact ⟨st, by simp [modifyAt, h], rfl⟩
    | succ i =>
      cases j with
      | zero =>
        simp only [List.getElem?_cons_zero, Option.some.injEq] at h
        subst h
        exact ⟨a, by simp [modifyAt], rfl⟩
      | succ j =>
        simp only [List.getElem?_cons_succ] at h
        obtain ⟨st1, h1, h2⟩ := ih i j st h
        exact ⟨st1, by simp [modifyAt, h1], h2⟩

theorem findStation_modifyAt (station_name : String) (f : KitchenStation → KitchenStation)
    (hf : ∀ st, (f st).station_name_ = st.station_name_) :
    ∀ (l : List KitchenStation) (i : Nat),
      findStation station_name (modifyAt f i l) = findStation station_name l := by
  intro l
  induction l with
  | nil => intro i; cases i <;> rfl
  | cons a rest ih =>
    intro i
    cases i with
    | zero => simp [modifyAt, findStation, hf]
    | succ i => simp [modifyAt, findStation, ih]

theorem length_modifyAt (f : KitchenStation → KitchenStation) :
    ∀ (l : List KitchenStation) (i : Nat), (modifyAt f i l).length = l.length := by
  intro l
  induction l with
  | nil => intro i; cases i <;> rfl
  | cons a rest ih =>
    intro i
    cases i with
    | zero => rfl
    | succ i => simp [modifyAt, ih]

theorem mergeStations_eq (m : StationManager) (station_name1 station_name2 : String)
    (i1 i2 : Nat) (s2 : KitchenStation)
    (hf1 : findStation station_name1 m.stations = some i1)
    (hf2 : findStation station_name2 m.stations = some i2)
    (hg : m.stations[i2]? = some s2) :
    m.mergeStations station_name1 station_name2 =
      (true, { m with stations :=
        (removeStationScan station_name2
          (modifyAt (replenishAll s2.ingredients_stock_) i1
            (modifyAt (assignAll s2.dishes_) i1 m.stations)) m.stations.length 0).2 }) := by
  unfold StationManager.mergeStations
  rw [hf1, hf2]
  dsimp only
  rw [hg]
  dsimp only
  obtain ⟨st1, hst1, hledger⟩ := getElem?_modifyAt_ledger (assignAll s2.dishes_)
    (fun st => (assignAll_ledger s2.dishes_ st).1) m.stations i1 i2 s2 hg
  rw [hst1]
  dsimp only
  rw [hledger]
  unfold StationManager.removeStation
  dsimp only
  rw [length_modifyAt, length_modifyAt]

theorem mergeStations_ledger_eq (m : StationManager) (station_name1 station_name2 : String)
    (hne : station_name1 ≠ station_name2)
    (h1 : ∃ st ∈ m.stations, st.station_name_ = station_name1)
    (h2 : ∃ st ∈ m.stations, st.station_name_ = station_name2) :
    ∃ s1 s2, s1 ∈ m.stations ∧ s2 ∈ m.stations ∧
      s1.ingredients_stock_ = stationLedger station_name1 m.stations ∧
      s2.ingredients_stock_ = stationLedger station_name2 m.stations ∧
      (m.mergeStations station_name1 station_name2).1 = true ∧
      stationLedger station_name1 (m.mergeStations station_name1 station_name2).2.stations =
        (replenishAll s2.ingredients_stock_ (assignAll s2.dishes_ s1)).ingredients_stock_ := by
  obtain ⟨pre1, s1, post1, hd1, hp1, hs1⟩ := first_split station_name1 m.stations h1
  obtain ⟨pre2, s2, post2, hd2, hp2, hs2⟩ := first_split station_name2 m.stations h2
  have hf1 : findStation station_name1 m.stations = some pre1.length := by
    rw [hd1]; exact findStation_split station_name1 s1 post1 hs1 pre1 hp1
  have hf2 : findStation station_name2 m.stations = some pre2.length := by
    rw [hd2]; exact findStation_split station_name2 s2 post2 hs2 pre2 hp2
  have hg : m.stations[pre2.length]? = some s2 := by
    rw [hd2]; exact getElem?_at pre2 post2 s2
  have hl1 : stationLedger station_name1 m.stations = s1.ingredients_stock_ := by
    rw [hd1]; exact stationLedger_split station_name1 s1 post1 hs1 pre1 hp1
  have hl2 : stationLedger station_name2 m.stations = s2.ingredients_stock_ := by
    rw [hd2]; exact stationLedger_split station_name2 s2 post2 hs2 pre2 hp2
  refine ⟨s1, s2, by rw [hd1]; simp, by rw [hd2]; simp, hl1.symm, hl2.symm, ?_, ?_⟩
  · rw [mergeStations_eq m _ _ _ _ s2 hf1 hf2 hg]
  · rw [mergeStations_eq m _ _ _ _ s2 hf1 hf2 hg]
    dsimp only
    have hnameA : ∀ st, (assignAll s2.dishes_ st).station_name_ = st.station_name_ :=
      fun st => (assignAll_ledger s2.dishes_ st).2
    have hnameR : ∀ st, (replenishAll s2.ingredients_stock_ st).station_name_ =
        st.station_name_ := fun st => (replenishAll_quantity "" s2.ingredients_stock_ st).2.2
    have hmod : modifyAt (replenishAll s2.ingredients_stock_) pre1.length
        (modifyAt (assignAll s2.dishes_) pre1.length m.stations) =
        pre1 ++ replenishAll s2.ingredients_stock_ (assignAll s2.dishes_ s1) :: post1 := by
      rw [hd1, modifyAt_middle, modifyAt_middle]
    have hmerged : (replenishAll s2.ingredients_stock_
        (assignAll s2.dishes_ s1)).station_name_ = station_name1 := by
      rw [hnameR, hnameA, hs1]
    have hf2b : findStation station_name2
        (modifyAt (replenishAll s2.ingredients_stock_) pre1.length
          (modifyAt (assignAll s2.dishes_) pre1.length m.stations)) = some pre2.length := by
      rw [findStation_modifyAt _ _ hnameR, findStation_modifyAt _ _ hnameA, hf2]
    obtain ⟨preB, sB, postB, hdB, hlenB, hpB, hsB⟩ := findStation_some_split _ _ _ hf2b
    have hlen : m.stations.length = (preB ++ sB :: postB).length := by
      rw [← hdB, length_modifyAt, length_modifyAt]
    rw [hdB, hlen, removeStationScan_split station_name2 preB postB sB hpB hsB _ 0
      (Nat.zero_le _) (by simp only [List.length_append, List.length_cons]; omega)]
    dsimp only
    have hsBne : sB.station_name_ ≠ station_name1 := by
      rw [hsB]; exact fun hh => hne hh.symm
    rw [stationLedger_skip station_name1 sB postB hsBne preB, ← hdB, hmod]
    exact stationLedger_split station_name1 _ post1 hmerged pre1 hp1

/-- C20: for two existing stations with distinct names `a` and `b`, `mergeStations(a, b)`
returns true and afterwards, for every ingredient name, the ledger of `a` holds the sum
of what the ledgers of `a` and `b` held before: as totals over the entries of the
name, and, when the ledger of `b` had at most one entry per name, as the quantity of
the entry of the name (`0` where an entry is absent). -/
theorem mergeStations_ledger_sum (m : StationManager) (station_name1 station_name2 : String)
    (hne : station_name1 ≠ station_name2)
    (h1 : ∃ st ∈ m.stations, st.station_name_ = station_name1)
    (h2 : ∃ st ∈ m.stations, st.station_name_ = station_name2) :
    (m.mergeStations station_name1 station_name2).1 = true ∧
    ∀ n : String,
      totalQuantity n
          (stationLedger station_name1
            (m.mergeStations station_name1 station_name2).2.stations) =
        totalQuantity n (stationLedger station_name1 m.stations) +
          totalQuantity n (stationLedger station_name2 m.stations) ∧
      (UniqueNames (stationLedger station_name2 m.stations) →
        onHand n
            (stationLedger station_name1
              (m.mergeStations station_name1 station_name2).2.stations) =
          onHand n (stationLedger station_name1 m.stations) +
            onHand n (stationLedger station_name2 m.stations)) := by
  obtain ⟨s1, s2, _, _, hl1, hl2, htrue, heq⟩ :=
    mergeStations_ledger_eq m station_name1 station_name2 hne h1 h2
  refine ⟨htrue, ?_⟩
  intro n
  obtain ⟨hon, htot, _⟩ := replenishAll_quantity n s2.ingredients_stock_
    (assignAll s2.dishes_ s1)
  rw [(assignAll_ledger s2.dishes_ s1).1] at hon htot
  rw [heq, ← hl1, ← hl2]
  refine ⟨htot, ?_⟩
  intro hu
  rw [hon, unique_total_eq_onHand n _ hu]

/-- Witness of C20 on `lineManager`: `Grill` holds 2 `A`, `Fryer` holds 1 `A` and 4 `B`;
after the merge `Grill` holds 3 `A` and 4 `B` and `Fryer` is gone. -/
theorem mergeStations_ledger_sum_witness :
    (lineManager.mergeStations "Grill" "Fryer").2.stations =
      [⟨"Grill", [dishA], [⟨"A", 3, 0, 0⟩, ⟨"B", 4, 0, 0⟩]⟩, ⟨"Oven", [], []⟩] ∧
    (lineManager.mergeStations "Grill" "Fryer").1 = true :=
  ⟨by decide,
    (mergeStations_ledger_sum lineManager "Grill" "Fryer" (by decide)
      ⟨⟨"Grill", [], [⟨"A", 2, 0, 0⟩]⟩, by decide, rfl⟩
      ⟨⟨"Fryer", [dishA], [⟨"A", 1, 0, 0⟩, ⟨"B", 4, 0, 0⟩]⟩, by decide, rfl⟩).1⟩

/-! ## Further properties of `mergeStations` -/

theorem set_at {α : Type} (x y : α) (post : List α) :
    ∀ pre : List α, (pre ++ x :: post).set pre.length y = pre ++ y :: post := by
  intro pre
  induction pre with
  | nil => rfl
  | cons a pre ih => simp [ih]

theorem mergeStations_shape (m : StationManager) (station_name1 station_name2 : String)
    (h1 : ∃ st ∈ m.stations, st.station_name_ = station_name1)
    (h2 : ∃ st ∈ m.stations, st.station_name_ = station_name2) :
    ∃ i1 i2 s1 s2 preB sB postB,
      findStation station_name1 m.stations = some i1 ∧
      findStation station_name2 m.stations = some i2 ∧
      m.stations[i1]? = some s1 ∧ m.stations[i2]? = some s2 ∧
      s1.station_name_ = station_name1 ∧ s2.station_name_ = station_name2 ∧
      m.stations.set i1 (replenishAll s2.ingredients_stock_ (assignAll s2.dishes_ s1)) =
        preB ++ sB :: postB ∧
      preB.length = i2 ∧ sB.station_name_ = station_name2 ∧
      m.mergeStations station_name1 station_name2 =
        (true, { m with stations := preB ++ postB }) := by
  obtain ⟨pre1, s1, post1, hd1, hp1, hs1⟩ := first_split station_name1 m.stations h1
  obtain ⟨pre2, s2, post2, hd2, hp2, hs2⟩ := first_split station_name2 m.stations h2
  have hf1 : findStation station_name1 m.stations = some pre1.length := by
    rw [hd1]; exact findStation_split station_name1 s1 post1 hs1 pre1 hp1
  have hf2 : findStation station_name2 m.stations = some pre2.length := by
    rw [hd2]; exact findStation_split station_name2 s2 post2 hs2 pre2 hp2
  have hg1 : m.stations[pre1.length]? = some s1 := by
    rw [hd1]; exact getElem?_at pre1 post1 s1
  have hg2 : m.stations[pre2.length]? = some s2 := by
    rw [hd2]; exact getElem?_at pre2 post2 s2
  have hnameA : ∀ st, (assignAll s2.dishes_ st).station_name_ = st.station_name_ :=
    fun st => (assignAll_ledger s2.dishes_ st).2
  have hnameR : ∀ st, (replenishAll s2.ingredients_stock_ st).station_name_ =
      st.station_name_ := fun st => (replenishAll_quantity "" s2.ingredients_stock_ st).2.2
  have hmod : modifyAt (replenishAll s2.ingredients_stock_) pre1.length
      (modifyAt (assignAll s2.dishes_) pre1.length m.stations) =
      m.stations.set pre1.length
        (replenishAll s2.ingredients_stock_ (assignAll s2.dishes_ s1)) := by
    rw [hd1, modifyAt_middle, modifyAt_middle, set_at]
  have hf2b : findStation station_name2
      (modifyAt (replenishAll s2.ingredients_stock_) pre1.length
        (modifyAt (assignAll s2.dishes_) pre1.length m.stations)) = some pre2.length := by
    rw [findStation_modifyAt _ _ hnameR, findStation_modifyAt _ _ hnameA, hf2]
  obtain ⟨preB, sB, postB, hdB, hlenB, hpB, hsB⟩ := findStation_some_split _ _ _ hf2b
  refine ⟨pre1.length, pre2.length, s1, s2, preB, sB, postB, hf1, hf2, hg1, hg2, hs1, hs2,
    by rw [← hmod]; exact hdB, hlenB, hsB, ?_⟩
  rw [mergeStations_eq m _ _ _ _ s2 hf1 hf2 hg2]
  have hlen : m.stations.length = (preB ++ sB :: postB).length := by
    rw [← hdB, length_modifyAt, length_modifyAt]
  rw [hdB, hlen, removeStationScan_split station_name2 preB postB sB hpB hsB _ 0
    (Nat.zero_le _) (by simp only [List.length_append, List.length_cons]; omega)]

theorem assignAll_names (n : String) :
    ∀ (dishes : List Dish) (s : KitchenStation),
      (∃ d ∈ (assignAll dishes s).dishes_, d.name_ = n) ↔
        ((∃ d ∈ s.dishes_, d.name_ = n) ∨ (∃ d ∈ dishes, d.name_ = n)) := by
  intro dishes
  induction dishes with
  | nil =>
    intro s
    simp [assignAll]
  | cons a rest ih =>
    intro s
    unfold assignAll
    rw [ih]
    unfold KitchenStation.assignDishToStation KitchenStation.isPresent
    by_cases hp : isPresentLoop a.name_ s.dishes_ = true
    · obtain ⟨d0, hd0, hn0⟩ := (isPresentLoop_iff _ _).1 hp
      simp only [hp, if_true]
      constructor
      · rintro (h | ⟨d, hd, hn⟩)
        · exact Or.inl h
        · exact Or.inr ⟨d, List.mem_cons_of_mem _ hd, hn⟩
      · rintro (h | ⟨d, hd, hn⟩)
        · exact Or.inl h
        · rcases List.mem_cons.1 hd with rfl | hd
          · exact Or.inl ⟨d0, hd0, hn0.trans hn⟩
          · exact Or.inr ⟨d, hd, hn⟩
    · simp only [hp]
      constructor
      · rintro (⟨d, hd, hn⟩ | ⟨d, hd, hn⟩)
        · rcases List.mem_append.1 hd with h | h
          · exact Or.inl ⟨d, h, hn⟩
          · rw [List.mem_singleton.1 h] at hn
            exact Or.inr ⟨a, List.mem_cons_self _ _, hn⟩
        · exact Or.inr ⟨d, List.mem_cons_of_mem _ hd, hn⟩
      · rintro (⟨d, hd, hn⟩ | ⟨d, hd, hn⟩)
        · exact Or.inl ⟨d, List.mem_append_left _ hd, hn⟩
        · rcases List.mem_cons.1 hd with rfl | hd
          · exact Or.inl ⟨d, List.mem_append_right _ (List.mem_singleton.2 rfl), hn⟩
          · exact Or.inr ⟨d, hd, hn⟩

theorem replenishAll_dishes :
    ∀ (ingredients : List Ingredient) (s : KitchenStation),
      (replenishAll ingredients s).dishes_ = s.dishes_ := by
  intro ingredients
  induction ingredients with
  | nil => intro s; rfl
  | cons a rest ih =>
    intro s
    unfold replenishAll
    rw [ih]
    rfl

theorem names_set (l : List KitchenStation) (i : Nat) (s st : KitchenStation)
    (hg : l[i]? = some s) (hn : st.station_name_ = s.station_name_) :
    (l.set i st).map (fun x => x.station_name_) = l.map (fun x => x.station_name_) := by
  induction l generalizing i with
  | nil => rfl
  | cons a rest ih =>
    cases i with
    | zero =>
      simp only [List.getElem?_cons_zero, Option.some.injEq] at hg
      subst hg
      simp [hn]
    | succ i =>
      simp only [List.getElem?_cons_succ] at hg
      simp [ih i hg]

/-- C21: for two existing stations with distinct names `a` and `b`, after
`mergeStations(a, b)` the station list is the old list with the slot of `a` holding the
merged station and the slot of `b` deleted, so every other station is unchanged and
keeps its relative position; the merged station is named `a` and the names of its
dishes are exactly the names assigned to `a` or to `b` before; and when station names
are pairwise distinct no station named `b` is left. -/
theorem mergeStations_dishes_and_list (m : StationManager)
    (station_name1 station_name2 : String) (hne : station_name1 ≠ station_name2)
    (h1 : ∃ st ∈ m.stations, st.station_name_ = station_name1)
    (h2 : ∃ st ∈ m.stations, st.station_name_ = station_name2) :
    ∃ i1 i2 s1 s2 merged,
      findStation station_name1 m.stations = some i1 ∧
      findStation station_name2 m.stations = some i2 ∧
      m.stations[i1]? = some s1 ∧ m.stations[i2]? = some s2 ∧
      (m.mergeStations station_name1 station_name2).2 =
        { m with stations := (m.stations.set i1 merged).eraseIdx i2 } ∧
      merged.station_name_ = station_name1 ∧
      merged ∈ (m.mergeStations station_name1 station_name2).2.stations ∧
      (∀ n : String, (∃ d ∈ merged.dishes_, d.name_ = n) ↔
        ((∃ d ∈ s1.dishes_, d.name_ = n) ∨ (∃ d ∈ s2.dishes_, d.name_ = n))) ∧
      ((m.stations.map (fun x => x.station_name_)).Nodup →
        ∀ st ∈ (m.mergeStations station_name1 station_name2).2.stations,
          st.station_name_ ≠ station_name2) := by
  obtain ⟨i1, i2, s1, s2, preB, sB, postB, hf1, hf2, hg1, hg2, hs1, hs2, hset, hlen, hsB, heq⟩ :=
    mergeStations_shape m station_name1 station_name2 h1 h2
  have hmn : (replenishAll s2.ingredients_stock_ (assignAll s2.dishes_ s1)).station_name_ =
      s1.station_name_ := by
    rw [(replenishAll_quantity "" s2.ingredients_stock_ _).2.2, (assignAll_ledger _ _).2]
  refine ⟨i1, i2, s1, s2, replenishAll s2.ingredients_stock_ (assignAll s2.dishes_ s1),
    hf1, hf2, hg1, hg2, ?_, hmn.trans hs1, ?_, ?_, ?_⟩
  · rw [heq, hset, ← hlen, eraseIdx_middle]
  · rw [heq]
    dsimp only
    have hin : replenishAll s2.ingredients_stock_ (assignAll s2.dishes_ s1) ∈
        preB ++ sB :: postB := by
      rw [← hset]
      exact List.mem_set _ _ ((List.getElem?_eq_some_iff.1 hg1).1) _
    rcases List.mem_append.1 hin with h | h
    · exact List.mem_append_left _ h
    · rcases List.mem_cons.1 h with h | h
      · exfalso
        apply hne
        rw [← hs1, ← hmn, h, hsB]
      · exact List.mem_append_right _ h
  · intro n
    rw [replenishAll_dishes]
    exact assignAll_names n s2.dishes_ s1
  · intro hnodup st hst
    rw [heq] at hst
    dsimp only at hst
    have hnames := names_set m.stations i1 s1 _ hg1 hmn
    rw [hset] at hnames
    rw [← hnames, List.map_append, List.map_cons] at hnodup
    have hmid := (List.nodup_middle.1 hnodup)
    rw [List.nodup_cons] at hmid
    intro hn
    apply hmid.1
    rw [← List.map_append, hsB]
    exact List.mem_map.2 ⟨st, hst, hn⟩

/-- Witness of C21 on `lineManager`: `Grill` takes over the dish `A` of `Fryer`, `Fryer`
is gone and `Oven` follows `Grill` as before. -/
theorem mergeStations_dishes_and_list_witness :
    (lineManager.mergeStations "Grill" "Fryer").2.stations =
      [⟨"Grill", [dishA], [⟨"A", 3, 0, 0⟩, ⟨"B", 4, 0, 0⟩]⟩, ⟨"Oven", [], []⟩] ∧
    ∃ i1 i2 s1 s2 merged,
      findStation "Grill" lineManager.stations = some i1 ∧
      findStation "Fryer" lineManager.stations = some i2 ∧
      lineManager.stations[i1]? = some s1 ∧ lineManager.stations[i2]? = some s2 ∧
      (lineManager.mergeStations "Grill" "Fryer").2 =
        { lineManager with stations := (lineManager.stations.set i1 merged).eraseIdx i2 } ∧
      merged.station_name_ = "Grill" ∧
      merged ∈ (lineManager.mergeStations "Grill" "Fryer").2.stations ∧
      (∀ n : String, (∃ d ∈ merged.dishes_, d.name_ = n) ↔
        ((∃ d ∈ s1.dishes_, d.name_ = n) ∨ (∃ d ∈ s2.dishes_, d.name_ = n))) ∧
      ((lineManager.stations.map (fun x => x.station_name_)).Nodup →
        ∀ st ∈ (lineManager.mergeStations "Grill" "Fryer").2.stations,
          st.station_name_ ≠ "Fryer") :=
  ⟨by decide,
    mergeStations_dishes_and_list lineManager "Grill" "Fryer" (by decide)
      ⟨⟨"Grill", [], [⟨"A", 2, 0, 0⟩]⟩, by decide, rfl⟩
      ⟨⟨"Fryer", [dishA], [⟨"A", 1, 0, 0⟩, ⟨"B", 4, 0, 0⟩]⟩, by decide, rfl⟩⟩

theorem mergeStations_absent (m : StationManager) (station_name1 station_name2 : String)
    (h : (∀ st ∈ m.stations, st.station_name_ ≠ station_name1) ∨
      (∀ st ∈ m.stations, st.station_name_ ≠ station_name2)) :
    m.mergeStations station_name1 station_name2 = (false, m) := by
  unfold StationManager.mergeStations
  rcases h with h | h
  · rw [(findStation_eq_none_iff station_name1 m.stations).2 h]
  · rw [(findStation_eq_none_iff station_name2 m.stations).2 h]
    cases findStation station_name1 m.stations <;> rfl

/-- C22: `mergeStations(a, b)` returns false when `a` or `b` is not the name of a station
of the manager, and then the manager (station list, ledgers, dish assignments, queue
and backup store) is unchanged. -/
theorem mergeStations_unknown (m : StationManager) (station_name1 station_name2 : String)
    (h : (∀ st ∈ m.stations, st.station_name_ ≠ station_name1) ∨
      (∀ st ∈ m.stations, st.station_name_ ≠ station_name2)) :
    m.mergeStations station_name1 station_name2 = (false, m) :=
  mergeStations_absent m station_name1 station_name2 h

/-- Witness of C22 on `lineManager`, which has no station `Bar`. -/
theorem mergeStations_unknown_witness :
    lineManager.mergeStations "Grill" "Bar" = (false, lineManager) :=
  mergeStations_unknown lineManager "Grill" "Bar" (Or.inr (by decide))

theorem totalQuantity_perm (n : String) {l1 l2 : List Ingredient} (h : l1.Perm l2) :
    totalQuantity n l1 = totalQuantity n l2 := by
  induction h with
  | nil => rfl
  | cons x _ ih => simp only [totalQuantity, ih]
  | swap x y l => simp only [totalQuantity]; omega
  | trans _ _ ih1 ih2 => exact ih1.trans ih2

theorem uniqueNames_perm {l1 l2 : List Ingredient} (h : l1.Perm l2) (hu : UniqueNames l2) :
    UniqueNames l1 := by
  unfold UniqueNames at hu ⊢
  exact (List.Perm.nodup_iff (List.Perm.map _ h)).2 hu

theorem mergeStations_onHand (m : StationManager) (station_name1 station_name2 : String)
    (hne : station_name1 ≠ station_name2)
    (h1 : ∃ st ∈ m.stations, st.station_name_ = station_name1)
    (h2 : ∃ st ∈ m.stations, st.station_name_ = station_name2) (n : String) :
    onHand n (stationLedger station_name1
        (m.mergeStations station_name1 station_name2).2.stations) =
      onHand n (stationLedger station_name1 m.stations) +
        totalQuantity n (stationLedger station_name2 m.stations) ∧
    totalQuantity n (stationLedger station_name1
        (m.mergeStations station_name1 station_name2).2.stations) =
      totalQuantity n (stationLedger station_name1 m.stations) +
        totalQuantity n (stationLedger station_name2 m.stations) := by
  obtain ⟨s1, s2, _, _, hl1, hl2, _, heq⟩ :=
    mergeStations_ledger_eq m station_name1 station_name2 hne h1 h2
  obtain ⟨hon, htot, _⟩ := replenishAll_quantity n s2.ingredients_stock_
    (assignAll s2.dishes_ s1)
  rw [(assignAll_ledger s2.dishes_ s1).1] at hon htot
  rw [heq, ← hl1, ← hl2]
  exact ⟨hon, htot⟩

/-- C23: let two managers both hold stations `X` and `Y` (distinct names), the ledgers
of `X` and of `Y` in the second being permutations of those in the first, which have
at most one entry per name.  Then after `mergeStations(X, Y)` the ledger of `X` holds
the same quantity of every ingredient name in both managers. -/
theorem mergeStations_order_independent (m m1 : StationManager)
    (station_name1 station_name2 : String) (hne : station_name1 ≠ station_name2)
    (hX : ∃ st ∈ m.stations, st.station_name_ = station_name1)
    (hY : ∃ st ∈ m.stations, st.station_name_ = station_name2)
    (hX1 : ∃ st ∈ m1.stations, st.station_name_ = station_name1)
    (hY1 : ∃ st ∈ m1.stations, st.station_name_ = station_name2)
    (hpX : (stationLedger station_name1 m1.stations).Perm
      (stationLedger station_name1 m.stations))
    (hpY : (stationLedger station_name2 m1.stations).Perm
      (stationLedger station_name2 m.stations))
    (huX : UniqueNames (stationLedger station_name1 m.stations))
    (huY : UniqueNames (stationLedger station_name2 m.stations)) (n : String) :
    onHand n (stationLedger station_name1
        (m1.mergeStations station_name1 station_name2).2.stations) =
      onHand n (stationLedger station_name1
        (m.mergeStations station_name1 station_name2).2.stations) ∧
    totalQuantity n (stationLedger station_name1
        (m1.mergeStations station_name1 station_name2).2.stations) =
      totalQuantity n (stationLedger station_name1
        (m.mergeStations station_name1 station_name2).2.stations) := by
  obtain ⟨ha, hb⟩ := mergeStations_onHand m station_name1 station_name2 hne hX hY n
  obtain ⟨ha1, hb1⟩ := mergeStations_onHand m1 station_name1 station_name2 hne hX1 hY1 n
  have huX1 := uniqueNames_perm hpX huX
  have _huY1 := uniqueNames_perm hpY huY
  rw [ha, ha1, hb, hb1, ← unique_total_eq_onHand n _ huX, ← unique_total_eq_onHand n _ huX1,
    totalQuantity_perm n hpX, totalQuantity_perm n hpY]
  exact ⟨rfl, rfl⟩

/-- Witness of C23 on `lineManager` and `lineManagerSwapped`, which differ in the order of
the two ledger entries of `Fryer`. -/
theorem mergeStations_order_independent_witness :
    (lineManagerSwapped.mergeStations "Grill" "Fryer").2.stations =
      [⟨"Grill", [dishA], [⟨"A", 3, 0, 0⟩, ⟨"B", 4, 0, 0⟩]⟩, ⟨"Oven", [], []⟩] ∧
    (onHand "B" (stationLedger "Grill"
        (lineManagerSwapped.mergeStations "Grill" "Fryer").2.stations) =
      onHand "B" (stationLedger "Grill"
        (lineManager.mergeStations "Grill" "Fryer").2.stations) ∧
    totalQuantity "B" (stationLedger "Grill"
        (lineManagerSwapped.mergeStations "Grill" "Fryer").2.stations) =
      totalQuantity "B" (stationLedger "Grill"
        (lineManager.mergeStations "Grill" "Fryer").2.stations)) :=
  ⟨by decide,
    mergeStations_order_independent lineManager lineManagerSwapped "Grill" "Fryer" (by decide)
      ⟨⟨"Grill", [], [⟨"A", 2, 0, 0⟩]⟩, by decide, rfl⟩
      ⟨⟨"Fryer", [dishA], [⟨"A", 1, 0, 0⟩, ⟨"B", 4, 0, 0⟩]⟩, by decide, rfl⟩
      ⟨⟨"Grill", [], [⟨"A", 2, 0, 0⟩]⟩, by decide, rfl⟩
      ⟨⟨"Fryer", [dishA], [⟨"B", 4, 0, 0⟩, ⟨"A", 1, 0, 0⟩]⟩, by decide, rfl⟩
      (List.Perm.refl _) (List.Perm.swap _ _ _) (by decide) (by decide) "B"⟩

/-! ## Station names under `addStation`, `removeStation`, `moveStationToFront`, `mergeStations` -/

theorem listInsert_end {α : Type} (x : α) (l : List α) :
    listInsert (l.length : Int) x l = (true, l ++ [x]) := by
  unfold listInsert
  have h : 0 ≤ (l.length : Int) ∧ (l.length : Int) ≤ (l.length : Int) :=
    ⟨by omega, Int.le_refl _⟩
  rw [if_pos h, Int.toNat_ofNat, List.take_length, List.drop_length]

theorem addStation_eq (m : StationManager) (station : KitchenStation) :
    m.addStation station = (true, { m with stations := m.stations ++ [station] }) := by
  unfold StationManager.addStation
  rw [listInsert_end]

theorem removeStation_sublist (m : StationManager) (station_name : String) :
    List.Sublist (m.removeStation station_name).2.stations m.stations := by
  unfold StationManager.removeStation
  dsimp only
  by_cases hex : ∃ st ∈ m.stations, st.station_name_ = station_name
  · obtain ⟨pre, st, post, h1, h2, h3⟩ := first_split station_name m.stations hex
    rw [h1, removeStationScan_split station_name pre post st h2 h3 _ 0 (Nat.zero_le _)
      (by simp only [List.length_append, List.length_cons]; omega)]
    exact List.Sublist.append_left (List.sublist_cons_self st post) pre
  · have hall : ∀ st ∈ m.stations, st.station_name_ ≠ station_name :=
      fun st hst hn => hex ⟨st, hst, hn⟩
    rw [removeStationScan_none station_name m.stations hall]

theorem names_nodup_sublist {l1 l2 : List KitchenStation} (h : List.Sublist l1 l2)
    (hn : (l2.map (fun x => x.station_name_)).Nodup) :
    (l1.map (fun x => x.station_name_)).Nodup :=
  List.Nodup.sublist (List.Sublist.map _ h) hn

theorem rosterCall_names (m : StationManager) (call : RosterCall)
    (hfresh : match call with
      | .addStation station => ∀ st ∈ m.stations, st.station_name_ ≠ station.station_name_
      | _ => True)
    (hn : (m.stations.map (fun x => x.station_name_)).Nodup) :
    ((call.run m).stations.map (fun x => x.station_name_)).Nodup := by
  cases call with
  | addStation station =>
    show (((m.addStation station).2).stations.map (fun x => x.station_name_)).Nodup
    rw [addStation_eq]
    dsimp only at hfresh ⊢
    rw [List.map_append, List.nodup_append]
    refine ⟨hn, by simp, ?_⟩
    intro a ha hb
    simp only [List.map_cons, List.map_nil, List.mem_singleton] at hb
    obtain ⟨st, hst, hsn⟩ := List.mem_map.1 ha
    exact hfresh st hst (hsn.trans hb)
  | removeStation station_name =>
    exact names_nodup_sublist (removeStation_sublist m station_name) hn
  | moveStationToFront station_name =>
    show (((m.moveStationToFront station_name).2).stations.map
      (fun x => x.station_name_)).Nodup
    rcases moveStationToFront_cases m station_name with
      ⟨pre, st, post, h1, _, _, h4, _⟩ | ⟨_, h2, _⟩
    · rw [h4]
      dsimp only
      rw [h1] at hn
      exact (List.Perm.nodup_iff (List.Perm.map _ List.perm_middle)).1 hn
    · rw [h2]; exact hn
  | mergeStations station_name1 station_name2 =>
    show (((m.mergeStations station_name1 station_name2).2).stations.map
      (fun x => x.station_name_)).Nodup
    by_cases h1 : ∃ st ∈ m.stations, st.station_name_ = station_name1
    · by_cases h2 : ∃ st ∈ m.stations, st.station_name_ = station_name2
      · obtain ⟨i1, i2, s1, s2, preB, sB, postB, _, _, hg1, _, _, _, hset, _, _, heq⟩ :=
          mergeStations_shape m station_name1 station_name2 h1 h2
        have hmn : (replenishAll s2.ingredients_stock_
            (assignAll s2.dishes_ s1)).station_name_ = s1.station_name_ := by
          rw [(replenishAll_quantity "" s2.ingredients_stock_ _).2.2, (assignAll_ledger _ _).2]
        have hnames := names_set m.stations i1 s1 _ hg1 hmn
        rw [hset] at hnames
        rw [← hnames] at hn
        rw [heq]
        exact names_nodup_sublist
          (List.Sublist.append_left (List.sublist_cons_self sB postB) preB) hn
      · rw [mergeStations_absent m _ _ (Or.inr (fun st hst hsn => h2 ⟨st, hst, hsn⟩))]
        exact hn
    · rw [mergeStations_absent m _ _ (Or.inl (fun st hst hsn => h1 ⟨st, hst, hsn⟩))]
      exact hn

theorem runRoster_names :
    ∀ (calls : List RosterCall) (m : StationManager), FreshAdds m calls →
      (m.stations.map (fun x => x.station_name_)).Nodup →
      ((runRoster m calls).stations.map (fun x => x.station_name_)).Nodup := by
  intro calls
  induction calls with
  | nil => intro m _ hn; exact hn
  | cons c rest ih =>
    intro m hf hn
    unfold runRoster
    rw [List.foldl_cons]
    exact ih _ hf.2 (rosterCall_names m c hf.1 hn)

/-- C24 (counterexample): from the empty manager, two `addStation` calls with stations of
the same name both return true and leave two stations named `Grill`. -/
theorem station_names_counterexample :
    ((⟨[], [], []⟩ : StationManager).addStation ⟨"Grill", [], []⟩).1 = true ∧
    ((((⟨[], [], []⟩ : StationManager).addStation ⟨"Grill", [], []⟩).2).addStation
      ⟨"Grill", [], []⟩).1 = true ∧
    (runRoster ⟨[], [], []⟩ twinAdds).stations = [⟨"Grill", [], []⟩, ⟨"Grill", [], []⟩] ∧
    ¬ ((runRoster ⟨[], [], []⟩ twinAdds).stations.map (fun x => x.station_name_)).Nodup := by
  decide

/-- C24 (amended): in every manager state reached from the empty manager by
`addStation` calls whose station carries a name no station has yet, `removeStation`,
`moveStationToFront` and `mergeStations`, no two stations have the same name.
`addStation` itself does not look at names: in project 6 and, for a non-null station,
in project 5 it appends the station and returns true. -/
theorem station_names_unique (calls : List RosterCall)
    (h : FreshAdds ⟨[], [], []⟩ calls) :
    ((runRoster ⟨[], [], []⟩ calls).stations.map (fun x => x.station_name_)).Nodup ∧
    (∀ (m : StationManager) (station : KitchenStation),
      m.addStation station = (true, { m with stations := m.stations ++ [station] }) ∧
      addStation5 m (some station) = (true, { m with stations := m.stations ++ [station] })) := by
  refine ⟨runRoster_names calls _ h List.nodup_nil, ?_⟩
  intro m station
  refine ⟨addStation_eq m station, ?_⟩
  unfold addStation5
  dsimp only
  rw [listInsert_end]

/-- Witness of C24 (amended) on `rosterCalls`: three stations with distinct names are
added, `Oven` moves to the front, `Fryer` is merged into `Grill` and `Oven` is removed. -/
theorem station_names_unique_witness :
    FreshAdds ⟨[], [], []⟩ rosterCalls ∧
    (runRoster ⟨[], [], []⟩ rosterCalls).stations = [⟨"Grill", [], []⟩] ∧
    ((runRoster ⟨[], [], []⟩ rosterCalls).stations.map (fun x => x.station_name_)).Nodup :=
  ⟨by simp [FreshAdds, rosterCalls, RosterCall.run, addStation_eq], by decide,
    (station_names_unique rosterCalls
      (by simp [FreshAdds, rosterCalls, RosterCall.run, addStation_eq])).1⟩

/-! ## Project 5: `prepareDish` -/

/-- C25 (evaluation at the failing input): the project-5 `prepareDish` on `halfStation`
(dish `D` requires one `A` and one `B`, the ledger holds one `A` only) returns false,
yet the ledger, `[A:1]` before the call, is empty afterwards: the unit of `A` was
deducted before `B` was found missing.  The project-6 `prepareDish` leaves the same
station untouched. -/
theorem prepareDish5_partial_deduction :
    (prepareDish5 halfStation "D").1 = false ∧
    halfStation.ingredients_stock_ = [⟨"A", 1, 0, 0⟩] ∧
    (prepareDish5 halfStation "D").2.ingredients_stock_ = [] ∧
    halfStation.prepareDish "D" = (false, halfStation) := by
  decide

/-! ## Project 3 and project 4: `Kitchen` -/

/-- C30 (evaluation at the failing input): `releaseDishesOfCuisineType("ITALIAN")` on a
kitchen holding the two Italian dishes `Pasta` and `Pizza` returns 1 and leaves `Pizza`
in the kitchen, with either way of closing the gap in the bag: after `Pasta` is removed
from slot 0 the other dish sits in slot 0 and the index moves on to 1. -/
theorem releaseDishesOfCuisineType_skips :
    italianKitchen.releaseDishesOfCuisineType removeFillWithLast "ITALIAN" =
      (1, ⟨[pizza], 30, 0⟩) ∧
    italianKitchen.releaseDishesOfCuisineType removeShiftDown "ITALIAN" =
      (1, ⟨[pizza], 30, 0⟩) ∧
    pizza.getCuisineType = "ITALIAN" ∧
    (italianKitchen.items_.filter (fun d => d.getCuisineType = "ITALIAN")).length = 2 := by
  decide

/-! ## Project 7: the recipe book -/

/-- The traversal hands the recipes to the visitor in in-order. -/
theorem inorderHelper_foldl {σ : Type} (visit : σ → Recipe → σ) (t : RecipeTree) (acc : σ) :
    inorderHelper visit t acc = (inorder t).foldl visit acc := by
  induction t generalizing acc with
  | nil => rfl
  | node left item right ihl ihr =>
    simp only [inorderHelper, inorder, List.foldl_append, List.foldl_cons, ihl, ihr]

/-- The search visitor keeps the value it started with on a list without the name, and
ends with a recipe of the list that has the name otherwise. -/
theorem findFold_spec (name : String) (l : List Recipe) (init : Option Recipe) :
    (l.foldl (fun foundRecipe r => if r.name_ = name then some r else foundRecipe) init = init ∧
        ∀ r ∈ l, r.name_ ≠ name) ∨
      ∃ r, l.foldl (fun foundRecipe r => if r.name_ = name then some r else foundRecipe) init
          = some r ∧ r ∈ l ∧ r.name_ = name := by
  induction l generalizing init with
  | nil => exact Or.inl ⟨rfl, fun r hr => by cases hr⟩
  | cons a l ih =>
    rw [List.foldl_cons]
    by_cases ha : a.name_ = name
    · rw [if_pos ha]
      rcases ih (some a) with ⟨h1, h2⟩ | ⟨r, h1, h2, h3⟩
      · exact Or.inr ⟨a, h1, List.mem_cons_self _ _, ha⟩
      · exact Or.inr ⟨r, h1, List.mem_cons_of_mem _ h2, h3⟩
    · rw [if_neg ha]
      rcases ih init with ⟨h1, h2⟩ | ⟨r, h1, h2, h3⟩
      · refine Or.inl ⟨h1, fun r hr => ?_⟩
        rcases List.mem_cons.1 hr with rfl | hr
        · exact ha
        · exact h2 r hr
      · exact Or.inr ⟨r, h1, List.mem_cons_of_mem _ h2, h3⟩

/-- The search of `findRecipe` over the in-order list. -/
theorem findRecipe_spec (t : RecipeTree) (name : String) :
    (findRecipe t name = none ∧ ∀ r ∈ inorder t, r.name_ ≠ name) ∨
      ∃ r, findRecipe t name = some r ∧ r ∈ inorder t ∧ r.name_ = name := by
  unfold findRecipe
  rw [inorderHelper_foldl]
  exact findFold_spec name (inorder t) none

/-- The counting visitor adds the number of recipes that satisfy its test. -/
theorem countFold_spec (p : Recipe → Prop) [DecidablePred p] (l : List Recipe) (init : Int) :
    l.foldl (fun (masteryPoints : Int) r => if p r then masteryPoints + 1 else masteryPoints) init
      = init + (l.countP (fun r => decide (p r)) : Int) := by
  induction l generalizing init with
  | nil => simp
  | cons a l ih =>
    rw [List.foldl_cons, ih, List.countP_cons]
    by_cases ha : p a
    · simp only [if_pos ha, decide_eq_true ha, if_true]; push_cast; omega
    · simp [if_neg ha, ha]

/-- Claim C26: `calculateMasteryPoints(name)` returns -1 when no recipe of the book has
the name; otherwise `findRecipe` yields a recipe of the book with that name (the only
one when no name occurs twice), and the result is 0 when that recipe is mastered and
otherwise 1 plus the number of recipes of the book that are not mastered and have a
strictly lower difficulty level. -/
theorem calculateMasteryPoints_spec (t : RecipeTree) (name : String) :
    ((∀ r ∈ inorder t, r.name_ ≠ name) ∧ calculateMasteryPoints t name = -1) ∨
      ∃ recipe, findRecipe t name = some recipe ∧ recipe ∈ inorder t ∧ recipe.name_ = name ∧
        (((inorder t).map (fun r => r.name_)).Nodup →
          ∀ r ∈ inorder t, r.name_ = name → r = recipe) ∧
        ((recipe.mastered_ = true ∧ calculateMasteryPoints t name = 0) ∨
          (recipe.mastered_ = false ∧
            calculateMasteryPoints t name =
              1 + ((inorder t).countP
                (fun r => decide (r.difficulty_level_ < recipe.difficulty_level_ ∧
                  r.mastered_ = false)) : Int))) := by
  rcases findRecipe_spec t name with ⟨h1, h2⟩ | ⟨recipe, h1, h2, h3⟩
  · left
    refine ⟨h2, ?_⟩
    unfold calculateMasteryPoints
    rw [h1]
  · right
    refine ⟨recipe, h1, h2, h3, ?_, ?_⟩
    · intro hnd r hr hrn
      exact List.inj_on_of_nodup_map hnd hr h2 (hrn.trans h3.symm)
    · unfold calculateMasteryPoints
      rw [h1]
      by_cases hm : recipe.mastered_ = true
      · left
        exact ⟨hm, by simp only [hm, if_true]⟩
      · right
        have hf : recipe.mastered_ = false := by simpa using hm
        refine ⟨hf, ?_⟩
        simp only [hf, Bool.false_eq_true, if_false]
        rw [inorderHelper_foldl,
          countFold_spec (fun r => r.difficulty_level_ < recipe.difficulty_level_ ∧
            r.mastered_ = false)]
        omega

/-- Claim C28, evaluated: after `addRecipe` of a recipe `A` of difficulty 5 and then of a
recipe `B` of difficulty 1 (both calls return true) the in-order traversal lists `A`
before `B`, difficulty 5 before difficulty 1: the tree is ordered by name, not by
difficulty level. -/
theorem addRecipe_orders_by_name :
    addRecipe .nil recipeA = (true, .node .nil recipeA .nil) ∧
    addRecipe (.node .nil recipeA .nil) recipeB
      = (true, .node .nil recipeA (.node .nil recipeB .nil)) ∧
    inorder (addRecipes .nil [recipeA, recipeB]) = [recipeA, recipeB] ∧
    (inorder (addRecipes .nil [recipeA, recipeB])).map (fun r => r.difficulty_level_) = [5, 1] := by
  have hlt : ¬ ("B" < "A") := by rw [String.lt_iff_toList_lt]; decide
  have h1 : addRecipe .nil recipeA = (true, .node .nil recipeA .nil) := by decide
  have h2 : addRecipe (.node .nil recipeA .nil) recipeB
      = (true, .node .nil recipeA (.node .nil recipeB .nil)) := by
    simp [addRecipe, findRecipe, inorderHelper, placeNode, recipeA, recipeB, hlt]
  have h3 : addRecipes .nil [recipeA, recipeB] = .node .nil recipeA (.node .nil recipeB .nil) := by
    simp only [addRecipes, List.foldl_cons, List.foldl_nil, h1, h2]
  refine ⟨h1, h2, ?_, ?_⟩
  · rw [h3]; rfl
  · rw [h3]; rfl

/-! ### Insertion into the book -/

/-- Insertion adds the new recipe to the recipes of the tree and keeps the others. -/
theorem inorder_placeNode_perm (t : RecipeTree) (r : Recipe) :
    (inorder (placeNode t r)).Perm (r :: inorder t) := by
  induction t with
  | nil => exact List.Perm.refl _
  | node left item right ihl ihr =>
    unfold placeNode
    by_cases h : item.name_ > r.name_
    · rw [if_pos h]
      simp only [inorder]
      exact (List.Perm.append_right _ ihl).trans (List.Perm.refl _)
    · rw [if_neg h]
      simp only [inorder]
      have h1 : (inorder left ++ item :: inorder (placeNode right r)).Perm
          (inorder left ++ item :: r :: inorder right) :=
        List.Perm.append_left _ (List.Perm.cons _ ihr)
      have h2 : (inorder left ++ item :: r :: inorder right).Perm
          (inorder left ++ r :: item :: inorder right) :=
        List.Perm.append_left _ (List.Perm.swap _ _ _)
      exact h1.trans (h2.trans List.perm_middle)

/-- Membership after an insertion. -/
theorem mem_inorder_placeNode (t : RecipeTree) (r x : Recipe) :
    x ∈ inorder (placeNode t r) ↔ x = r ∨ x ∈ inorder t := by
  rw [(inorder_placeNode_perm t r).mem_iff, List.mem_cons]

/-- Insertion of a recipe with a new name keeps the in-order list strictly sorted by
name. -/
theorem placeNode_sorted (t : RecipeTree) (r : Recipe) (hs : NameSorted (inorder t))
    (hn : ∀ x ∈ inorder t, x.name_ ≠ r.name_) : NameSorted (inorder (placeNode t r)) := by
  induction t with
  | nil => simp [placeNode, inorder, NameSorted]
  | node left item right ihl ihr =>
    unfold NameSorted at hs ihl ihr ⊢
    simp only [inorder] at hs hn
    rw [List.pairwise_append] at hs
    obtain ⟨hl, hir, hlr⟩ := hs
    rw [List.pairwise_cons] at hir
    obtain ⟨hi, hr⟩ := hir
    have hne : item.name_ ≠ r.name_ := hn item (by simp)
    unfold placeNode
    by_cases h : item.name_ > r.name_
    · rw [if_pos h]
      simp only [inorder]
      rw [List.pairwise_append]
      refine ⟨ihl hl (fun x hx => hn x (by simp [hx])), List.pairwise_cons.2 ⟨hi, hr⟩, ?_⟩
      intro a ha b hb
      rcases (mem_inorder_placeNode left r a).1 ha with rfl | ha
      · rcases List.mem_cons.1 hb with rfl | hb
        · exact h
        · exact lt_trans h (hi b hb)
      · exact hlr a ha b hb
    · rw [if_neg h]
      simp only [inorder]
      have hlt : item.name_ < r.name_ := by
        rcases lt_trichotomy item.name_ r.name_ with h1 | h1 | h1
        · exact h1
        · exact absurd h1 hne
        · exact absurd h1 h
      rw [List.pairwise_append]
      refine ⟨hl, List.pairwise_cons.2 ⟨?_, ihr hr (fun x hx => hn x (by simp [hx]))⟩, ?_⟩
      · intro b hb
        rcases (mem_inorder_placeNode right r b).1 hb with rfl | hb
        · exact hlt
        · exact hi b hb
      · intro a ha b hb
        rcases List.mem_cons.1 hb with rfl | hb
        · exact hlr a ha b (List.mem_cons_self _ _)
        · rcases (mem_inorder_placeNode right r b).1 hb with rfl | hb
          · exact lt_trans (hlr a ha item (List.mem_cons_self _ _)) hlt
          · exact hlr a ha b (List.mem_cons_of_mem _ hb)

/-- A recipe whose name is not in the book is inserted and `addRecipe` returns true. -/
theorem addRecipe_new (t : RecipeTree) (r : Recipe) (hn : ∀ x ∈ inorder t, x.name_ ≠ r.name_) :
    addRecipe t r = (true, placeNode t r) := by
  unfold addRecipe
  rcases findRecipe_spec t r.name_ with ⟨h1, _⟩ | ⟨x, _, h2, h3⟩
  · rw [h1]; rfl
  · exact absurd h3 (hn x h2)

/-- A recipe whose name is in the book is refused and the book stays as it is. -/
theorem addRecipe_known (t : RecipeTree) (r : Recipe) (x : Recipe) (hx : x ∈ inorder t)
    (hxn : x.name_ = r.name_) : addRecipe t r = (false, t) := by
  unfold addRecipe
  rcases findRecipe_spec t r.name_ with ⟨_, h2⟩ | ⟨y, h1, _, _⟩
  · exact absurd hxn (h2 x hx)
  · rw [h1]; rfl

/-- One `addRecipe` keeps the in-order list strictly sorted by name. -/
theorem addRecipe_sorted (t : RecipeTree) (r : Recipe) (hs : NameSorted (inorder t)) :
    NameSorted (inorder (addRecipe t r).2) := by
  by_cases h : ∃ x ∈ inorder t, x.name_ = r.name_
  · obtain ⟨x, hx, hxn⟩ := h
    rw [addRecipe_known t r x hx hxn]
    exact hs
  · have hn : ∀ x ∈ inorder t, x.name_ ≠ r.name_ := fun x hx hxn => h ⟨x, hx, hxn⟩
    rw [addRecipe_new t r hn]
    exact placeNode_sorted t r hs hn

/-- Every book built by `addRecipe` calls, from a book whose in-order list is strictly
sorted by name, has an in-order list strictly sorted by name. -/
theorem addRecipes_sorted (recipes : List Recipe) (t : RecipeTree)
    (hs : NameSorted (inorder t)) : NameSorted (inorder (addRecipes t recipes)) := by
  induction recipes generalizing t with
  | nil => exact hs
  | cons r recipes ih =>
    unfold addRecipes
    rw [List.foldl_cons]
    exact ih _ (addRecipe_sorted t r hs)

/-- With no name twice among the new recipes and the book, every `addRecipe` of a
sequence inserts. -/
theorem addRecipes_eq_foldl (xs : List Recipe) (t : RecipeTree)
    (hnd : ((xs ++ inorder t).map (fun r => r.name_)).Nodup) :
    addRecipes t xs = xs.foldl placeNode t := by
  induction xs generalizing t with
  | nil => rfl
  | cons a xs ih =>
    unfold addRecipes
    rw [List.foldl_cons, List.foldl_cons]
    rw [List.cons_append, List.map_cons, List.nodup_cons] at hnd
    obtain ⟨ha, hrest⟩ := hnd
    have hn : ∀ x ∈ inorder t, x.name_ ≠ a.name_ := by
      intro x hx hxn
      apply ha
      rw [List.mem_map]
      exact ⟨x, List.mem_append_right _ hx, hxn⟩
    rw [addRecipe_new t a hn]
    apply ih
    have hp : (xs ++ inorder (placeNode t a)).Perm (a :: (xs ++ inorder t)) :=
      (List.Perm.append_left xs (inorder_placeNode_perm t a)).trans List.perm_middle
    rw [(hp.map _).nodup_iff, List.map_cons, List.nodup_cons]
    exact ⟨ha, hrest⟩

/-- Insertions below a node: the recipes with a name below the name at the node go to the
left subtree and the others to the right subtree, each in their order. -/
theorem foldl_placeNode_node (xs : List Recipe) (left right : RecipeTree) (item : Recipe) :
    xs.foldl placeNode (.node left item right) =
      .node ((xs.filter (fun y => decide (item.name_ > y.name_))).foldl placeNode left) item
        ((xs.filter (fun y => !decide (item.name_ > y.name_))).foldl placeNode right) := by
  induction xs generalizing left right with
  | nil => rfl
  | cons a xs ih =>
    rw [List.foldl_cons]
    by_cases h : item.name_ > a.name_
    · rw [show placeNode (.node left item right) a = .node (placeNode left a) item right from by
        simp only [placeNode, if_pos h]]
      rw [ih, List.filter_cons_of_pos (by simpa using h),
        List.filter_cons_of_neg (by simpa using h), List.foldl_cons]
    · rw [show placeNode (.node left item right) a = .node left item (placeNode right a) from by
        simp only [placeNode, if_neg h]]
      rw [ih, List.filter_cons_of_neg (by simpa using h),
        List.filter_cons_of_pos (by simpa using h), List.foldl_cons]

/-- Pre-order and in-order list the same recipes. -/
theorem preorder_perm (t : RecipeTree) : (preorder t).Perm (inorder t) := by
  induction t with
  | nil => exact List.Perm.refl _
  | node left item right ihl ihr =>
    simp only [preorder, inorder]
    exact ((List.Perm.append ihl ihr).cons item).trans List.perm_middle.symm

/-- Inserting the recipes of a search tree in pre-order into the empty tree rebuilds the
tree. -/
theorem foldl_placeNode_preorder (t : RecipeTree) (hs : NameSorted (inorder t)) :
    (preorder t).foldl placeNode .nil = t := by
  induction t with
  | nil => rfl
  | node left item right ihl ihr =>
    unfold NameSorted at hs ihl ihr
    simp only [inorder] at hs
    rw [List.pairwise_append] at hs
    obtain ⟨hl, hir, hlr⟩ := hs
    rw [List.pairwise_cons] at hir
    obtain ⟨hi, hr⟩ := hir
    have hleft : ∀ a ∈ preorder left, item.name_ > a.name_ := fun a ha =>
      hlr a ((preorder_perm left).mem_iff.1 ha) item (List.mem_cons_self _ _)
    have hright : ∀ a ∈ preorder right, ¬ item.name_ > a.name_ := fun a ha =>
      lt_asymm (hi a ((preorder_perm right).mem_iff.1 ha))
    have f1 : (preorder left ++ preorder right).filter (fun y => decide (item.name_ > y.name_))
        = preorder left := by
      rw [List.filter_append, List.filter_eq_self.2 (fun a ha => by simpa using hleft a ha),
        List.filter_eq_nil_iff.2 (fun a ha => by simpa using hright a ha), List.append_nil]
    have f2 : (preorder left ++ preorder right).filter (fun y => !decide (item.name_ > y.name_))
        = preorder right := by
      rw [List.filter_append, List.filter_eq_nil_iff.2 (fun a ha => by simpa using hleft a ha),
        List.filter_eq_self.2 (fun a ha => by simpa using hright a ha), List.nil_append]
    simp only [preorder, List.foldl_cons]
    rw [show placeNode .nil item = .node .nil item .nil from rfl, foldl_placeNode_node, f1, f2,
      ihl hl, ihr hr]

/-! ### The rebuilt tree -/

/-- The length of the part before and of the part after the middle of a list. -/
theorem middle_lengths (l : List Recipe) (hl : 0 < l.length) :
    (l.take ((l.length - 1) / 2)).length = (l.length - 1) / 2 ∧
      (l.drop ((l.length - 1) / 2 + 1)).length = l.length / 2 := by
  rw [List.length_take, List.length_drop]
  omega

/-- One step of `buildTree` on a list that is not empty. -/
theorem buildTree_succ (fuel : Nat) (l : List Recipe) (hl : 0 < l.length) :
    ∃ item, l[(l.length - 1) / 2]? = some item ∧
      l = l.take ((l.length - 1) / 2) ++ item :: l.drop ((l.length - 1) / 2 + 1) ∧
      buildTree (fuel + 1) l =
        .node (buildTree fuel (l.take ((l.length - 1) / 2))) item
          (buildTree fuel (l.drop ((l.length - 1) / 2 + 1))) := by
  have hm : (l.length - 1) / 2 < l.length := by omega
  refine ⟨l[(l.length - 1) / 2], List.getElem?_eq_getElem hm, ?_, ?_⟩
  · rw [List.getElem_cons_drop, List.take_append_drop]
  · rw [buildTree, List.getElem?_eq_getElem hm]

/-- The tree built from the empty list is empty. -/
theorem buildTree_nil (fuel : Nat) : buildTree fuel [] = .nil := by
  cases fuel <;> rfl

/-- The in-order list of the built tree is the list it was built from. -/
theorem inorder_buildTree (fuel : Nat) (l : List Recipe) (h : l.length ≤ fuel) :
    inorder (buildTree fuel l) = l := by
  induction fuel generalizing l with
  | zero =>
    have : l = [] := List.length_eq_zero.1 (by omega)
    subst this
    rfl
  | succ fuel ih =>
    rcases Nat.eq_zero_or_pos l.length with h0 | hl
    · have : l = [] := List.length_eq_zero.1 h0
      subst this
      rfl
    · obtain ⟨item, _, hsplit, hb⟩ := buildTree_succ fuel l hl
      obtain ⟨h1, h2⟩ := middle_lengths l hl
      rw [hb, inorder, ih _ (by omega), ih _ (by omega)]
      exact hsplit.symm

/-- Halving a positive number takes one binary digit away. -/
theorem size_half (n : Nat) (h : 0 < n) : Nat.size n = Nat.size (n / 2) + 1 := by
  apply le_antisymm
  · rw [Nat.size_le]
    have : n / 2 < 2 ^ (Nat.size (n / 2)) := Nat.size_le.1 le_rfl
    rw [pow_succ]; omega
  · show Nat.size (n / 2) < Nat.size n
    rw [Nat.lt_size]
    rcases Nat.eq_zero_or_pos (n / 2) with h0 | h0
    · rw [h0]; simp; omega
    · have hk : 0 < Nat.size (n / 2) := Nat.size_pos.2 h0
      have : Nat.size (n / 2) - 1 < Nat.size (n / 2) := by omega
      rw [Nat.lt_size] at this
      have e : 2 ^ Nat.size (n / 2) = 2 ^ (Nat.size (n / 2) - 1) * 2 := by
        rw [← pow_succ]; congr 1; omega
      rw [e]; omega

/-- One more recipe adds at most one binary digit to the count. -/
theorem size_succ_le (n : Nat) : Nat.size (n + 1) ≤ Nat.size n + 1 := by
  rw [Nat.size_le]
  have : n < 2 ^ Nat.size n := Nat.size_le.1 le_rfl
  rw [pow_succ]; omega

/-- The heights of the two parts around the middle of `n` recipes. -/
theorem size_halves (n : Nat) (h : 0 < n) :
    Nat.size ((n - 1) / 2) ≤ Nat.size (n / 2) ∧
      Nat.size (n / 2) ≤ Nat.size ((n - 1) / 2) + 1 := by
  refine ⟨Nat.size_le_size (by omega), ?_⟩
  rcases Nat.lt_or_ge ((n - 1) / 2) (n / 2) with hlt | hge
  · have e : n / 2 = (n - 1) / 2 + 1 := by omega
    rw [e]
    exact size_succ_le _
  · have e : n / 2 = (n - 1) / 2 := by omega
    rw [e]
    exact Nat.le_succ _

/-- The height of the built tree is the number of binary digits of the number of
recipes. -/
theorem height_buildTree (fuel : Nat) (l : List Recipe) (h : l.length ≤ fuel) :
    height (buildTree fuel l) = Nat.size l.length := by
  induction fuel generalizing l with
  | zero =>
    have : l = [] := List.length_eq_zero.1 (by omega)
    subst this
    simp [buildTree, height]
  | succ fuel ih =>
    rcases Nat.eq_zero_or_pos l.length with h0 | hl
    · have : l = [] := List.length_eq_zero.1 h0
      subst this
      simp [buildTree, height]
    · obtain ⟨item, _, _, hb⟩ := buildTree_succ fuel l hl
      obtain ⟨h1, h2⟩ := middle_lengths l hl
      obtain ⟨s1, _⟩ := size_halves l.length hl
      rw [hb, height, ih _ (by omega), ih _ (by omega), h1, h2, size_half l.length hl,
        max_eq_right s1]

/-- At every node of the built tree the heights of the two subtrees differ by at most
1. -/
theorem balanced_buildTree (fuel : Nat) (l : List Recipe) (h : l.length ≤ fuel) :
    Balanced (buildTree fuel l) := by
  induction fuel generalizing l with
  | zero =>
    have : l = [] := List.length_eq_zero.1 (by omega)
    subst this
    trivial
  | succ fuel ih =>
    rcases Nat.eq_zero_or_pos l.length with h0 | hl
    · have : l = [] := List.length_eq_zero.1 h0
      subst this
      trivial
    · obtain ⟨item, _, _, hb⟩ := buildTree_succ fuel l hl
      obtain ⟨h1, h2⟩ := middle_lengths l hl
      obtain ⟨s1, s2⟩ := size_halves l.length hl
      rw [hb]
      refine ⟨?_, ih _ (by omega), ih _ (by omega)⟩
      rw [height_buildTree fuel _ (by omega), height_buildTree fuel _ (by omega), h1, h2]
      omega

/-! ### `balanceHelper` and `balance` -/

/-- On the range of `len` recipes that starts at index `s`, `balanceHelper` calls
`addRecipe` with the recipes of the range in the pre-order of the tree built from
them. -/
theorem balanceHelper_eq (recipes : List Recipe) (fuel s len : Nat) (root : RecipeTree)
    (h1 : s + len ≤ recipes.length) (h2 : len ≤ fuel) :
    balanceHelper recipes fuel (s : Int) ((s : Int) + (len : Int) - 1) root =
      addRecipes root (preorder (buildTree fuel ((recipes.drop s).take len))) := by
  induction fuel generalizing s len root with
  | zero => rfl
  | succ fuel ih =>
    rcases Nat.eq_zero_or_pos len with h0 | hl
    · subst h0
      rw [balanceHelper, if_pos (by push_cast; omega), List.take_zero, buildTree_nil]
      rfl
    · have hlen : ((recipes.drop s).take len).length = len := by
        rw [List.length_take, List.length_drop]; omega
      obtain ⟨item, hget, _, hb⟩ := buildTree_succ fuel ((recipes.drop s).take len)
        (by rw [hlen]; exact hl)
      rw [hlen] at hget hb
      have hm : (len - 1) / 2 < len := by omega
      rw [List.getElem?_take, if_pos hm, List.getElem?_drop] at hget
      have hmid : (s : Int) + ((s : Int) + (len : Int) - 1 - (s : Int)).tdiv 2
          = ((s + (len - 1) / 2 : Nat) : Int) := by
        rw [Int.tdiv_eq_ediv (by omega) (by omega)]
        push_cast
        omega
      have e1 : ((s + (len - 1) / 2 : Nat) : Int) - 1
          = (s : Int) + (((len - 1) / 2 : Nat) : Int) - 1 := by
        push_cast; ring
      have e2 : ((s + (len - 1) / 2 : Nat) : Int) + 1
          = ((s + (len - 1) / 2 + 1 : Nat) : Int) := by
        push_cast; ring
      have e3 : (s : Int) + (len : Int) - 1
          = ((s + (len - 1) / 2 + 1 : Nat) : Int) + ((len - ((len - 1) / 2 + 1) : Nat) : Int) - 1 := by
        omega
      have t1 : ((recipes.drop s).take len).take ((len - 1) / 2)
          = (recipes.drop s).take ((len - 1) / 2) := by
        rw [List.take_take, min_eq_left (by omega)]
      have t2 : ((recipes.drop s).take len).drop ((len - 1) / 2 + 1)
          = (recipes.drop (s + (len - 1) / 2 + 1)).take (len - ((len - 1) / 2 + 1)) := by
        rw [List.drop_take, List.drop_drop, Nat.add_assoc]
      rw [hb, t1, t2]
      rw [balanceHelper, if_neg (by omega)]
      simp only [hmid, Int.toNat_ofNat, hget]
      rw [e1, e2]
      rw [ih s ((len - 1) / 2) _ (by omega) (by omega)]
      nth_rewrite 1 [e3]
      rw [ih (s + (len - 1) / 2 + 1) (len - ((len - 1) / 2 + 1)) _ (by omega) (by omega)]
      simp only [addRecipes, preorder, List.foldl_cons, List.foldl_append]

/-- The vector `balance` collects is the in-order list of the book. -/
theorem collect_inorder (t : RecipeTree) :
    inorderHelper (fun (v : List Recipe) r => v ++ [r]) t [] = inorder t := by
  rw [inorderHelper_foldl]
  have h : ∀ (l init : List Recipe),
      l.foldl (fun (v : List Recipe) r => v ++ [r]) init = init ++ l := by
    intro l
    induction l with
    | nil => intro init; simp
    | cons a l ih => intro init; rw [List.foldl_cons, ih]; simp
  rw [h]
  rfl

/-- On a book whose in-order list is strictly sorted by name, `balance` leaves the tree
built from that list. -/
theorem balance_eq (t : RecipeTree) (hs : NameSorted (inorder t)) :
    balance t = buildTree (inorder t).length (inorder t) := by
  unfold balance
  simp only [collect_inorder, clearBook]
  have h := balanceHelper_eq (inorder t) (inorder t).length 0 (inorder t).length .nil
    (by omega) le_rfl
  simp only [Nat.cast_zero, zero_add, List.drop_zero, List.take_length] at h
  rw [h]
  have hin : inorder (buildTree (inorder t).length (inorder t)) = inorder t :=
    inorder_buildTree _ _ le_rfl
  have hnd : ((inorder t).map (fun r => r.name_)).Nodup := by
    unfold NameSorted at hs
    rw [List.Nodup, List.pairwise_map]
    exact hs.imp (fun hab => ne_of_lt hab)
  rw [addRecipes_eq_foldl]
  · exact foldl_placeNode_preorder _ (by rw [hin]; exact hs)
  · have hp : (preorder (buildTree (inorder t).length (inorder t)) ++ inorder RecipeTree.nil).Perm
        (inorder t) := by
      simp only [inorder, List.append_nil]
      have hpre := preorder_perm (buildTree (inorder t).length (inorder t))
      rw [hin] at hpre
      exact hpre
    rw [(hp.map _).nodup_iff]
    exact hnd

/-- Claim C27: on a book whose in-order list is strictly sorted by name (which every book
built by `addRecipe` calls is, see `addRecipes_sorted`), after `balance` the heights
of the left and the right subtree differ by at most 1 at every node and the in-order
sequence of recipes is the one before the call. -/
theorem balance_spec (t : RecipeTree) (hs : NameSorted (inorder t)) :
    Balanced (balance t) ∧ inorder (balance t) = inorder t := by
  rw [balance_eq t hs]
  exact ⟨balanced_buildTree _ _ le_rfl, inorder_buildTree _ _ le_rfl⟩

/-- The claim C27 at the chain book `A`, `B`, `C`: `balance` puts `B` at the root. -/
theorem balance_spec_witness :
    NameSorted (inorder chainBook) ∧
      (Balanced (balance chainBook) ∧ inorder (balance chainBook) = inorder chainBook) :=
  have hab : "A" < "B" := by rw [String.lt_iff_toList_lt]; decide
  have hac : "A" < "C" := by rw [String.lt_iff_toList_lt]; decide
  have hbc : "B" < "C" := by rw [String.lt_iff_toList_lt]; decide
  have hs : NameSorted (inorder chainBook) := by
    show List.Pairwise (fun a b => a.name_ < b.name_) [recipeA, recipeB, recipeC]
    refine List.Pairwise.cons ?_ (List.Pairwise.cons ?_ (List.Pairwise.cons ?_ List.Pairwise.nil))
    · intro b hb
      rcases List.mem_cons.1 hb with rfl | hb
      · exact hab
      · rcases List.mem_cons.1 hb with rfl | hb
        · exact hac
        · cases hb
    · intro b hb
      rcases List.mem_cons.1 hb with rfl | hb
      · exact hbc
      · cases hb
    · intro b hb
      cases hb
  ⟨hs, balance_spec chainBook hs⟩

/-! ## The two `canCompleteOrder` methods, self-merge, a failed pass -/

theorem canScan5_true_iff (dish_ingredient : Ingredient) (stock : List Ingredient) :
    canScan5 dish_ingredient stock = true ↔
      ∃ e ∈ stock, e.name = dish_ingredient.name ∧
        e.quantity ≥ dish_ingredient.required_quantity := by
  induction stock with
  | nil => simp [canScan5]
  | cons a rest ih =>
    unfold canScan5
    by_cases h : a.name = dish_ingredient.name ∧ a.quantity ≥ dish_ingredient.required_quantity
    · rw [if_pos h]
      exact ⟨fun _ => ⟨a, List.mem_cons_self _ _, h⟩, fun _ => rfl⟩
    · rw [if_neg h, ih]
      constructor
      · rintro ⟨e, he, hn⟩
        exact ⟨e, List.mem_cons_of_mem _ he, hn⟩
      · rintro ⟨e, he, hn⟩
        rcases List.mem_cons.1 he with rfl | he
        · exact absurd hn h
        · exact ⟨e, he, hn⟩

/-- On a ledger with one entry per name the scans of the two projects agree. -/
theorem canScan5_eq (dish_ingredient : Ingredient) (stock : List Ingredient)
    (hu : UniqueNames stock) :
    canScan5 dish_ingredient stock = true ↔ canScan dish_ingredient stock false = some true := by
  rw [canScan5_true_iff, canScan_true_iff]
  constructor
  · rintro ⟨e, he, hn, hq⟩
    refine ⟨fun e1 he1 hn1 => ?_, Or.inr ⟨e, he, hn⟩⟩
    have : e1 = e := unique_entry hu he1 he (hn1.trans hn.symm)
    rw [this]
    exact hq
  · rintro ⟨hall, hex⟩
    rcases hex with hf | ⟨e, he, hn⟩
    · cases hf
    · exact ⟨e, he, hn, hall e he hn⟩

theorem canIngredients5_eq (stock : List Ingredient) (hu : UniqueNames stock)
    (ingredients : List Ingredient) :
    canIngredients5 stock ingredients = canIngredients stock ingredients := by
  induction ingredients with
  | nil => rfl
  | cons x rest ih =>
    unfold canIngredients5 canIngredients
    by_cases h5 : canScan5 x stock = true
    · rw [if_pos h5, (canScan5_eq x stock hu).1 h5]
      exact ih
    · rw [if_neg h5]
      have h6 : canScan x stock false ≠ some true := fun h => h5 ((canScan5_eq x stock hu).2 h)
      cases hc : canScan x stock false with
      | none => rfl
      | some b =>
        cases b with
        | false => rfl
        | true => exact absurd hc h6

theorem canDishes5_eq (stock : List Ingredient) (hu : UniqueNames stock) (dish_name : String)
    (dishes : List Dish) :
    canDishes5 stock dish_name dishes = canDishes stock dish_name dishes := by
  induction dishes with
  | nil => rfl
  | cons d rest ih =>
    unfold canDishes5 canDishes
    by_cases h : d.name_ = dish_name
    · rw [if_pos h, if_pos h]
      exact canIngredients5_eq stock hu d.ingredients_
    · rw [if_neg h, if_neg h]
      exact ih

/-- Claim C39: for every station whose ledger has at most one entry per ingredient name
and every dish name, the project-5 and the project-6 `canCompleteOrder` return the same
result. -/
theorem canCompleteOrder5_eq (s : KitchenStation) (dish_name : String)
    (hu : UniqueNames s.ingredients_stock_) :
    s.canCompleteOrder5 dish_name = s.canCompleteOrder dish_name :=
  canDishes5_eq s.ingredients_stock_ hu dish_name s.dishes_

/-- The claim C39 at a station that can complete its dish and at one that cannot. -/
theorem canCompleteOrder5_eq_witness :
    UniqueNames pantryStation.ingredients_stock_ ∧
      pantryStation.canCompleteOrder "D" = true ∧
      pantryStation.canCompleteOrder5 "D" = pantryStation.canCompleteOrder "D" ∧
      shortStation.canCompleteOrder "D" = false ∧
      shortStation.canCompleteOrder5 "D" = false :=
  ⟨by decide, by decide, canCompleteOrder5_eq pantryStation "D" (by decide), by decide,
    by decide⟩

/-- Claim C37: a replenishment pass that fails part-way is not rolled back.  In
`partialManager` the dish `D` needs one `A` and one `B`, the ledger of `Grill` is
empty and the backup store holds five `A` and no `B`: the pass reports failure, `D` is
not prepared and stays in the queue, and afterwards the backup store holds four `A`
while the one `A` it lost sits in the ledger of `Grill`. -/
theorem replenishPass_not_rolled_back :
    replenishPass 0 comboDish.ingredients_ partialManager =
      (false, ⟨[⟨"Grill", [comboDish], [⟨"A", 1, 0, 0⟩]⟩], [comboDish], [⟨"A", 4, 0, 0⟩]⟩) ∧
    (attemptDish comboDish partialManager).1 = false ∧
    partialManager.processAllDishes =
      ⟨[⟨"Grill", [comboDish], [⟨"A", 1, 0, 0⟩]⟩], [comboDish], [⟨"A", 4, 0, 0⟩]⟩ ∧
    totalQuantity "A" partialManager.backup_ingredients_ = 5 ∧
    totalQuantity "A" partialManager.processAllDishes.backup_ingredients_ = 4 := by
  decide

/-- Claim C38: `mergeStations(n, n)` with an existing station name `n` given twice returns
true and removes the station `findStation` yields for `n`: the list is the old list
without the station at that position, one shorter, every other station as it was, the
queue and the backup store untouched; with distinct station names no station named `n`
is left. -/
theorem mergeStations_self (m : StationManager) (station_name : String) (i : Nat)
    (hf : findStation station_name m.stations = some i) :
    m.mergeStations station_name station_name =
      (true, { m with stations := m.stations.eraseIdx i }) ∧
    (m.mergeStations station_name station_name).2.stations.length + 1 = m.stations.length ∧
    ((m.stations.map (fun st => st.station_name_)).Nodup →
      ∀ st ∈ (m.mergeStations station_name station_name).2.stations,
        st.station_name_ ≠ station_name) := by
  obtain ⟨pre, s, post, hd, hlen, hpre, hs⟩ := findStation_some_split _ _ _ hf
  have hg : m.stations[i]? = some s := by
    rw [hd, ← hlen]; exact getElem?_at pre post s
  have hname : (replenishAll s.ingredients_stock_ (assignAll s.dishes_ s)).station_name_
      = station_name := by
    rw [(replenishAll_quantity "" s.ingredients_stock_ _).2.2, (assignAll_ledger s.dishes_ s).2]
    exact hs
  have hres : m.mergeStations station_name station_name =
      (true, { m with stations := pre ++ post }) := by
    rw [mergeStations_eq m _ _ _ _ s hf hf hg]
    have hl : m.stations.length = (pre ++ s :: post).length := by rw [hd]
    rw [hl, hd, ← hlen, modifyAt_middle, modifyAt_middle,
      removeStationScan_split station_name pre post _ hpre hname _ 0 (Nat.zero_le _)
        (by simp only [List.length_append, List.length_cons]; omega)]
  have herase : m.stations.eraseIdx i = pre ++ post := by
    rw [hd, ← hlen, eraseIdx_middle]
  refine ⟨by rw [hres, herase], ?_, ?_⟩
  · rw [hres, hd]
    simp only [List.length_append, List.length_cons]
    omega
  · intro hnd st hst
    rw [hres] at hst
    rw [hd, List.map_append, List.map_cons, List.nodup_append] at hnd
    obtain ⟨_, hnd2, hdis⟩ := hnd
    rcases List.mem_append.1 hst with hp | hp
    · exact hpre st hp
    · intro hn
      have h1 := (List.nodup_cons.1 hnd2).1
      apply h1
      rw [List.mem_map]
      exact ⟨st, hp, by rw [hn, hs]⟩

/-- The claim C38 at `lineManager`: merging `Fryer` with itself leaves `Grill` and
`Oven`. -/
theorem mergeStations_self_witness :
    findStation "Fryer" lineManager.stations = some 1 ∧
      (lineManager.mergeStations "Fryer" "Fryer" =
          (true, { lineManager with stations := lineManager.stations.eraseIdx 1 }) ∧
        (lineManager.mergeStations "Fryer" "Fryer").2.stations.length + 1
          = lineManager.stations.length ∧
        ((lineManager.stations.map (fun st => st.station_name_)).Nodup →
          ∀ st ∈ (lineManager.mergeStations "Fryer" "Fryer").2.stations,
            st.station_name_ ≠ "Fryer")) :=
  ⟨by decide, mergeStations_self lineManager "Fryer" 1 (by decide)⟩

/-! ## What `processAllDishes` leaves alone -/

/-- The queue field of the manager handed to the queue loop does not matter: the loop
reads the items from its first argument and overwrites the field. -/
theorem processLoop_input_queue :
    ∀ (items temp_queue queue : List Dish) (m : StationManager),
      processLoop items temp_queue { m with dish_queue_ := queue } =
        processLoop items temp_queue m := by
  intro items
  induction items with
  | nil => intro temp_queue queue m; rfl
  | cons d rest ih =>
    intro temp_queue queue m
    unfold processLoop
    by_cases hn : d.name_ = ""
    · rw [if_pos hn, if_pos hn]
    · rw [if_neg hn, if_neg hn, attemptDish_queue]

/-- The queue loop over a list equals the queue loop over the list without its
empty-named items. -/
theorem processLoop_filter :
    ∀ (items temp_queue : List Dish) (m : StationManager),
      processLoop items temp_queue m =
        processLoop (items.filter (fun d => decide (d.name_ ≠ ""))) temp_queue m := by
  intro items
  induction items with
  | nil => intro temp_queue m; rfl
  | cons d rest ih =>
    intro temp_queue m
    by_cases hn : d.name_ = ""
    · rw [List.filter_cons_of_neg (by simpa using hn)]
      rw [processLoop, if_pos hn, processLoop_input_queue, ih]
    · rw [List.filter_cons_of_pos (by simpa using hn)]
      rw [processLoop, if_neg hn]
      conv_rhs => rw [processLoop, if_neg hn]
      dsimp only
      by_cases hp : (attemptDish d m).1 = true
      · rw [if_pos hp, if_pos hp, processLoop_input_queue rest,
          processLoop_input_queue (List.filter _ rest), ih]
      · rw [if_neg hp, if_neg hp, processLoop_input_queue rest,
          processLoop_input_queue (List.filter _ rest), ih]

/-- Claim C35: `processAllDishes` discards every queued item whose name is empty.  No
such item is in the resulting queue; the step that handles one hands the stations and
the backup store on as they are; and the whole run ends in the state it ends in when
the empty-named items are taken out of the queue beforehand. -/
theorem processAllDishes_discards_unnamed (m : StationManager) :
    (∀ d ∈ m.processAllDishes.dish_queue_, d.name_ ≠ "") ∧
    (∀ (d : Dish) (rest temp_queue : List Dish) (m0 : StationManager), d.name_ = "" →
      processLoop (d :: rest) temp_queue m0 =
        processLoop rest temp_queue
          ⟨m0.stations, rest, m0.backup_ingredients_⟩) ∧
    m.processAllDishes =
      ({ m with dish_queue_ := m.dish_queue_.filter (fun d => decide (d.name_ ≠ "")) }
        : StationManager).processAllDishes := by
  refine ⟨?_, ?_, ?_⟩
  · intro d hd
    unfold StationManager.processAllDishes at hd
    rw [processLoop_queue, List.nil_append] at hd
    exact keptQueue_named _ _ d hd
  · intro d rest temp_queue m0 hn
    rw [processLoop, if_pos hn]
  · unfold StationManager.processAllDishes
    dsimp only
    rw [processLoop_input_queue (List.filter _ m.dish_queue_), ← processLoop_filter]

theorem getElem?_modifyAt_ne (f : KitchenStation → KitchenStation) :
    ∀ (l : List KitchenStation) (i j : Nat), j ≠ i → (modifyAt f i l)[j]? = l[j]? := by
  intro l
  induction l with
  | nil => intro i j _; cases i <;> rfl
  | cons a rest ih =>
    intro i j hij
    cases i with
    | zero =>
      cases j with
      | zero => exact absurd rfl hij
      | succ j => rfl
    | succ i =>
      cases j with
      | zero => simp [modifyAt]
      | succ j =>
        simp only [modifyAt, List.getElem?_cons_succ]
        exact ih i j (fun h => hij (by rw [h]))

theorem getElem?_modifyAt_eq (f : KitchenStation → KitchenStation) :
    ∀ (l : List KitchenStation) (i : Nat) (st : KitchenStation), l[i]? = some st →
      (modifyAt f i l)[i]? = some (f st) := by
  intro l
  induction l with
  | nil => intro i st h; simp at h
  | cons a rest ih =>
    intro i st h
    cases i with
    | zero =>
      simp only [List.getElem?_cons_zero, Option.some.injEq] at h
      subst h
      simp [modifyAt]
    | succ i =>
      simp only [List.getElem?_cons_succ] at h
      simp only [modifyAt, List.getElem?_cons_succ]
      exact ih i st h

theorem roster_modifyAt (f : KitchenStation → KitchenStation)
    (hf : ∀ st, (f st).station_name_ = st.station_name_ ∧ (f st).dishes_ = st.dishes_) :
    ∀ (l : List KitchenStation) (i : Nat), roster (modifyAt f i l) = roster l := by
  intro l
  induction l with
  | nil => intro i; cases i <;> rfl
  | cons a rest ih =>
    intro i
    cases i with
    | zero =>
      simp only [modifyAt, roster, List.map_cons, (hf a).1, (hf a).2]
    | succ i =>
      have := ih i
      simp only [roster] at this
      simp only [modifyAt, roster, List.map_cons, this]

theorem roster_set :
    ∀ (l : List KitchenStation) (i : Nat) (st st1 : KitchenStation), l[i]? = some st →
      st1.station_name_ = st.station_name_ → st1.dishes_ = st.dishes_ →
      roster (l.set i st1) = roster l := by
  intro l
  induction l with
  | nil => intro i st st1 h; simp at h
  | cons a rest ih =>
    intro i st st1 h h1 h2
    cases i with
    | zero =>
      simp only [List.getElem?_cons_zero, Option.some.injEq] at h
      subst h
      simp only [List.set_cons_zero, roster, List.map_cons, h1, h2]
    | succ i =>
      simp only [List.getElem?_cons_succ] at h
      have := ih i st st1 h h1 h2
      simp only [roster] at this
      simp only [List.set_cons_succ, roster, List.map_cons, this]

/-- The station names are read off the roster. -/
theorem names_of_roster (l : List KitchenStation) :
    l.map (fun st => st.station_name_) = (roster l).map (fun p => p.1) := by
  simp [roster, List.map_map, Function.comp_def]

theorem names_of_roster_eq {l1 l2 : List KitchenStation} (h : roster l1 = roster l2) :
    l1.map (fun st => st.station_name_) = l2.map (fun st => st.station_name_) := by
  rw [names_of_roster, names_of_roster, h]

/-- Equal rosters have the same length and, position by position, stations with the
same name and the same dishes. -/
theorem roster_getElem? :
    ∀ (l1 l2 : List KitchenStation), roster l1 = roster l2 → ∀ (j : Nat) (st : KitchenStation),
      l1[j]? = some st →
      ∃ st1, l2[j]? = some st1 ∧ st1.station_name_ = st.station_name_ ∧
        st1.dishes_ = st.dishes_ := by
  intro l1
  induction l1 with
  | nil => intro l2 _ j st h; simp at h
  | cons a rest ih =>
    intro l2 hr j st h
    cases l2 with
    | nil => simp [roster] at hr
    | cons b rest2 =>
      simp only [roster, List.map_cons, List.cons.injEq, Prod.mk.injEq] at hr
      obtain ⟨⟨hn, hd⟩, hrest⟩ := hr
      cases j with
      | zero =>
        simp only [List.getElem?_cons_zero, Option.some.injEq] at h
        subst h
        exact ⟨b, by simp, hn.symm, hd.symm⟩
      | succ j =>
        simp only [List.getElem?_cons_succ] at h ⊢
        exact ih rest2 hrest j st h

theorem roster_length {l1 l2 : List KitchenStation} (h : roster l1 = roster l2) :
    l1.length = l2.length := by
  have := congrArg List.length h
  simpa [roster] using this

/-- With distinct station names `findStation` of the name of the station at position `i`
yields `i`. -/
theorem findStation_nodup :
    ∀ (l : List KitchenStation) (i : Nat) (st : KitchenStation),
      (l.map (fun st => st.station_name_)).Nodup → l[i]? = some st →
      findStation st.station_name_ l = some i := by
  intro l
  induction l with
  | nil => intro i st _ h; simp at h
  | cons a rest ih =>
    intro i st hnd h
    rw [List.map_cons, List.nodup_cons] at hnd
    cases i with
    | zero =>
      simp only [List.getElem?_cons_zero, Option.some.injEq] at h
      subst h
      simp [findStation]
    | succ i =>
      simp only [List.getElem?_cons_succ] at h
      have hmem : st ∈ rest := by
        obtain ⟨hlt, he⟩ := List.getElem?_eq_some_iff.1 h
        rw [← he]
        exact List.getElem_mem _
      have hne : ¬ a.station_name_ = st.station_name_ := by
        intro he
        apply hnd.1
        rw [he, List.mem_map]
        exact ⟨st, hmem, rfl⟩
      unfold findStation
      rw [if_neg hne, ih i st hnd.2 h]

theorem findStation_getElem (station_name : String) (l : List KitchenStation) (i : Nat)
    (h : findStation station_name l = some i) :
    ∃ st, l[i]? = some st ∧ st.station_name_ = station_name := by
  obtain ⟨pre, st, post, hd, hlen, _, hs⟩ := findStation_some_split _ _ _ h
  refine ⟨st, ?_, hs⟩
  rw [hd, ← hlen]
  exact getElem?_at pre post st

/-- A withdrawal keeps the roster and the queue, and leaves every station alone whose
name is not the one it was called with. -/
theorem replenishFromBackup_frame (m : StationManager)
    (station_name ingredient_name : String) (quantity : Int) :
    roster (m.replenishStationIngredientFromBackup station_name ingredient_name
        quantity).2.stations = roster m.stations ∧
    (∀ (j : Nat) (st : KitchenStation), m.stations[j]? = some st →
      st.station_name_ ≠ station_name →
      (m.replenishStationIngredientFromBackup station_name ingredient_name
        quantity).2.stations[j]? = some st) := by
  unfold StationManager.replenishStationIngredientFromBackup
  cases hf : findStation station_name m.stations with
  | none => exact ⟨rfl, fun j st h _ => h⟩
  | some i =>
    cases hb : backupScan ingredient_name quantity m.backup_ingredients_ with
    | none => exact ⟨rfl, fun j st h _ => h⟩
    | some p =>
      obtain ⟨r, backup1⟩ := p
      dsimp only
      refine ⟨roster_modifyAt (fun st => st.replenishStationIngredients r)
        (fun st => ⟨rfl, rfl⟩) _ _, ?_⟩
      intro j st h hne
      obtain ⟨sti, hsti, hn⟩ := findStation_getElem _ _ _ hf
      have hji : j ≠ i := by
        intro he
        rw [he, hsti] at h
        cases h
        exact hne hn
      rw [getElem?_modifyAt_ne _ _ _ _ hji]
      exact h

/-- A successful withdrawal for the station that `findStation` yields: the backup scan
found an entry, the station received it, and the backup store is what the scan left. -/
theorem replenishFromBackup_at (m : StationManager)
    (station_name ingredient_name : String) (quantity : Int) (i : Nat) (st : KitchenStation)
    (hf : findStation station_name m.stations = some i) (hst : m.stations[i]? = some st)
    (hok : (m.replenishStationIngredientFromBackup station_name ingredient_name quantity).1
      = true) :
    ∃ r backup1, backupScan ingredient_name quantity m.backup_ingredients_ = some (r, backup1) ∧
      r.name = ingredient_name ∧ r.quantity = quantity ∧
      (m.replenishStationIngredientFromBackup station_name ingredient_name
        quantity).2.stations[i]? = some (st.replenishStationIngredients r) ∧
      (m.replenishStationIngredientFromBackup station_name ingredient_name
        quantity).2.backup_ingredients_ = backup1 := by
  obtain ⟨i1, r, backup1, hf1, hb, heq⟩ := replenishFromBackup_true m _ _ _ hok
  rw [hf] at hf1
  cases hf1
  obtain ⟨hn, hq, _, _⟩ := backupScan_some _ _ _ _ _ hb
  refine ⟨r, backup1, hb, hn, hq, ?_, ?_⟩
  · rw [heq]
    exact getElem?_modifyAt_eq _ _ _ _ hst
  · rw [heq]

theorem stockLookup_some (n : String) (stock : List Ingredient) (q : Int)
    (h : stockLookup n stock = some q) : (∃ e ∈ stock, e.name = n) ∧ onHand n stock = q := by
  induction stock with
  | nil => cases h
  | cons a rest ih =>
    unfold stockLookup at h
    by_cases hn : n = a.name
    · rw [if_pos hn] at h
      cases h
      exact ⟨⟨a, List.mem_cons_self _ _, hn.symm⟩, onHand_cons_eq n a rest hn.symm⟩
    · rw [if_neg hn] at h
      obtain ⟨⟨e, he, hen⟩, hq⟩ := ih h
      refine ⟨⟨e, List.mem_cons_of_mem _ he, hen⟩, ?_⟩
      rw [onHand_cons_ne n a rest (fun h1 => hn h1.symm)]
      exact hq

theorem stockLookup_none (n : String) (stock : List Ingredient)
    (h : stockLookup n stock = none) : ∀ e ∈ stock, e.name ≠ n := by
  induction stock with
  | nil => intro e he; cases he
  | cons a rest ih =>
    unfold stockLookup at h
    by_cases hn : n = a.name
    · rw [if_pos hn] at h
      cases h
    · rw [if_neg hn] at h
      intro e he
      rcases List.mem_cons.1 he with rfl | he
      · exact fun h1 => hn h1.symm
      · exact ih h e he

/-- One turn of the replenishment loop.  Either the ledger of the station has an entry of
the name that holds the required quantity, and the loop goes on from the same state; or
the entry is short or missing, and the loop withdraws the required quantity less the
on-hand quantity for the station and goes on from the state the withdrawal leaves, or
stops when the withdrawal fails. -/
theorem replenishPass_step (i : Nat) (x : Ingredient) (rest : List Ingredient)
    (m : StationManager) (station : KitchenStation) (h : m.stations[i]? = some station) :
    ((∃ e ∈ station.ingredients_stock_, e.name = x.name) ∧
        x.required_quantity - onHand x.name station.ingredients_stock_ ≤ 0 ∧
        replenishPass i (x :: rest) m = replenishPass i rest m) ∨
    ((((∃ e ∈ station.ingredients_stock_, e.name = x.name) ∧
          0 < x.required_quantity - onHand x.name station.ingredients_stock_) ∨
        (∀ e ∈ station.ingredients_stock_, e.name ≠ x.name)) ∧
      replenishPass i (x :: rest) m =
        if (m.replenishStationIngredientFromBackup station.station_name_ x.name
            (x.required_quantity - onHand x.name station.ingredients_stock_)).1 then
          replenishPass i rest
            (m.replenishStationIngredientFromBackup station.station_name_ x.name
              (x.required_quantity - onHand x.name station.ingredients_stock_)).2
        else
          (false, (m.replenishStationIngredientFromBackup station.station_name_ x.name
            (x.required_quantity - onHand x.name station.ingredients_stock_)).2)) := by
  rw [replenishPass, h]
  dsimp only
  cases hl : stockLookup x.name station.ingredients_stock_ with
  | some availableQuantity =>
    obtain ⟨hex, hq⟩ := stockLookup_some _ _ _ hl
    dsimp only
    rw [hq]
    by_cases hd : x.required_quantity - availableQuantity > 0
    · right
      rw [if_pos hd]
      exact ⟨Or.inl ⟨hex, hd⟩, rfl⟩
    · left
      rw [if_neg hd]
      exact ⟨hex, by omega, rfl⟩
  | none =>
    have hno := stockLookup_none _ _ hl
    right
    dsimp only
    rw [onHand_absent _ _ hno, sub_zero]
    exact ⟨Or.inr hno, rfl⟩

/-- Without a station at position `i` the loop stops at its first turn. -/
theorem replenishPass_no_station (i : Nat) (x : Ingredient) (rest : List Ingredient)
    (m : StationManager) (h : m.stations[i]? = none) :
    replenishPass i (x :: rest) m = (false, m) := by
  rw [replenishPass, h]

/-- In a list with distinct station names, stations at different positions have
different names. -/
theorem nodup_names_ne (l : List KitchenStation)
    (hnd : (l.map (fun st => st.station_name_)).Nodup) (i j : Nat) (a b : KitchenStation)
    (ha : l[i]? = some a) (hb : l[j]? = some b) (hij : j ≠ i) :
    b.station_name_ ≠ a.station_name_ := by
  intro hn
  have h1 := findStation_nodup l i a hnd ha
  have h2 := findStation_nodup l j b hnd hb
  rw [hn, h1] at h2
  cases h2
  exact hij rfl

/-- The replenishment loop keeps the roster; in a manager with distinct station names it
leaves every station but the one at position `i` alone. -/
theorem replenishPass_frame (i : Nat) :
    ∀ (ingredients : List Ingredient) (m : StationManager),
      roster (replenishPass i ingredients m).2.stations = roster m.stations ∧
      ((m.stations.map (fun st => st.station_name_)).Nodup →
        ∀ (j : Nat) (st : KitchenStation), j ≠ i → m.stations[j]? = some st →
          (replenishPass i ingredients m).2.stations[j]? = some st) := by
  intro ingredients
  induction ingredients with
  | nil => intro m; exact ⟨rfl, fun _ j st _ h => h⟩
  | cons x rest ih =>
    intro m
    cases hst : m.stations[i]? with
    | none =>
      rw [replenishPass_no_station i x rest m hst]
      exact ⟨rfl, fun _ j st _ h => h⟩
    | some station =>
      rcases replenishPass_step i x rest m station hst with ⟨_, _, heq⟩ | ⟨_, heq⟩
      · rw [heq]
        exact ih m
      · rw [heq]
        obtain ⟨hr, hother⟩ := replenishFromBackup_frame m station.station_name_ x.name
          (x.required_quantity - onHand x.name station.ingredients_stock_)
        have hkeep : (m.stations.map (fun st => st.station_name_)).Nodup →
            ∀ (j : Nat) (st : KitchenStation), j ≠ i → m.stations[j]? = some st →
              (m.replenishStationIngredientFromBackup station.station_name_ x.name
                (x.required_quantity -
                  onHand x.name station.ingredients_stock_)).2.stations[j]? = some st :=
          fun hnd j st hji hj =>
            hother j st hj (nodup_names_ne m.stations hnd i j station st hst hj hji)
        split
        · obtain ⟨hr2, hother2⟩ := ih
            (m.replenishStationIngredientFromBackup station.station_name_ x.name
              (x.required_quantity - onHand x.name station.ingredients_stock_)).2
          refine ⟨hr2.trans hr, fun hnd j st hji hj => ?_⟩
          exact hother2 (by rw [names_of_roster_eq hr]; exact hnd) j st hji
            (hkeep hnd j st hji hj)
        · exact ⟨hr, hkeep⟩

theorem prepareDish_roster (s : KitchenStation) (dish_name : String) :
    (s.prepareDish dish_name).2.station_name_ = s.station_name_ ∧
      (s.prepareDish dish_name).2.dishes_ = s.dishes_ := by
  unfold KitchenStation.prepareDish
  split <;> exact ⟨rfl, rfl⟩

/-- The final attempt writes to the station at position `i` only, and only to its
ledger. -/
theorem tryPrepare_frame (i : Nat) (dish_name : String) (m : StationManager) :
    roster (tryPrepare i dish_name m).2.stations = roster m.stations ∧
    (∀ j : Nat, j ≠ i → (tryPrepare i dish_name m).2.stations[j]? = m.stations[j]?) ∧
    (tryPrepare i dish_name m).2.backup_ingredients_ = m.backup_ingredients_ := by
  unfold tryPrepare
  cases hst : m.stations[i]? with
  | none => exact ⟨rfl, fun _ _ => rfl, rfl⟩
  | some station =>
    dsimp only
    refine ⟨roster_set _ _ station _ hst (prepareDish_roster _ _).1 (prepareDish_roster _ _).2,
      fun j hji => ?_, rfl⟩
    exact List.getElem?_set_ne (fun h => hji h.symm)

/-- The station loop keeps the roster; in a manager with distinct station names it leaves
alone every station that lies before the loop index, has an empty name, or is not
assigned a dish of the queued name. -/
theorem stationScan_frame (d : Dish) :
    ∀ (k i : Nat) (m : StationManager),
      roster (stationScan d k i m).2.stations = roster m.stations ∧
      ((m.stations.map (fun st => st.station_name_)).Nodup →
        ∀ (j : Nat) (st : KitchenStation), m.stations[j]? = some st →
          (j < i ∨ st.station_name_ = "" ∨ isPresentLoop d.name_ st.dishes_ = false) →
          (stationScan d k i m).2.stations[j]? = some st) := by
  intro k
  induction k with
  | zero => intro i m; exact ⟨rfl, fun _ j st h _ => h⟩
  | succ k ih =>
    intro i m
    cases hst : m.stations[i]? with
    | none =>
      rw [stationScan, hst]
      exact ⟨rfl, fun _ j st h _ => h⟩
    | some station =>
      rw [stationScan, hst]
      dsimp only
      have hnext : ∀ m1 : StationManager, roster m1.stations = roster m.stations →
          ((m.stations.map (fun st => st.station_name_)).Nodup →
            ∀ (j : Nat) (st : KitchenStation), m.stations[j]? = some st →
              (j < i ∨ st.station_name_ = "" ∨ isPresentLoop d.name_ st.dishes_ = false) →
              m1.stations[j]? = some st) →
          roster (stationScan d k (i + 1) m1).2.stations = roster m.stations ∧
          ((m.stations.map (fun st => st.station_name_)).Nodup →
            ∀ (j : Nat) (st : KitchenStation), m.stations[j]? = some st →
              (j < i ∨ st.station_name_ = "" ∨ isPresentLoop d.name_ st.dishes_ = false) →
              (stationScan d k (i + 1) m1).2.stations[j]? = some st) := by
        intro m1 hr hk
        obtain ⟨hr2, hk2⟩ := ih (i + 1) m1
        refine ⟨hr2.trans hr, fun hnd j st hj hc => ?_⟩
        refine hk2 (by rw [names_of_roster_eq hr]; exact hnd) j st (hk hnd j st hj hc) ?_
        rcases hc with hc | hc | hc
        · exact Or.inl (by omega)
        · exact Or.inr (Or.inl hc)
        · exact Or.inr (Or.inr hc)
      by_cases hname : station.station_name_ = ""
      · rw [if_pos hname]
        exact hnext m rfl (fun _ j st hj _ => hj)
      · rw [if_neg hname]
        by_cases hpres : isPresentLoop d.name_ station.dishes_ = false
        · rw [if_pos hpres]
          exact hnext m rfl (fun _ j st hj _ => hj)
        · rw [if_neg hpres]
          have hji : ∀ (j : Nat) (st : KitchenStation), m.stations[j]? = some st →
              (j < i ∨ st.station_name_ = "" ∨ isPresentLoop d.name_ st.dishes_ = false) →
              j ≠ i := by
            intro j st hj hc he
            rw [he, hst] at hj
            cases hj
            rcases hc with hc | hc | hc
            · omega
            · exact hname hc
            · exact hpres hc
          obtain ⟨hrP, hkP⟩ := replenishPass_frame i d.ingredients_ m
          obtain ⟨hrT, hkT, _⟩ := tryPrepare_frame i d.name_ m
          obtain ⟨hrPT, hkPT, _⟩ := tryPrepare_frame i d.name_
            (replenishPass i d.ingredients_ m).2
          by_cases hcan : station.canCompleteOrder d.name_ = false
          · rw [if_pos hcan]
            by_cases hrep : (replenishPass i d.ingredients_ m).1 = true
            · rw [if_pos hrep]
              have hkeep : (m.stations.map (fun st => st.station_name_)).Nodup →
                  ∀ (j : Nat) (st : KitchenStation), m.stations[j]? = some st →
                    (j < i ∨ st.station_name_ = "" ∨
                      isPresentLoop d.name_ st.dishes_ = false) →
                    (tryPrepare i d.name_ (replenishPass i d.ingredients_ m).2).2.stations[j]?
                      = some st := by
                intro hnd j st hj hc
                rw [hkPT j (hji j st hj hc)]
                exact hkP hnd j st (hji j st hj hc) hj
              by_cases hp : (tryPrepare i d.name_ (replenishPass i d.ingredients_ m).2).1 = true
              · rw [if_pos hp]
                exact ⟨hrPT.trans hrP, hkeep⟩
              · rw [if_neg hp]
                exact hnext _ (hrPT.trans hrP) hkeep
            · rw [if_neg hrep]
              exact hnext _ hrP (fun hnd j st hj hc => hkP hnd j st (hji j st hj hc) hj)
          · rw [if_neg hcan]
            have hkeep : (m.stations.map (fun st => st.station_name_)).Nodup →
                ∀ (j : Nat) (st : KitchenStation), m.stations[j]? = some st →
                  (j < i ∨ st.station_name_ = "" ∨
                    isPresentLoop d.name_ st.dishes_ = false) →
                  (tryPrepare i d.name_ m).2.stations[j]? = some st := by
              intro _ j st hj hc
              rw [hkT j (hji j st hj hc)]
              exact hj
            by_cases hp : (tryPrepare i d.name_ m).1 = true
            · rw [if_pos hp]
              exact ⟨hrT, hkeep⟩
            · rw [if_neg hp]
              exact hnext _ hrT hkeep

/-- The queue loop keeps the roster; in a manager with distinct station names it leaves
alone every station that is assigned no dish with the name of an item it handles. -/
theorem processLoop_frame :
    ∀ (items temp_queue : List Dish) (m : StationManager),
      roster (processLoop items temp_queue m).stations = roster m.stations ∧
      ((m.stations.map (fun st => st.station_name_)).Nodup →
        ∀ (j : Nat) (st : KitchenStation), m.stations[j]? = some st →
          (∀ d ∈ items, isPresentLoop d.name_ st.dishes_ = false) →
          (processLoop items temp_queue m).stations[j]? = some st) := by
  intro items
  induction items with
  | nil => intro temp_queue m; exact ⟨rfl, fun _ j st h _ => h⟩
  | cons d rest ih =>
    intro temp_queue m
    rw [processLoop]
    by_cases hn : d.name_ = ""
    · rw [if_pos hn]
      obtain ⟨hr, hk⟩ := ih temp_queue { m with dish_queue_ := rest }
      exact ⟨hr, fun hnd j st hj hno =>
        hk hnd j st hj (fun d1 hd1 => hno d1 (List.mem_cons_of_mem _ hd1))⟩
    · rw [if_neg hn]
      dsimp only
      have hS : roster (attemptDish d m).2.stations = roster m.stations ∧
          ((m.stations.map (fun st => st.station_name_)).Nodup →
            ∀ (j : Nat) (st : KitchenStation), m.stations[j]? = some st →
              (j < 0 ∨ st.station_name_ = "" ∨ isPresentLoop d.name_ st.dishes_ = false) →
              (attemptDish d m).2.stations[j]? = some st) :=
        stationScan_frame d m.stations.length 0 m
      obtain ⟨hrS, hkS⟩ := hS
      have hstep : ∀ tq : List Dish,
          roster (processLoop rest tq
            { (attemptDish d m).2 with dish_queue_ := rest }).stations = roster m.stations ∧
          ((m.stations.map (fun st => st.station_name_)).Nodup →
            ∀ (j : Nat) (st : KitchenStation), m.stations[j]? = some st →
              (∀ d1 ∈ d :: rest, isPresentLoop d1.name_ st.dishes_ = false) →
              (processLoop rest tq
                { (attemptDish d m).2 with dish_queue_ := rest }).stations[j]? = some st) := by
        intro tq
        obtain ⟨hr, hk⟩ := ih tq { (attemptDish d m).2 with dish_queue_ := rest }
        refine ⟨hr.trans hrS, fun hnd j st hj hno => ?_⟩
        have hnd1 : ((attemptDish d m).2.stations.map (fun st => st.station_name_)).Nodup := by
          rw [names_of_roster_eq hrS]; exact hnd
        exact hk hnd1 j st
          (hkS hnd j st hj (Or.inr (Or.inr (hno d (List.mem_cons_self _ _)))))
          (fun d1 hd1 => hno d1 (List.mem_cons_of_mem _ hd1))
      by_cases hp : (attemptDish d m).1 = true
      · rw [if_pos hp]
        exact hstep temp_queue
      · rw [if_neg hp]
        exact hstep (temp_queue ++ [d])

/-- Claim C34: in a manager whose station names are distinct, `processAllDishes` leaves
a station that is assigned no dish with the name of a queued item exactly as it was: it
is skipped, receives no backup stock and consumes nothing.  The names and the assigned
dishes of all stations stay as they were. -/
theorem processAllDishes_skips_unassigned (m : StationManager) (j : Nat) (st : KitchenStation)
    (hnd : (m.stations.map (fun s => s.station_name_)).Nodup)
    (hst : m.stations[j]? = some st)
    (hno : ∀ d ∈ m.dish_queue_, st.isPresent d.name_ = false) :
    m.processAllDishes.stations[j]? = some st ∧
      roster m.processAllDishes.stations = roster m.stations := by
  obtain ⟨hr, hk⟩ := processLoop_frame m.dish_queue_ [] m
  exact ⟨hk hnd j st hst hno, hr⟩

/-- The claim C34 at `bystanderManager`: `Grill` is replenished and prepares the queued
`Chicken Plate`; `Bar`, which is not assigned it, stays as it was. -/
theorem processAllDishes_skips_unassigned_witness :
    bystanderManager.processAllDishes =
        ⟨[⟨"Grill", [chickenPlate], []⟩, bar], [], [⟨"Chicken", 4, 0, 0⟩]⟩ ∧
      (bystanderManager.processAllDishes.stations[1]? = some bar ∧
        roster bystanderManager.processAllDishes.stations = roster bystanderManager.stations) :=
  ⟨by decide,
    processAllDishes_skips_unassigned bystanderManager 1 bar (by decide) (by decide)
      (by decide)⟩

/-! ## The first station that is assigned the queued dish -/

/-- Claim C33, evaluated.  In `saladManager` the only station is assigned the queued dish
`D` and can complete the order (five `A` on hand, one required), yet its `prepareDish`
refuses, so `processAllDishes` leaves `D` in the queue.  In `refusalManager` the same
station comes first and a second station `Fryer` is assigned a dish `D` as well: the
dish is prepared at `Fryer`, whose ledger goes from five `A` to four. -/
theorem processAllDishes_first_station_refuses :
    saladStation.isPresent "D" = true ∧
    saladStation.canCompleteOrder "D" = true ∧
    (saladStation.prepareDish "D").1 = false ∧
    saladManager.processAllDishes = saladManager ∧
    refusalManager.processAllDishes =
      ⟨[saladStation, ⟨"Fryer", [plainDish], [⟨"A", 4, 0, 0⟩]⟩], [], []⟩ := by
  decide

/-- A backup scan for one name leaves the totals of every other name as they were. -/
theorem backupScan_other (ingredient_name : String) (quantity : Int) (n : String)
    (hn : n ≠ ingredient_name) :
    ∀ (backup : List Ingredient) (r : Ingredient) (backup1 : List Ingredient),
      backupScan ingredient_name quantity backup = some (r, backup1) →
      totalQuantity n backup1 = totalQuantity n backup := by
  intro backup
  induction backup with
  | nil => intro r backup1 h; cases h
  | cons b rest ih =>
    intro r backup1 h
    unfold backupScan at h
    by_cases hb : b.name = ingredient_name
    · have hbn : ¬ b.name = n := fun h1 => hn (h1.symm.trans hb)
      rw [if_pos hb] at h
      by_cases hq : b.quantity ≥ quantity
      · rw [if_pos hq] at h
        dsimp only at h
        by_cases hz : b.quantity - quantity = 0
        · rw [if_pos hz] at h
          cases h
          simp only [totalQuantity, if_neg hbn]; omega
        · rw [if_neg hz] at h
          cases h
          simp only [totalQuantity, if_neg hbn]
      · rw [if_neg hq] at h; cases h
    · rw [if_neg hb] at h
      cases hr : backupScan ingredient_name quantity rest with
      | none => rw [hr] at h; cases h
      | some p =>
        obtain ⟨r1, rest1⟩ := p
        rw [hr] at h
        cases h
        simp only [totalQuantity, ih r rest1 hr]

/-- A successful withdrawal lowers the backup total of its ingredient by the quantity,
keeps the backup totals of the other names, and keeps at every station the on-hand
quantity of the other names. -/
theorem replenishFromBackup_amounts (m : StationManager)
    (station_name ingredient_name : String) (quantity : Int)
    (hok : (m.replenishStationIngredientFromBackup station_name ingredient_name quantity).1
      = true) :
    totalQuantity ingredient_name
        (m.replenishStationIngredientFromBackup station_name ingredient_name
          quantity).2.backup_ingredients_ =
      totalQuantity ingredient_name m.backup_ingredients_ - quantity ∧
    (∀ n : String, n ≠ ingredient_name →
      totalQuantity n
          (m.replenishStationIngredientFromBackup station_name ingredient_name
            quantity).2.backup_ingredients_ = totalQuantity n m.backup_ingredients_) ∧
    (∀ (j : Nat) (st : KitchenStation), m.stations[j]? = some st →
      ∃ st1, (m.replenishStationIngredientFromBackup station_name ingredient_name
          quantity).2.stations[j]? = some st1 ∧
        ∀ n : String, n ≠ ingredient_name →
          onHand n st1.ingredients_stock_ = onHand n st.ingredients_stock_) := by
  obtain ⟨i, r, backup1, hf, hb, heq⟩ := replenishFromBackup_true m _ _ _ hok
  obtain ⟨hrn, _, htot, _⟩ := backupScan_some _ _ _ _ _ hb
  rw [heq]
  refine ⟨htot, fun n hn => backupScan_other _ _ n hn _ _ _ hb, fun j st hj => ?_⟩
  dsimp only
  by_cases hji : j = i
  · subst hji
    refine ⟨st.replenishStationIngredients r, getElem?_modifyAt_eq _ _ _ _ hj, fun n hn => ?_⟩
    have hadd := (replenishStock_add n r st.ingredients_stock_).1
    rw [if_neg (fun h1 => hn (h1.symm.trans hrn))] at hadd
    show onHand n (replenishStock r st.ingredients_stock_) = _
    omega
  · exact ⟨st, by rw [getElem?_modifyAt_ne _ _ _ _ hji]; exact hj, fun _ _ => rfl⟩

/-- The loop over a list that continues with a second list is the loop over the second
list, started where a successful loop over the first one ends. -/
theorem replenishPass_append (i : Nat) (post : List Ingredient) :
    ∀ (pre : List Ingredient) (m : StationManager),
      replenishPass i (pre ++ post) m =
        if (replenishPass i pre m).1 then replenishPass i post (replenishPass i pre m).2
        else (false, (replenishPass i pre m).2) := by
  intro pre
  induction pre with
  | nil => intro m; rfl
  | cons x pre ih =>
    intro m
    cases hst : m.stations[i]? with
    | none =>
      rw [List.cons_append, replenishPass_no_station i x _ m hst,
        replenishPass_no_station i x _ m hst]
      rfl
    | some station =>
      rcases replenishPass_step i x (pre ++ post) m station hst with ⟨h1, h2, heq⟩ | ⟨h1, heq⟩
      · rcases replenishPass_step i x pre m station hst with ⟨_, _, heq2⟩ | ⟨h3, _⟩
        · rw [List.cons_append, heq, heq2]
          exact ih m
        · rcases h3 with ⟨_, h4⟩ | h4
          · omega
          · obtain ⟨e, he, hen⟩ := h1
            exact absurd hen (h4 e he)
      · rcases replenishPass_step i x pre m station hst with ⟨h3, h4, _⟩ | ⟨_, heq2⟩
        · rcases h1 with ⟨_, h5⟩ | h5
          · omega
          · obtain ⟨e, he, hen⟩ := h3
            exact absurd hen (h5 e he)
        · rw [List.cons_append, heq, heq2]
          split
          · exact ih _
          · rfl

/-- The loop over one ingredient. -/
theorem replenishPass_single (i : Nat) (x : Ingredient) (m : StationManager)
    (station : KitchenStation) (hst : m.stations[i]? = some station) :
    ((∃ e ∈ station.ingredients_stock_, e.name = x.name) ∧
        x.required_quantity - onHand x.name station.ingredients_stock_ ≤ 0 ∧
        replenishPass i [x] m = (true, m)) ∨
    ((((∃ e ∈ station.ingredients_stock_, e.name = x.name) ∧
          0 < x.required_quantity - onHand x.name station.ingredients_stock_) ∨
        (∀ e ∈ station.ingredients_stock_, e.name ≠ x.name)) ∧
      replenishPass i [x] m =
        ((m.replenishStationIngredientFromBackup station.station_name_ x.name
            (x.required_quantity - onHand x.name station.ingredients_stock_)).1,
          (m.replenishStationIngredientFromBackup station.station_name_ x.name
            (x.required_quantity - onHand x.name station.ingredients_stock_)).2)) := by
  rcases replenishPass_step i x [] m station hst with ⟨h1, h2, heq⟩ | ⟨h1, heq⟩
  · exact Or.inl ⟨h1, h2, by rw [heq]; rfl⟩
  · refine Or.inr ⟨h1, ?_⟩
    rw [heq]
    cases hr : (m.replenishStationIngredientFromBackup station.station_name_ x.name
        (x.required_quantity - onHand x.name station.ingredients_stock_)).1 with
    | true => rfl
    | false => rfl

/-- The turn of one ingredient, when it succeeds, keeps the backup totals of every other
name and, at every station, the on-hand quantity of every other name. -/
theorem replenishPass_turn_others (i : Nat) (x : Ingredient) (m : StationManager)
    (hok : (replenishPass i [x] m).1 = true) :
    (∀ n : String, n ≠ x.name →
      totalQuantity n (replenishPass i [x] m).2.backup_ingredients_
        = totalQuantity n m.backup_ingredients_) ∧
    (∀ (j : Nat) (st : KitchenStation), m.stations[j]? = some st →
      ∃ st1, (replenishPass i [x] m).2.stations[j]? = some st1 ∧
        ∀ n : String, n ≠ x.name →
          onHand n st1.ingredients_stock_ = onHand n st.ingredients_stock_) := by
  cases hst : m.stations[i]? with
  | none =>
    rw [replenishPass_no_station i x [] m hst] at hok
    cases hok
  | some station =>
    rcases replenishPass_single i x m station hst with ⟨_, _, heq⟩ | ⟨_, heq⟩
    · rw [heq]
      exact ⟨fun _ _ => rfl, fun j st hj => ⟨st, hj, fun _ _ => rfl⟩⟩
    · rw [heq] at hok ⊢
      obtain ⟨_, h2, h3⟩ := replenishFromBackup_amounts m _ _ _ hok
      exact ⟨h2, h3⟩

/-- The turn of one ingredient, when it succeeds, lowers the backup total of its name by
the deficit: the required quantity less the on-hand quantity, or nothing when that is
not positive. -/
theorem replenishPass_turn_amount (i : Nat) (x : Ingredient) (m : StationManager)
    (station : KitchenStation) (hst : m.stations[i]? = some station)
    (hreq : 0 ≤ x.required_quantity) (hok : (replenishPass i [x] m).1 = true) :
    totalQuantity x.name (replenishPass i [x] m).2.backup_ingredients_ =
      totalQuantity x.name m.backup_ingredients_ -
        max 0 (x.required_quantity - onHand x.name station.ingredients_stock_) ∧
    ((∃ e ∈ station.ingredients_stock_, e.name = x.name) →
      x.required_quantity ≤ onHand x.name station.ingredients_stock_ →
      (replenishPass i [x] m).2 = m) := by
  rcases replenishPass_single i x m station hst with ⟨_, h2, heq⟩ | ⟨h1, heq⟩
  · rw [heq]
    refine ⟨?_, fun _ _ => rfl⟩
    rw [max_eq_left h2]
    simp
  · rw [heq] at hok ⊢
    obtain ⟨h3, _, _⟩ := replenishFromBackup_amounts m _ _ _ hok
    refine ⟨?_, fun hex hle => ?_⟩
    · rw [h3]
      rcases h1 with ⟨_, hpos⟩ | hno
      · rw [max_eq_right (le_of_lt hpos)]
      · rw [onHand_absent _ _ hno, sub_zero, max_eq_right hreq]
    · rcases h1 with ⟨_, hpos⟩ | hno
      · omega
      · obtain ⟨e, he, hen⟩ := hex
        exact absurd hen (hno e he)

/-- A successful loop over ingredients none of which has the name `n` keeps the backup
total of `n` and the on-hand quantity of `n` at every station. -/
theorem replenishPass_others (i : Nat) (n : String) :
    ∀ (ingredients : List Ingredient) (m : StationManager),
      (∀ y ∈ ingredients, y.name ≠ n) → (replenishPass i ingredients m).1 = true →
      totalQuantity n (replenishPass i ingredients m).2.backup_ingredients_
        = totalQuantity n m.backup_ingredients_ ∧
      (∀ (j : Nat) (st : KitchenStation), m.stations[j]? = some st →
        ∃ st1, (replenishPass i ingredients m).2.stations[j]? = some st1 ∧
          onHand n st1.ingredients_stock_ = onHand n st.ingredients_stock_) := by
  intro ingredients
  induction ingredients with
  | nil => intro m _ _; exact ⟨rfl, fun j st hj => ⟨st, hj, rfl⟩⟩
  | cons x rest ih =>
    intro m hno hok
    have happ := replenishPass_append i rest [x] m
    rw [List.singleton_append] at happ
    rw [happ] at hok ⊢
    by_cases h1 : (replenishPass i [x] m).1 = true
    · rw [if_pos h1] at hok ⊢
      have hxn : n ≠ x.name := fun h => hno x (List.mem_cons_self _ _) h.symm
      obtain ⟨ht, hs⟩ := replenishPass_turn_others i x m h1
      obtain ⟨ht2, hs2⟩ := ih (replenishPass i [x] m).2
        (fun y hy => hno y (List.mem_cons_of_mem _ hy)) hok
      refine ⟨by rw [ht2, ht n hxn], fun j st hj => ?_⟩
      obtain ⟨st1, hj1, ho1⟩ := hs j st hj
      obtain ⟨st2, hj2, ho2⟩ := hs2 j st1 hj1
      exact ⟨st2, hj2, by rw [ho2, ho1 n hxn]⟩
    · rw [if_neg h1] at hok
      cases hok

/-- Claim C32: in the replenishment pass that `processAllDishes` runs for the station at
position `i`, over the ingredient list `pre ++ x :: post` of the queued dish, when no
withdrawal fails the amount withdrawn from the backup store at the turn of `x` is
exactly `max 0 (required_quantity - on-hand quantity)`, the on-hand quantity being that
of the ledger of the station at that turn and 0 when the ledger has no entry of the
name; an ingredient that is stocked sufficiently causes no change at all.  When the dish
names each ingredient once, the on-hand quantity at the turn of `x` is the one before
the pass, and the whole pass lowers the backup total of `x` by that amount. -/
theorem replenishPass_withdraws_deficit (i : Nat) (pre post : List Ingredient) (x : Ingredient)
    (m : StationManager) (station station1 : KitchenStation)
    (hst : m.stations[i]? = some station)
    (hst1 : (replenishPass i pre m).2.stations[i]? = some station1)
    (hreq : 0 ≤ x.required_quantity)
    (hok : (replenishPass i (pre ++ x :: post) m).1 = true) :
    totalQuantity x.name (replenishPass i (pre ++ [x]) m).2.backup_ingredients_ =
      totalQuantity x.name (replenishPass i pre m).2.backup_ingredients_ -
        max 0 (x.required_quantity - onHand x.name station1.ingredients_stock_) ∧
    ((∃ e ∈ station1.ingredients_stock_, e.name = x.name) →
      x.required_quantity ≤ onHand x.name station1.ingredients_stock_ →
      (replenishPass i (pre ++ [x]) m).2 = (replenishPass i pre m).2) ∧
    (UniqueNames (pre ++ x :: post) →
      onHand x.name station1.ingredients_stock_ = onHand x.name station.ingredients_stock_ ∧
      totalQuantity x.name (replenishPass i (pre ++ x :: post) m).2.backup_ingredients_ =
        totalQuantity x.name m.backup_ingredients_ -
          max 0 (x.required_quantity - onHand x.name station.ingredients_stock_)) := by
  have happ1 := replenishPass_append i (x :: post) pre m
  have happ2 := replenishPass_append i [x] pre m
  have happ3 := replenishPass_append i post [x] (replenishPass i pre m).2
  rw [List.singleton_append] at happ3
  rw [happ1] at hok
  by_cases hpre : (replenishPass i pre m).1 = true
  · rw [if_pos hpre] at hok happ1 happ2
    rw [happ3] at hok happ1
    by_cases hx : (replenishPass i [x] (replenishPass i pre m).2).1 = true
    · rw [if_pos hx] at hok happ1
      obtain ⟨hamount, hnone⟩ :=
        replenishPass_turn_amount i x (replenishPass i pre m).2 station1 hst1 hreq hx
      rw [happ2]
      refine ⟨hamount, hnone, fun hu => ?_⟩
      unfold UniqueNames at hu
      rw [List.map_append, List.map_cons, List.nodup_append] at hu
      obtain ⟨_, hu2, hdis⟩ := hu
      have hprex : ∀ y ∈ pre, y.name ≠ x.name := by
        intro y hy hn
        exact hdis (List.mem_map.2 ⟨y, hy, rfl⟩) (by rw [hn]; exact List.mem_cons_self _ _)
      have hpostx : ∀ y ∈ post, y.name ≠ x.name := by
        intro y hy hn
        exact (List.nodup_cons.1 hu2).1 (List.mem_map.2 ⟨y, hy, hn⟩)
      obtain ⟨ht1, hs1⟩ := replenishPass_others i x.name pre m hprex hpre
      obtain ⟨ht2, _⟩ := replenishPass_others i x.name post
        (replenishPass i [x] (replenishPass i pre m).2).2 hpostx hok
      obtain ⟨st1, hj1, ho1⟩ := hs1 i station hst
      rw [hst1] at hj1
      cases hj1
      refine ⟨ho1, ?_⟩
      rw [happ1, ht2, hamount, ht1, ho1]
    · rw [if_neg hx] at hok
      cases hok
  · rw [if_neg hpre] at hok
    cases hok

/-- The claim C32 at `grillManager`: `Grill` holds 2 `Chicken`, the queued dish requires
3, and the pass takes exactly 1 of the 5 in the backup store. -/
theorem replenishPass_withdraws_deficit_witness :
    (replenishPass 0 ([] ++ (⟨"Chicken", 0, 3, 0⟩ : Ingredient) :: []) grillManager).1 = true ∧
      totalQuantity "Chicken" grillManager.backup_ingredients_ = 5 ∧
      onHand "Chicken" grill.ingredients_stock_ = 2 ∧
      totalQuantity "Chicken"
          (replenishPass 0 ([] ++ [(⟨"Chicken", 0, 3, 0⟩ : Ingredient)])
            grillManager).2.backup_ingredients_ =
        totalQuantity "Chicken" (replenishPass 0 [] grillManager).2.backup_ingredients_ -
          max 0 ((3 : Int) - onHand "Chicken" grill.ingredients_stock_) :=
  ⟨by decide, by decide, by decide,
    (replenishPass_withdraws_deficit 0 [] [] ⟨"Chicken", 0, 3, 0⟩ grillManager grill grill
      (by decide) (by decide) (by decide) (by decide)).1⟩

/-! ### After a pass without a failed withdrawal -/

/-- The test of the innermost loop of `canCompleteOrder`, as a property of the ledger. -/
theorem canScan_covered (ingredient : Ingredient) (stock : List Ingredient) :
    canScan ingredient stock false = some true ↔ Covered ingredient stock := by
  rw [canScan_true_iff]
  unfold Covered
  constructor
  · rintro ⟨h1, h2⟩
    rcases h2 with h2 | h2
    · cases h2
    · exact ⟨h2, h1⟩
  · rintro ⟨h1, h2⟩
    exact ⟨h2, Or.inr h1⟩

/-- A station can complete the order for a dish name when the first assigned dish of the
name has every ingredient covered by the ledger. -/
theorem canCompleteOrder_of_covered (s : KitchenStation) (dish_name : String) (dish : Dish)
    (hd : firstDish dish_name s.dishes_ = some dish)
    (hc : ∀ x ∈ dish.ingredients_, Covered x s.ingredients_stock_) :
    s.canCompleteOrder dish_name = true := by
  unfold KitchenStation.canCompleteOrder
  rw [canDishes_eq, hd]
  dsimp only
  rw [canIngredients_true_iff]
  exact fun x hx => (canScan_covered x _).2 (hc x hx)

/-- Replenishing an entry by a quantity that is not negative, or adding an entry of a new
name, keeps every required ingredient covered that was covered. -/
theorem covered_replenishStock (y r : Ingredient) (stock : List Ingredient)
    (hr : 0 ≤ r.quantity ∨ ∀ e ∈ stock, e.name ≠ r.name) (hc : Covered y stock) :
    Covered y (replenishStock r stock) := by
  obtain ⟨⟨e0, he0, hn0⟩, hall⟩ := hc
  unfold replenishStock
  cases hl : replenishLoop r stock with
  | none =>
    dsimp only
    have hno := replenishLoop_none r stock hl
    refine ⟨⟨e0, List.mem_append_left _ he0, hn0⟩, fun e he hen => ?_⟩
    rcases List.mem_append.1 he with he | he
    · exact hall e he hen
    · rw [List.mem_singleton] at he
      subst he
      exact absurd (hn0.trans hen.symm) (hno e0 he0)
  | some stock1 =>
    dsimp only
    obtain ⟨pre, x, post, hs, hpre, hxn, hs1⟩ := replenishLoop_some_split r stock stock1 hl
    have hq : 0 ≤ r.quantity := by
      rcases hr with hr | hr
      · exact hr
      · exact absurd hxn (hr x (by rw [hs]; simp))
    subst hs hs1
    constructor
    · rcases List.mem_append.1 he0 with h | h
      · exact ⟨e0, List.mem_append_left _ h, hn0⟩
      · rcases List.mem_cons.1 h with h | h
        · subst h
          exact ⟨{ e0 with quantity := e0.quantity + r.quantity },
            List.mem_append_right _ (List.mem_cons_self _ _), hn0⟩
        · exact ⟨e0, List.mem_append_right _ (List.mem_cons_of_mem _ h), hn0⟩
    · intro e he hen
      rcases List.mem_append.1 he with h | h
      · exact hall e (List.mem_append_left _ h) hen
      · rcases List.mem_cons.1 h with h | h
        · subst h
          have := hall x (List.mem_append_right _ (List.mem_cons_self _ _)) hen
          show x.quantity + r.quantity ≥ y.required_quantity
          omega
        · exact hall e (List.mem_append_right _ (List.mem_cons_of_mem _ h)) hen

/-- On a ledger with one entry per name, replenishing by the deficit of a required
ingredient, or by the whole required quantity when the ledger has no entry of the name,
covers the ingredient. -/
theorem covered_after_deficit (x r : Ingredient) (stock : List Ingredient)
    (hu : UniqueNames stock) (hrn : r.name = x.name)
    (hrq : r.quantity = x.required_quantity - onHand x.name stock) :
    Covered x (replenishStock r stock) := by
  unfold replenishStock
  cases hl : replenishLoop r stock with
  | none =>
    dsimp only
    have hno := replenishLoop_none r stock hl
    rw [hrn] at hno
    rw [onHand_absent _ _ hno, sub_zero] at hrq
    refine ⟨⟨r, List.mem_append_right _ (List.mem_singleton_self _), hrn⟩, fun e he hen => ?_⟩
    rcases List.mem_append.1 he with he | he
    · exact absurd hen (hno e he)
    · rw [List.mem_singleton] at he
      subst he
      omega
  | some stock1 =>
    dsimp only
    obtain ⟨pre, e0, post, hs, hpre, hxn, hs1⟩ := replenishLoop_some_split r stock stock1 hl
    rw [hrn] at hpre hxn
    have hon : onHand x.name stock = e0.quantity := by
      rw [hs, onHand_append_absent _ _ _ hpre, onHand_cons_eq _ _ _ hxn]
    have hpost : ∀ e ∈ post, e.name ≠ x.name := by
      intro e he hen
      have h1 : e ∈ stock := by rw [hs]; exact List.mem_append_right _ (List.mem_cons_of_mem _ he)
      have h2 : e0 ∈ stock := by rw [hs]; exact List.mem_append_right _ (List.mem_cons_self _ _)
      have h3 : e = e0 := unique_entry hu h1 h2 (hen.trans hxn.symm)
      subst h3
      unfold UniqueNames at hu
      rw [hs, List.map_append, List.map_cons, List.nodup_append] at hu
      exact (List.nodup_cons.1 hu.2.1).1 (List.mem_map.2 ⟨e, he, rfl⟩)
    subst hs1
    refine ⟨⟨{ e0 with quantity := e0.quantity + r.quantity },
      List.mem_append_right _ (List.mem_cons_self _ _), hxn⟩, fun e he hen => ?_⟩
    rcases List.mem_append.1 he with h | h
    · exact absurd hen (hpre e h)
    · rcases List.mem_cons.1 h with h | h
      · subst h
        show e0.quantity + r.quantity ≥ x.required_quantity
        omega
      · exact absurd hen (hpost e h)

/-- A ledger that holds an entry of the name with at least the required quantity, and no
second entry of the name, covers the ingredient. -/
theorem covered_of_onHand (x : Ingredient) (stock : List Ingredient) (hu : UniqueNames stock)
    (hex : ∃ e ∈ stock, e.name = x.name) (hq : x.required_quantity ≤ onHand x.name stock) :
    Covered x stock := by
  refine ⟨hex, fun e he hen => ?_⟩
  obtain ⟨e0, h2, hxn, hon⟩ := onHand_entry x.name stock hex
  have h3 : e = e0 := unique_entry hu he h2 (hen.trans hxn.symm)
  rw [h3]
  omega

/-- The turn of one ingredient in a manager with distinct station names, for a station
whose ledger has one entry per name: when it succeeds, the station still has one entry
per name, covers the ingredient, and covers whatever it covered before. -/
theorem replenishPass_turn_covers (i : Nat) (x : Ingredient) (m : StationManager)
    (station : KitchenStation)
    (hnd : (m.stations.map (fun st => st.station_name_)).Nodup)
    (hst : m.stations[i]? = some station) (hu : UniqueNames station.ingredients_stock_)
    (hok : (replenishPass i [x] m).1 = true) :
    ∃ st1, (replenishPass i [x] m).2.stations[i]? = some st1 ∧
      st1.dishes_ = station.dishes_ ∧ UniqueNames st1.ingredients_stock_ ∧
      Covered x st1.ingredients_stock_ ∧
      (∀ y : Ingredient, Covered y station.ingredients_stock_ →
        Covered y st1.ingredients_stock_) ∧
      roster (replenishPass i [x] m).2.stations = roster m.stations := by
  rcases replenishPass_single i x m station hst with ⟨hex, hle, heq⟩ | ⟨hcase, heq⟩
  · rw [heq]
    exact ⟨station, hst, rfl, hu, covered_of_onHand x _ hu hex (by omega), fun _ h => h, rfl⟩
  · rw [heq] at hok ⊢
    have hf := findStation_nodup m.stations i station hnd hst
    obtain ⟨r, backup1, _, hrn, hrq, hat, _⟩ :=
      replenishFromBackup_at m station.station_name_ x.name _ i station hf hst hok
    refine ⟨station.replenishStationIngredients r, hat, rfl,
      replenishStock_unique r _ hu, covered_after_deficit x r _ hu hrn hrq, fun y hy => ?_,
      (replenishFromBackup_frame m _ _ _).1⟩
    refine covered_replenishStock y r _ ?_ hy
    rcases hcase with ⟨_, hpos⟩ | hno
    · exact Or.inl (by rw [hrq]; exact le_of_lt hpos)
    · exact Or.inr (fun e he => by rw [hrn]; exact hno e he)

/-- A pass without a failed withdrawal, in a manager with distinct station names, for a
station whose ledger has one entry per name: afterwards the ledger covers every
ingredient of the list. -/
theorem replenishPass_covers (i : Nat) :
    ∀ (ingredients : List Ingredient) (m : StationManager) (station : KitchenStation),
      (m.stations.map (fun st => st.station_name_)).Nodup →
      m.stations[i]? = some station → UniqueNames station.ingredients_stock_ →
      (replenishPass i ingredients m).1 = true →
      ∃ st1, (replenishPass i ingredients m).2.stations[i]? = some st1 ∧
        st1.dishes_ = station.dishes_ ∧ UniqueNames st1.ingredients_stock_ ∧
        (∀ x ∈ ingredients, Covered x st1.ingredients_stock_) ∧
        (∀ y : Ingredient, Covered y station.ingredients_stock_ →
          Covered y st1.ingredients_stock_) := by
  intro ingredients
  induction ingredients with
  | nil =>
    intro m station _ hst hu _
    exact ⟨station, hst, rfl, hu, (fun x hx => by cases hx), (fun _ h => h)⟩
  | cons x rest ih =>
    intro m station hnd hst hu hok
    have happ := replenishPass_append i rest [x] m
    rw [List.singleton_append] at happ
    rw [happ] at hok ⊢
    by_cases h1 : (replenishPass i [x] m).1 = true
    · rw [if_pos h1] at hok ⊢
      obtain ⟨st1, hj1, hd1, hu1, hc1, hm1, hr1⟩ :=
        replenishPass_turn_covers i x m station hnd hst hu h1
      obtain ⟨st2, hj2, hd2, hu2, hc2, hm2⟩ := ih (replenishPass i [x] m).2 st1
        (by rw [names_of_roster_eq hr1]; exact hnd) hj1 hu1 hok
      refine ⟨st2, hj2, hd2.trans hd1, hu2, fun y hy => ?_, fun y hy => hm2 y (hm1 y hy)⟩
      rcases List.mem_cons.1 hy with rfl | hy
      · exact hm2 _ hc1
      · exact hc2 y hy
    · rw [if_neg h1] at hok
      cases hok

/-- Claim C36: in a manager with distinct station names, for a station whose ledger has
one entry per name and whose assigned dish of the queued name is the queued dish
itself, a replenishment pass in which no withdrawal fails leaves the station able to
complete the order: its `canCompleteOrder` for the dish is true right after the
pass. -/
theorem replenishPass_then_canComplete (m : StationManager) (i : Nat) (station : KitchenStation)
    (dish : Dish)
    (hnd : (m.stations.map (fun st => st.station_name_)).Nodup)
    (hst : m.stations[i]? = some station) (hu : UniqueNames station.ingredients_stock_)
    (hd : firstDish dish.name_ station.dishes_ = some dish)
    (hok : (replenishPass i dish.ingredients_ m).1 = true) :
    ∃ station1, (replenishPass i dish.ingredients_ m).2.stations[i]? = some station1 ∧
      station1.canCompleteOrder dish.name_ = true := by
  obtain ⟨st1, hj1, hd1, _, hc1, _⟩ :=
    replenishPass_covers i dish.ingredients_ m station hnd hst hu hok
  exact ⟨st1, hj1, canCompleteOrder_of_covered st1 dish.name_ dish (by rw [hd1]; exact hd) hc1⟩

/-- The claim C36 at `grillManager`: after the pass `Grill` holds 3 `Chicken` and can
complete the order for `Chicken Plate`. -/
theorem replenishPass_then_canComplete_witness :
    grill.canCompleteOrder "Chicken Plate" = false ∧
      (replenishPass 0 chickenPlate.ingredients_ grillManager).1 = true ∧
      ∃ station1,
        (replenishPass 0 chickenPlate.ingredients_ grillManager).2.stations[0]? = some station1 ∧
          station1.canCompleteOrder chickenPlate.name_ = true :=
  ⟨by decide, by decide,
    replenishPass_then_canComplete grillManager 0 grill chickenPlate (by decide) (by decide)
      (by decide) (by decide) (by decide)⟩

/-! ## Dietary accommodations -/

/-- The index loop of the vegetarian branch computes the list of the rule.  `seen` is the
number of non-vegetarian entries already met (2 standing for two or more), which the
two flags of the loop encode. -/
theorem vegetarianLoop_spec {α : Type} (getName : α → String) (setName : α → String → α) :
    ∀ (suf pre : List α) (k seen : Nat), suf.length ≤ k → seen ≤ 2 →
      vegetarianLoop getName setName k pre.length (decide (1 ≤ seen)) (decide (2 ≤ seen))
          (pre ++ suf) =
        pre ++ vegetarianSpec getName setName seen suf := by
  intro suf
  induction suf with
  | nil =>
    intro pre k seen _ _
    cases k with
    | zero => rfl
    | succ k =>
      rw [vegetarianLoop]
      simp [vegetarianSpec]
  | cons a rest ih =>
    intro pre k seen hk hseen
    cases k with
    | zero => simp at hk
    | succ k =>
      have hk1 : rest.length ≤ k := by simpa using hk
      have hnext : ∀ b : α, pre ++ b :: rest = (pre ++ [b]) ++ rest := by
        intro b; simp
      have hlen : ∀ b : α, (pre ++ [b]).length = pre.length + 1 := by
        intro b; simp
      rw [vegetarianLoop, getElem?_at]
      dsimp only
      by_cases hnv : isNonVegetarian (getName a) = true
      · rw [if_pos hnv]
        rw [vegetarianSpec, if_pos hnv]
        rcases Nat.lt_or_ge seen 1 with h0 | h1
        · have hs : seen = 0 := by omega
          subst hs
          simp only [Nat.le_zero_eq, OfNat.ofNat_ne_zero, one_ne_zero, decide_False, if_true]
          rw [set_at, hnext, ← hlen (setName a "Beans")]
          have := ih (pre ++ [setName a "Beans"]) k 1 hk1 (by omega)
          simp only [le_refl, decide_True, Nat.not_ofNat_le_one, decide_False] at this
          rw [this]
          simp
        · rcases Nat.lt_or_ge seen 2 with h2 | h2
          · have hs : seen = 1 := by omega
            subst hs
            simp only [le_refl, decide_True, Nat.not_ofNat_le_one, decide_False, if_true,
              Bool.true_eq_false, if_false, one_ne_zero]
            rw [set_at, hnext, ← hlen (setName a "Mushrooms")]
            have := ih (pre ++ [setName a "Mushrooms"]) k 2 hk1 (by omega)
            simp only [Nat.one_le_ofNat, le_refl, decide_True] at this
            rw [this]
            simp
          · have hs : seen = 2 := by omega
            subst hs
            simp only [Nat.one_le_ofNat, le_refl, decide_True, Bool.true_eq_false, if_false,
              OfNat.ofNat_ne_zero, OfNat.ofNat_ne_one]
            rw [eraseIdx_middle]
            have := ih pre k 2 hk1 (by omega)
            simp only [Nat.one_le_ofNat, le_refl, decide_True] at this
            exact this
      · rw [if_neg hnv, vegetarianSpec, if_neg hnv, hnext, ← hlen a]
        rw [ih (pre ++ [a]) k seen hk1 hseen]
        simp

/-- The erasing index loop keeps exactly the entries the test does not select, in their
order. -/
theorem eraseLoop_filter {α : Type} (selected : α → Bool) :
    ∀ (suf pre : List α) (k : Nat), suf.length ≤ k →
      eraseLoop selected k pre.length (pre ++ suf) =
        pre ++ suf.filter (fun entry => !selected entry) := by
  intro suf
  induction suf with
  | nil =>
    intro pre k _
    cases k with
    | zero => rfl
    | succ k =>
      rw [eraseLoop]
      simp
  | cons a rest ih =>
    intro pre k hk
    cases k with
    | zero => simp at hk
    | succ k =>
      have hk1 : rest.length ≤ k := by simpa using hk
      rw [eraseLoop, getElem?_at]
      dsimp only
      by_cases hs : selected a = true
      · rw [if_pos hs, eraseIdx_middle, ih pre k hk1,
          List.filter_cons_of_neg (by simp [hs])]
      · have hlen : (pre ++ [a]).length = pre.length + 1 := by simp
        have hnext : pre ++ a :: rest = (pre ++ [a]) ++ rest := by simp
        rw [if_neg hs, hnext, ← hlen, ih (pre ++ [a]) k hk1,
          List.filter_cons_of_pos (by simpa using hs)]
        simp

/-- No non-vegetarian name is left in the list of the rule, for entries whose name is
the one last written to them. -/
theorem vegetarianSpec_clean {α : Type} (getName : α → String) (setName : α → String → α)
    (hset : ∀ (entry : α) (name : String), getName (setName entry name) = name) :
    ∀ (l : List α) (seen : Nat),
      ∀ entry ∈ vegetarianSpec getName setName seen l, isNonVegetarian (getName entry) = false := by
  intro l
  induction l with
  | nil => intro seen entry h; simp [vegetarianSpec] at h
  | cons a rest ih =>
    intro seen entry h
    rw [vegetarianSpec] at h
    by_cases hnv : isNonVegetarian (getName a) = true
    · rw [if_pos hnv] at h
      by_cases h0 : seen = 0
      · rw [if_pos h0] at h
        rcases List.mem_cons.1 h with rfl | h
        · rw [hset]; decide
        · exact ih 1 entry h
      · rw [if_neg h0] at h
        by_cases h1 : seen = 1
        · rw [if_pos h1] at h
          rcases List.mem_cons.1 h with rfl | h
          · rw [hset]; decide
          · exact ih 2 entry h
        · rw [if_neg h1] at h
          exact ih seen entry h
    · rw [if_neg hnv] at h
      rcases List.mem_cons.1 h with rfl | h
      · simpa using hnv
      · exact ih seen entry h

/-- The vegetarian loop as the methods start it. -/
theorem vegetarianLoop_start {α : Type} (getName : α → String) (setName : α → String → α)
    (l : List α) :
    vegetarianLoop getName setName l.length 0 false false l =
      vegetarianSpec getName setName 0 l := by
  have := vegetarianLoop_spec getName setName l [] l.length 0 (Nat.le_refl _) (by omega)
  simpa using this

/-- The erasing loop as the methods start it. -/
theorem eraseLoop_start {α : Type} (selected : α → Bool) (l : List α) :
    eraseLoop selected l.length 0 l = l.filter (fun entry => !selected entry) := by
  have := eraseLoop_filter selected l [] l.length (Nat.le_refl _)
  simpa using this

/-- Claim C31, counterexample: with `request.vegetarian` and `request.gluten_free` both
set, the appetizer made of `Flour` and `Meat` ends with the single ingredient `Beans`,
while the list of the vegetarian rule is `Flour`, `Beans`: `Flour` is not kept. -/
theorem dietaryAccommodations_gluten_counterexample :
    (flourAppetizer.dietaryAccommodations ⟨true, false, true, false, false, false⟩).ingredients_
      = [plainIngredient "Beans"] ∧
    vegetarianSpec (fun x => x.name) Ingredient.rename 0 flourAppetizer.ingredients_
      = [plainIngredient "Flour", plainIngredient "Beans"] := by
  decide

/-- Claim C31, amended: for every ingredient list, `dietaryAccommodations` with
`request.vegetarian = true` turns the list into the original list with the first
non-vegetarian ingredient renamed `Beans`, the second renamed `Mushrooms`, every further
non-vegetarian ingredient removed and all other ingredients kept in their order, less
the ingredients a further flag of the request removes: the gluten-containing ones of an
appetizer when `gluten_free` is set, the dairy and egg ones of a main course when
`vegan` is set.  No non-vegetarian name remains.  This holds for the project-6 and the
project-4 `Appetizer` and for the project-6 `MainCourse`. -/
theorem dietaryAccommodations_vegetarian (request : DietaryRequest)
    (hv : request.vegetarian = true) (a : Appetizer) (a4 : Appetizer4) (c : MainCourse) :
    ((a.dietaryAccommodations request).ingredients_ =
        (if request.gluten_free then
          (vegetarianSpec (fun x => x.name) Ingredient.rename 0 a.ingredients_).filter
            (fun x => !isGluten x.name)
        else vegetarianSpec (fun x => x.name) Ingredient.rename 0 a.ingredients_) ∧
      ∀ x ∈ (a.dietaryAccommodations request).ingredients_, isNonVegetarian x.name = false) ∧
    ((a4.dietaryAccommodations request).ingredients_ =
        (if request.gluten_free then
          (vegetarianSpec (fun x => x) (fun _ name => name) 0 a4.ingredients_).filter
            (fun x => !isGluten x)
        else vegetarianSpec (fun x => x) (fun _ name => name) 0 a4.ingredients_) ∧
      ∀ x ∈ (a4.dietaryAccommodations request).ingredients_, isNonVegetarian x = false) ∧
    ((c.dietaryAccommodations request).ingredients_ =
        (if request.vegan then
          (vegetarianSpec (fun x => x.name) Ingredient.rename 0 c.ingredients_).filter
            (fun x => !isDairyOrEgg x.name)
        else vegetarianSpec (fun x => x.name) Ingredient.rename 0 c.ingredients_) ∧
      ∀ x ∈ (c.dietaryAccommodations request).ingredients_, isNonVegetarian x.name = false) := by
  have hclean := vegetarianSpec_clean (fun (x : Ingredient) => x.name) Ingredient.rename
    (fun _ _ => rfl)
  have hclean4 := vegetarianSpec_clean (fun (x : String) => x) (fun _ name => name)
    (fun _ _ => rfl)
  have ha : (a.dietaryAccommodations request).ingredients_ =
      (if request.gluten_free then
        (vegetarianSpec (fun x => x.name) Ingredient.rename 0 a.ingredients_).filter
          (fun x => !isGluten x.name)
      else vegetarianSpec (fun x => x.name) Ingredient.rename 0 a.ingredients_) := by
    unfold Appetizer.dietaryAccommodations
    simp only [hv, if_true]
    cases request.low_sodium <;> cases request.gluten_free <;>
      simp [vegetarianLoop_start, eraseLoop_start]
  have ha4 : (a4.dietaryAccommodations request).ingredients_ =
      (if request.gluten_free then
        (vegetarianSpec (fun x => x) (fun _ name => name) 0 a4.ingredients_).filter
          (fun x => !isGluten x)
      else vegetarianSpec (fun x => x) (fun _ name => name) 0 a4.ingredients_) := by
    unfold Appetizer4.dietaryAccommodations
    simp only [hv, if_true]
    cases request.low_sodium <;> cases request.gluten_free <;>
      simp [vegetarianLoop_start, eraseLoop_start]
  have hc : (c.dietaryAccommodations request).ingredients_ =
      (if request.vegan then
        (vegetarianSpec (fun x => x.name) Ingredient.rename 0 c.ingredients_).filter
          (fun x => !isDairyOrEgg x.name)
      else vegetarianSpec (fun x => x.name) Ingredient.rename 0 c.ingredients_) := by
    unfold MainCourse.dietaryAccommodations
    simp only [hv, if_true]
    cases request.vegan <;> cases request.gluten_free <;>
      simp [vegetarianLoop_start, eraseLoop_start]
  refine ⟨⟨ha, ?_⟩, ⟨ha4, ?_⟩, ⟨hc, ?_⟩⟩
  · rw [ha]
    intro x hx
    split at hx
    · exact hclean _ _ x (List.mem_of_mem_filter hx)
    · exact hclean _ _ x hx
  · rw [ha4]
    intro x hx
    split at hx
    · exact hclean4 _ _ x (List.mem_of_mem_filter hx)
    · exact hclean4 _ _ x hx
  · rw [hc]
    intro x hx
    split at hx
    · exact hclean _ _ x (List.mem_of_mem_filter hx)
    · exact hclean _ _ x hx

/-- The amended claim C31 at a platter of `Meat`, `Rice`, `Chicken`, `Fish`, `Bacon` with
the vegetarian flag alone: the result is `Beans`, `Rice`, `Mushrooms`. -/
theorem dietaryAccommodations_vegetarian_witness :
    vegetarianSpec (fun x => x.name) Ingredient.rename 0 mixedAppetizer.ingredients_ =
        [plainIngredient "Beans", plainIngredient "Rice", plainIngredient "Mushrooms"] ∧
      (mixedAppetizer.dietaryAccommodations ⟨true, false, false, false, false, false⟩).ingredients_
        = (if (⟨true, false, false, false, false, false⟩ : DietaryRequest).gluten_free then
            (vegetarianSpec (fun x => x.name) Ingredient.rename 0
              mixedAppetizer.ingredients_).filter (fun x => !isGluten x.name)
          else vegetarianSpec (fun x => x.name) Ingredient.rename 0
            mixedAppetizer.ingredients_) ∧
      (mixedAppetizer4.dietaryAccommodations
          ⟨true, false, false, false, false, false⟩).ingredients_ = ["Beans", "Rice", "Mushrooms"] ∧
      (mixedCourse.dietaryAccommodations ⟨true, false, false, false, false, false⟩).ingredients_
        = [plainIngredient "Beans", plainIngredient "Rice", plainIngredient "Mushrooms"] :=
  ⟨by decide,
    (dietaryAccommodations_vegetarian ⟨true, false, false, false, false, false⟩ rfl
      mixedAppetizer mixedAppetizer4 mixedCourse).1.1,
    by decide, by decide⟩

end Kitchen
